import Mathlib

/-!
# In-memory file system (`terminal.c`)

A shallow embedding of `terminal.c`.  The C heap is an arena: a `Directory *`
is the index of a node in `Heap.dirs`, a `File *` the index of a cell in
`Heap.fileCells`, and `NULL` is `none`.  `malloc` appends a node to the arena
and returns its index (allocation is assumed to succeed).  Every function
returns an `Option`: `none` stands for undefined behaviour (a dereference of
`NULL` or of an address that was never allocated) or for a loop that never
ends (the pointer chain it follows is cyclic).  A C string is a `String`,
`strcmp(a, b) == 0` is `a = b`.  The standard input is a list of characters,
one per byte, of which `fgets` moves at most 255 to the buffer of `main` in
each iteration of its loop.
-/

namespace Terminal

/-! ## Structure definitions -/

/-- The `struct File` of the source: a name and the next cell of the list. -/
structure File where
  filename : String
  next : Option Nat
deriving DecidableEq

/-- The `struct Directory` of the source. -/
structure Directory where
  directoryName : String
  subdirectories : Option Nat
  next : Option Nat
  files : Option Nat
  parent : Option Nat
deriving DecidableEq

/-- The `struct FileSystem` of the source. -/
structure FileSystem where
  rootDirectory : Nat
deriving DecidableEq

/-- The allocated objects: address `a` of a directory is `dirs[a]`, address `a`
of a file cell is `fileCells[a]`. -/
structure Heap where
  dirs : List Directory
  fileCells : List File
deriving DecidableEq

/-! ## Function implementations -/

/-- The `while (current)` loop of `getDirectSubdirectory`, started at `current`.
The first argument bounds the number of iterations. -/
def getDirectSubdirectory.loop (h : Heap) (dirName : String) :
    Nat → Option Nat → Option (Option Nat)
  | _, none => some none
  | 0, some _ => none
  | fuel + 1, some current =>
    match h.dirs[current]? with
    | none => none
    | some c =>
      if c.directoryName = dirName then some (some current)
      else getDirectSubdirectory.loop h dirName fuel c.next

/-- Source `getDirectSubdirectory`: the first node of the list of `parent` whose name is
`dirName`, or `NULL`.  A chain of more than `dirs.length` nodes visits a node
twice, so the C loop would not end on it. -/
def getDirectSubdirectory (h : Heap) (parent : Nat) (dirName : String) :
    Option (Option Nat) :=
  match h.dirs[parent]? with
  | none => none
  | some p => getDirectSubdirectory.loop h dirName h.dirs.length p.subdirectories

/-- Source `add_subdirectory`: `NULL` and no change when the name is taken, else a new
node linked at the head of the list of `dir`. -/
def add_subdirectory (h : Heap) (dir : Nat) (directoryName : String) :
    Option (Heap × Option Nat) :=
  match getDirectSubdirectory h dir directoryName with
  | none => none
  | some (some _) => some (h, none)
  | some none =>
    match h.dirs[dir]? with
    | none => none
    | some d =>
      let newDir : Nat := h.dirs.length
      let node : Directory :=
        { directoryName := directoryName
          subdirectories := none
          files := none
          parent := some dir
          next := d.subdirectories }
      some ({ h with
                dirs := (h.dirs ++ [node]).set dir { d with subdirectories := some newDir } },
            some newDir)

/-- The `while (current)` loop of `add_file`: `true` when a cell named
`filename` is met (the function then returns 0), `false` at the end of the
list. -/
def add_file.loop (h : Heap) (filename : String) : Nat → Option Nat → Option Bool
  | _, none => some false
  | 0, some _ => none
  | fuel + 1, some current =>
    match h.fileCells[current]? with
    | none => none
    | some c =>
      if c.filename = filename then some true
      else add_file.loop h filename fuel c.next

/-- Source `add_file`: 0 and no change when the name is taken, else 1 and a new cell at
the head of the file list of `dir`. -/
def add_file (h : Heap) (dir : Nat) (filename : String) : Option (Heap × Int) :=
  match h.dirs[dir]? with
  | none => none
  | some d =>
    match add_file.loop h filename h.fileCells.length d.files with
    | none => none
    | some true => some (h, 0)
    | some false =>
      let newFile : Nat := h.fileCells.length
      let cell : File := { filename := filename, next := d.files }
      some ({ dirs := h.dirs.set dir { d with files := some newFile }
              fileCells := h.fileCells ++ [cell] },
            1)

/-- The first `while` of `print_directory_contents`. -/
def print_directory_contents.dirLoop (h : Heap) : Nat → Option Nat → Option String
  | _, none => some ""
  | 0, some _ => none
  | fuel + 1, some subDir =>
    match h.dirs[subDir]? with
    | none => none
    | some d =>
      match print_directory_contents.dirLoop h fuel d.next with
      | none => none
      | some rest => some ("  " ++ d.directoryName ++ "/\n" ++ rest)

/-- The second `while` of `print_directory_contents`. -/
def print_directory_contents.fileLoop (h : Heap) : Nat → Option Nat → Option String
  | _, none => some ""
  | 0, some _ => none
  | fuel + 1, some file =>
    match h.fileCells[file]? with
    | none => none
    | some f =>
      match print_directory_contents.fileLoop h fuel f.next with
      | none => none
      | some rest => some ("  " ++ f.filename ++ "\n" ++ rest)

/-- Source `print_directory_contents`: the text written to standard output. -/
def print_directory_contents (h : Heap) (dir : Nat) : Option String :=
  match h.dirs[dir]? with
  | none => none
  | some d =>
    match print_directory_contents.dirLoop h h.dirs.length d.subdirectories,
          print_directory_contents.fileLoop h h.fileCells.length d.files with
    | some ds, some fs => some ("Directories:\n" ++ ds ++ "Files:\n" ++ fs)
    | _, _ => none

/-- The loop `for (i = 0; i < depth; ++i) printf("  ")`. -/
def indent : Nat → String
  | 0 => ""
  | depth + 1 => "  " ++ indent depth

/-- The second `while` of `print_directory_recursive`. -/
def print_directory_recursive.fileLoop (h : Heap) (depth : Nat) :
    Nat → Option Nat → Option String
  | _, none => some ""
  | 0, some _ => none
  | fuel + 1, some file =>
    match h.fileCells[file]? with
    | none => none
    | some f =>
      match print_directory_recursive.fileLoop h depth fuel f.next with
      | none => none
      | some rest => some (indent depth ++ "File: " ++ f.filename ++ "\n" ++ rest)

mutual

/-- The body of `print_directory_recursive`; the first argument bounds the
length of the pointer path followed from the first call. -/
def print_directory_recursive.go (h : Heap) : Nat → Nat → Nat → Option String
  | 0, _, _ => none
  | fuel + 1, currentDir, depth =>
    match h.dirs[currentDir]? with
    | none => none
    | some d =>
      match print_directory_recursive.subLoop h fuel d.subdirectories depth,
            print_directory_recursive.fileLoop h depth h.fileCells.length d.files with
      | some ds, some fs => some (ds ++ fs)
      | _, _ => none

/-- The first `while` of `print_directory_recursive`, with its recursive
call. -/
def print_directory_recursive.subLoop (h : Heap) : Nat → Option Nat → Nat → Option String
  | _, none, _ => some ""
  | 0, some _, _ => none
  | fuel + 1, some subDir, depth =>
    match h.dirs[subDir]? with
    | none => none
    | some d =>
      match print_directory_recursive.go h fuel subDir (depth + 1),
            print_directory_recursive.subLoop h fuel d.next depth with
      | some sub, some rest =>
        some (indent depth ++ "Directory: " ++ d.directoryName ++ "\n" ++ sub ++ rest)
      | _, _ => none

end

/-- Source `print_directory_recursive`.  Each node of an acyclic heap is met at most
once on a pointer path and costs at most two units, so the bound is only
reached when the structure is cyclic.  `depth` is an `int` in the source; it
is a `Nat` here (it would overflow only at a nesting depth of 2^31). -/
def print_directory_recursive (h : Heap) (currentDir : Nat) (depth : Nat) : Option String :=
  print_directory_recursive.go h (2 * h.dirs.length + 1) currentDir depth

/-- Source `print_filesystem`. -/
def print_filesystem (h : Heap) (fs : FileSystem) : Option String :=
  match h.dirs[fs.rootDirectory]? with
  | none => none
  | some dir =>
    match print_directory_recursive h fs.rootDirectory 1 with
    | none => none
    | some body => some ("Root Directory: " ++ dir.directoryName ++ "\n" ++ body)

/-- Source `create_directory`: a fresh node without children, files or sibling. -/
def create_directory (h : Heap) (name : String) (parent : Option Nat) : Heap × Nat :=
  ({ h with
      dirs := h.dirs ++ [{ directoryName := name
                           subdirectories := none
                           files := none
                           parent := parent
                           next := none }] },
   h.dirs.length)

/-- Source `create_filesystem`. -/
def create_filesystem (h : Heap) (rootName : String) : Heap × FileSystem :=
  let r := create_directory h rootName none
  (r.1, { rootDirectory := r.2 })

/-! ## The command loop of `main` -/

/-- The variables of `main` that live across iterations: the heap, `fs` and
the cursor `head`.  (The local `dir` is written before each use and is not
part of the state.) -/
structure Session where
  heap : Heap
  fs : FileSystem
  head : Nat
deriving DecidableEq

/-- The state of `main` when the loop is entered: `create_filesystem("root")`
on the empty heap, `head = fs->rootDirectory`. -/
def initial : Session :=
  let r := create_filesystem { dirs := [], fileCells := [] } "root"
  { heap := r.1, fs := r.2, head := r.2.rootDirectory }

/-- Source `trim_newline`: drops one trailing newline. -/
def trim_newline (str : List Char) : List Char :=
  if str.length = 0 then str
  else if str.getLast? = some '\n' then str.dropLast
  else str

/-- One call of `strtok` with the delimiter set `" "` on the text `str` that
is left: the token found (`none` is `NULL`) and the text left for the next
call. -/
def strtok (str : List Char) : Option String × List Char :=
  let s := str.dropWhile (fun c => c = ' ')
  if s = [] then (none, [])
  else (some (String.mk (s.takeWhile (fun c => c ≠ ' '))),
        (s.dropWhile (fun c => c ≠ ' ')).tail)

/-- What one iteration yields: the new state, the text printed, and whether the
loop goes on (`false` after `break`). -/
abbrev Step := Session × String × Bool

/-- The `if` / `else if` chain of the loop body (source lines 211 to 273), on
the two tokens. -/
def dispatch (s : Session) (command : String) (argument : Option String) : Option Step :=
  if command = "cd" then
    match argument with
    | none => some (s, "Error: 'cd' command requires a directory name.\n", true)
    | some argument =>
      if argument = ".." then
        if s.head ≠ s.fs.rootDirectory then
          match s.heap.dirs[s.head]? with
          | none => none
          | some d =>
            match d.parent with
            | none => none
            | some p =>
              match s.heap.dirs[p]? with
              | none => none
              | some pd =>
                some ({ s with head := p },
                      "Switched to parent directory " ++ pd.directoryName ++ "\n", true)
        else some (s, "You are already at root directory\n", true)
      else
        match getDirectSubdirectory s.heap s.head argument with
        | none => none
        | some (some dir) =>
          some ({ s with head := dir }, "Switched to directory " ++ argument ++ "\n", true)
        | some none => some (s, "No such subdirectory here\n", true)
  else if command = "mkdir" then
    match argument with
    | none => some (s, "Error: 'mkdir' command requires a directory name.\n", true)
    | some argument =>
      match add_subdirectory s.heap s.head argument with
      | none => none
      | some (h, some _) =>
        some ({ s with heap := h }, "Created SubDirectory " ++ argument ++ "\n", true)
      | some (h, none) =>
        some ({ s with heap := h },
              "SubDirectory with name " ++ argument ++ " already exists here\n", true)
  else if command = "touch" then
    match argument with
    | none => some (s, "Error: 'touch' command requires a file name.\n", true)
    | some argument =>
      match add_file s.heap s.head argument with
      | none => none
      | some (h, x) =>
        if x ≠ 0 then some ({ s with heap := h }, "Created file " ++ argument ++ "\n", true)
        else some ({ s with heap := h },
                   "File with name " ++ argument ++ " already exists here\n", true)
  else if command = "ls" then
    match print_directory_contents s.heap s.head with
    | none => none
    | some out => some (s, out, true)
  else if command = "print" then
    match print_filesystem s.heap s.fs with
    | none => none
    | some out => some (s, out, true)
  else if command = "exit" then
    some (s, "Exiting the File System. Goodbye!\n", false)
  else some (s, "Error: Unknown command '" ++ command ++ "'.\n", true)

/-- One iteration of the `while (1)` loop after `fgets` has filled the buffer
with the C string `input` (source lines 198 to 273): the text printed after
the prompt.  `strcmp` on a `NULL` command is undefined.  The buffer is
`char input[256]`, so the texts that reach the body have at most 255
characters: `fgets` and `mainLoop` below give the body what the call at source
line 193 leaves in the buffer, and a typed line that is longer reaches it in
pieces. -/
def loopBody (s : Session) (input : String) : Option Step :=
  let line := trim_newline input.data
  if line.length = 0 then some (s, "", true)
  else
    let t1 := strtok line
    let t2 := strtok t1.2
    match t1.1 with
    | none => none
    | some command => dispatch s command t2.1

/-- The states the loop can be in: the initial one, and every state an
iteration that goes on leads to, whatever the line read. -/
inductive Reachable : Session → Prop
  | start : Reachable initial
  | next {s s' : Session} {input out : String} :
      Reachable s → loopBody s input = some (s', out, true) → Reachable s'

/-! ## Reading the input

A character stands for one byte of the stream. -/

/-- The characters one call of `fgets` moves from the stream to the buffer
when there is room for `room` of them, and the stream that is left: reading
stops after a newline, at the end of the stream, or when the room is used. -/
def fgets.read : Nat → List Char → List Char × List Char
  | 0, stream => ([], stream)
  | _ + 1, [] => ([], [])
  | room + 1, c :: stream =>
    if c = '\n' then ([c], stream)
    else (c :: (fgets.read room stream).1, (fgets.read room stream).2)

/-- Library `fgets(input, size, stdin)`: `none` is `NULL` (the stream is at
its end and nothing was read); else the C string left in the buffer, of at
most `size - 1` characters, and the stream that is left. -/
def fgets (size : Nat) (stream : List Char) : Option (String × List Char) :=
  if stream = [] then none
  else some (String.mk (fgets.read (size - 1) stream).1, (fgets.read (size - 1) stream).2)

/-- The `while (1)` loop of `main` (source lines 189 to 274) on the stream
`stdin`, with `sizeof(input) = 256`: the state when the loop is left, at the
end of the stream or by `exit`, and the text printed.  The first argument
bounds the number of iterations; every iteration takes at least one character
from the stream, so `stdin.length + 1` iterations are never used up. -/
def mainLoop : Nat → Session → List Char → Option (Session × String)
  | 0, _, _ => none
  | fuel + 1, s, stdin =>
    match fgets 256 stdin with
    | none => some (s, ">> " ++ "Error reading input. Exiting.\n")
    | some (input, rest) =>
      match loopBody s input with
      | none => none
      | some (s2, out, true) =>
        match mainLoop fuel s2 rest with
        | none => none
        | some (s3, out2) => some (s3, ">> " ++ out ++ out2)
      | some (s2, out, false) => some (s2, ">> " ++ out)

/-- Source `main` on the stream `stdin`: the text written to the standard
output. -/
def main (stdin : List Char) : Option String :=
  match mainLoop (stdin.length + 1) initial stdin with
  | none => none
  | some (_, out) =>
    some ("Welcome to the In-Memory File System!\n"
      ++ "Available commands:\n"
      ++ "  cd <directory_name>\n"
      ++ "  mkdir <directory_name>\n"
      ++ "  touch <file_name>\n"
      ++ "  ls\n"
      ++ "  exit\n\n"
      ++ out)

/-- The stream made by typing the lines one after the other, each one ended
with the return key. -/
def typed : List String → List Char
  | [] => []
  | l :: rest => l.data ++ '\n' :: typed rest

/-! ## The lists a directory holds -/

/-- The addresses met when `next` is followed from `p` to `NULL`, where
`nx a` is the `next` field of the object at address `a` (`none` when `a` is
not allocated).  `none` when the walk leaves the heap or takes more than
`fuel` steps. -/
def chain (nx : Nat → Option (Option Nat)) : Nat → Option Nat → Option (List Nat)
  | _, none => some []
  | 0, some _ => none
  | fuel + 1, some a =>
    match nx a with
    | none => none
    | some n =>
      match chain nx fuel n with
      | none => none
      | some l => some (a :: l)

/-- The `next` field of the directory at address `a`. -/
def Heap.dirNext (h : Heap) (a : Nat) : Option (Option Nat) :=
  (h.dirs[a]?).map Directory.next

/-- The `next` field of the file cell at address `a`. -/
def Heap.fileNext (h : Heap) (a : Nat) : Option (Option Nat) :=
  (h.fileCells[a]?).map File.next

/-- The name of the directory at address `a`. -/
def Heap.dirName (h : Heap) (a : Nat) : String :=
  match h.dirs[a]? with
  | none => ""
  | some d => d.directoryName

/-- The name of the file cell at address `a`. -/
def Heap.fileName (h : Heap) (a : Nat) : String :=
  match h.fileCells[a]? with
  | none => ""
  | some c => c.filename

/-- The subdirectory list of `dir`: the addresses linked from
`dir->subdirectories`, head first. -/
def subdirs (h : Heap) (dir : Nat) : Option (List Nat) :=
  match h.dirs[dir]? with
  | none => none
  | some d => chain h.dirNext h.dirs.length d.subdirectories

/-- The file list of `dir`: the cells linked from `dir->files`, head first. -/
def fileCellsOf (h : Heap) (dir : Nat) : Option (List Nat) :=
  match h.dirs[dir]? with
  | none => none
  | some d => chain h.fileNext h.fileCells.length d.files

/-- The names of the subdirectories of `dir`, in list order. -/
def subdirNames (h : Heap) (dir : Nat) : Option (List String) :=
  (subdirs h dir).map (List.map h.dirName)

/-- The names of the files of `dir`, in list order. -/
def fileNames (h : Heap) (dir : Nat) : Option (List String) :=
  (fileCellsOf h dir).map (List.map h.fileName)

/-! ## The heap a creation builds -/

/-- The heap `add_subdirectory` builds when the name is free: `d` is the node
at `dir` before the call. -/
def Heap.link (h : Heap) (dir : Nat) (d : Directory) (n : String) : Heap :=
  { h with
      dirs := (h.dirs ++ [({ directoryName := n
                             subdirectories := none
                             files := none
                             parent := some dir
                             next := d.subdirectories } : Directory)]).set dir
                { d with subdirectories := some h.dirs.length } }

/-- The heap `add_file` builds when the name is free: `d` is the node at `dir`
before the call. -/
def Heap.addCell (h : Heap) (dir : Nat) (d : Directory) (n : String) : Heap :=
  { dirs := h.dirs.set dir { d with files := some h.fileCells.length }
    fileCells := h.fileCells ++ [{ filename := n, next := d.files }] }

/-! ## Command lines -/

/-- A word that can be typed as a token of a command line: not empty, without
a space or a newline. -/
def IsName (n : String) : Prop :=
  n.data ≠ [] ∧ ∀ c ∈ n.data, c ≠ ' ' ∧ c ≠ '\n'

instance (n : String) : Decidable (IsName n) :=
  inferInstanceAs (Decidable (n.data ≠ [] ∧ ∀ c ∈ n.data, c ≠ ' ' ∧ c ≠ '\n'))

/-- The loop body run on the texts the buffer holds in successive iterations,
as long as the loop goes on: the state before the next prompt, `none` when an
iteration is undefined or the loop was left. -/
def run (s : Session) : List String → Option Session
  | [] => some s
  | input :: rest =>
    match loopBody s input with
    | some (s2, _, true) => run s2 rest
    | _ => none

/-- A heap with three directories and one file: the root holds `B`, `A` and
the file `f`. -/
def sampleHeap : Heap :=
  { dirs := [{ directoryName := "root", subdirectories := some 2, next := none,
               files := some 0, parent := none },
             { directoryName := "A", subdirectories := none, next := none,
               files := none, parent := some 0 },
             { directoryName := "B", subdirectories := none, next := some 1,
               files := none, parent := some 0 }]
    fileCells := [{ filename := "f", next := none }] }

/-- The root node of `sampleHeap`. -/
def sampleRoot : Directory :=
  { directoryName := "root", subdirectories := some 2, next := none,
    files := some 0, parent := none }

/-- The session on `sampleHeap` with the cursor on `A`. -/
def sampleSession : Session :=
  { heap := sampleHeap, fs := { rootDirectory := 0 }, head := 1 }

/-! ## Invariants of the loop -/

/-- Pointers of a heap built by the program: each one is `NULL` or the address
of an allocated object, and `next` always leads to an older object. -/
structure HeapOK (h : Heap) : Prop where
  next_lt : ∀ (a : Nat) (d : Directory), h.dirs[a]? = some d →
    ∀ b, d.next = some b → b < a
  sub_lt : ∀ (a : Nat) (d : Directory), h.dirs[a]? = some d →
    ∀ b, d.subdirectories = some b → b < h.dirs.length
  files_lt : ∀ (a : Nat) (d : Directory), h.dirs[a]? = some d →
    ∀ b, d.files = some b → b < h.fileCells.length
  fnext_lt : ∀ (a : Nat) (c : File), h.fileCells[a]? = some c →
    ∀ b, c.next = some b → b < a

/-- In every allocated directory no two subdirectories have the same name and
no two files have the same name. -/
def NamesUnique (h : Heap) : Prop :=
  ∀ a, a < h.dirs.length →
    ∃ dn fn, subdirNames h a = some dn ∧ dn.Nodup ∧ fileNames h a = some fn ∧ fn.Nodup

/-- The parent of the root is `NULL`, and every other allocated directory `a`
has a parent `p` whose subdirectory list holds `a`, while no list of another
directory does. -/
def ParentLinked (h : Heap) (root : Nat) : Prop :=
  (∃ r, h.dirs[root]? = some r ∧ r.parent = none) ∧
  ∀ (a : Nat) (d : Directory), h.dirs[a]? = some d → a ≠ root →
    ∃ p l, d.parent = some p ∧ subdirs h p = some l ∧ a ∈ l ∧
      ∀ q l2, subdirs h q = some l2 → a ∈ l2 → q = p

/-- What holds of every state of the loop. -/
structure Inv (s : Session) : Prop where
  ok : HeapOK s.heap
  root_lt : s.fs.rootDirectory < s.heap.dirs.length
  head_lt : s.head < s.heap.dirs.length
  root_parent : ∀ d : Directory,
    s.heap.dirs[s.fs.rootDirectory]? = some d → d.parent = none
  child_parent : ∀ p l c, subdirs s.heap p = some l → c ∈ l →
    ∃ d, s.heap.dirs[c]? = some d ∧ d.parent = some p
  parent_child : ∀ (a : Nat) (d : Directory),
    s.heap.dirs[a]? = some d → a ≠ s.fs.rootDirectory →
    ∃ p l, d.parent = some p ∧ subdirs s.heap p = some l ∧ a ∈ l
  dir_nodup : ∀ a l, subdirNames s.heap a = some l → l.Nodup
  file_nodup : ∀ a l, fileNames s.heap a = some l → l.Nodup

/-! ## Reference texts -/

/-- The texts of a list, written one after the other. -/
def joinAll : List String → String
  | [] => ""
  | x :: xs => x ++ joinAll xs

/-- A text of `n` spaces. -/
def spaces (n : Nat) : String :=
  String.mk (List.replicate n ' ')

/-! ## The tree a heap holds, and its reference rendering -/

/-- A directory tree: the name of the directory, its subdirectories in list
order and the names of its files in list order. -/
inductive DirTree where
  | node (name : String) (subs : List DirTree) (files : List String)

/-- The name of the directory at the top of a tree. -/
def DirTree.name : DirTree → String
  | DirTree.node n _ _ => n

mutual

/-- Reference rendering of a directory at depth `k`, after the words of the
specification: for each subdirectory in list order its line and, right after
it, the whole rendering of that subdirectory at depth `k + 1`; then one line
per file in list order.  Every line starts with `2 * k` spaces. -/
def DirTree.render : DirTree → Nat → String
  | DirTree.node _ subs files, k =>
    DirTree.renderSubs subs k
      ++ joinAll (files.map (fun f => spaces (2 * k) ++ "File: " ++ f ++ "\n"))

/-- The part of the reference rendering that comes from a list of
subdirectories. -/
def DirTree.renderSubs : List DirTree → Nat → String
  | [], _ => ""
  | s :: rest, k =>
    spaces (2 * k) ++ "Directory: " ++ s.name ++ "\n" ++ s.render (k + 1)
      ++ DirTree.renderSubs rest k

end

mutual

/-- The number of directories of a tree, its top directory apart. -/
def DirTree.dirCount : DirTree → Nat
  | DirTree.node _ subs _ => DirTree.dirCountSubs subs

/-- The number of directories in a list of trees, tops included. -/
def DirTree.dirCountSubs : List DirTree → Nat
  | [] => 0
  | s :: rest => 1 + s.dirCount + DirTree.dirCountSubs rest

end

mutual

/-- The number of files in all directories of a tree. -/
def DirTree.fileCount : DirTree → Nat
  | DirTree.node _ subs files => files.length + DirTree.fileCountSubs subs

/-- The number of files in all directories of a list of trees. -/
def DirTree.fileCountSubs : List DirTree → Nat
  | [] => 0
  | s :: rest => s.fileCount + DirTree.fileCountSubs rest

end

/-- The values of a list of results, when all of them are there. -/
def allSome {α : Type} : List (Option α) → Option (List α)
  | [] => some []
  | none :: _ => none
  | some x :: rest =>
    match allSome rest with
    | none => none
    | some xs => some (x :: xs)

/-- The tree below the directory at address `a`: its name, the trees of the
directories of its subdirectory list, and the names of its file list.  `none`
when a list is broken or the nesting is deeper than `fuel`. -/
def treeOf (h : Heap) : Nat → Nat → Option DirTree
  | 0, _ => none
  | fuel + 1, a =>
    match subdirs h a, fileNames h a with
    | some l, some fs =>
      match allSome (l.map (treeOf h fuel)) with
      | none => none
      | some ts => some (DirTree.node (h.dirName a) ts fs)
    | _, _ => none

/-- A rank on the directories that goes down along `subdirectories` and along
`next`, and stays below the number of directories: the two links form no
cycle. -/
structure Ranked (h : Heap) (rank : Nat → Nat) : Prop where
  bound : ∀ a, a < h.dirs.length → rank a < h.dirs.length
  sub_lt : ∀ (a : Nat) (d : Directory), h.dirs[a]? = some d →
    ∀ b, d.subdirectories = some b → rank b < rank a
  next_lt : ∀ (a : Nat) (d : Directory), h.dirs[a]? = some d →
    ∀ b, d.next = some b → rank b < rank a

/-- The number of lines of a text: the number of its newline characters. -/
def lineCount (out : String) : Nat :=
  out.data.count '\n'

/-- A text `fgets` can leave in the buffer: it stops reading after a newline,
so a newline can only be the last character. -/
def BufferLine (input : String) : Prop :=
  ∀ c ∈ input.data.dropLast, c ≠ '\n'

instance (input : String) : Decidable (BufferLine input) :=
  inferInstanceAs (Decidable (∀ c ∈ input.data.dropLast, c ≠ '\n'))

/-- No name stored in the heap holds a newline. -/
def CleanNames (h : Heap) : Prop :=
  (∀ d ∈ h.dirs, '\n' ∉ d.directoryName.data) ∧
  (∀ c ∈ h.fileCells, '\n' ∉ c.filename.data)

/-- The value of `f` at a pointer, 0 at `NULL`. -/
def optVal (f : Nat → Nat) : Option Nat → Nat
  | none => 0
  | some a => f a

/-- A numbering of the directories in the reverse of the order in which the
recursive print meets them, with, for each directory `a`, the number `size a`
of directories and the number `files a` of file cells in the part of the tree
made of `a`, of what is below `a`, and of the siblings that follow `a` with
what is below them.  The first subdirectory of `a` is numbered right after
`a`, the next sibling of `a` right after all that is below `a`; the root
carries the highest number and all the directories and file cells. -/
structure Numbered (h : Heap) (root : Nat) (pos size files : Nat → Nat) : Prop where
  bound : ∀ a, a < h.dirs.length → pos a < h.dirs.length
  inj : ∀ a b, a < h.dirs.length → b < h.dirs.length → pos a = pos b → a = b
  size_eq : ∀ (a : Nat) (d : Directory), h.dirs[a]? = some d →
    size a = 1 + optVal size d.subdirectories + optVal size d.next
  files_eq : ∀ (a : Nat) (d : Directory) (l : List Nat), h.dirs[a]? = some d →
    fileCellsOf h a = some l →
    files a = l.length + optVal files d.subdirectories + optVal files d.next
  sub_pos : ∀ (a : Nat) (d : Directory) (c : Nat), h.dirs[a]? = some d →
    d.subdirectories = some c → pos c + 1 = pos a
  next_pos : ∀ (a : Nat) (d : Directory) (x : Nat), h.dirs[a]? = some d →
    d.next = some x → pos x + 1 + optVal size d.subdirectories = pos a
  root_pos : pos root + 1 = h.dirs.length
  root_size : size root = h.dirs.length
  root_files : files root = h.fileCells.length
  root_next : ∀ d : Directory, h.dirs[root]? = some d → d.next = none

/-! ## The trees the functions build -/

/-- The heaps the functions of the program build: `create_filesystem` on the
empty heap with any root name, then `add_subdirectory` and `add_file` on any
directory with any name.  These are the finite trees the data structure can
hold. -/
inductive Built : Heap → FileSystem → Prop
  | create (rootName : String) :
      Built (create_filesystem { dirs := [], fileCells := [] } rootName).1
        (create_filesystem { dirs := [], fileCells := [] } rootName).2
  | subdirectory (h h2 : Heap) (fs : FileSystem) (dir : Nat) (n : String) (r : Option Nat) :
      Built h fs → add_subdirectory h dir n = some (h2, r) → Built h2 fs
  | file (h h2 : Heap) (fs : FileSystem) (dir : Nat) (n : String) (r : Int) :
      Built h fs → add_file h dir n = some (h2, r) → Built h2 fs

/-! # Theorems -/

/-! ## Walks along `next` -/

theorem chain_mono (nx : Nat → Option (Option Nat)) :
    ∀ (fuel fuel2 : Nat) (p : Option Nat) (l : List Nat),
      chain nx fuel p = some l → fuel ≤ fuel2 → chain nx fuel2 p = some l := by
  intro fuel
  induction fuel with
  | zero =>
    intro fuel2 p l hc _
    cases p with
    | none => cases fuel2 <;> simpa [chain] using hc
    | some a => simp [chain] at hc
  | succ k ih =>
    intro fuel2 p l hc hle
    cases p with
    | none => cases fuel2 <;> simpa [chain] using hc
    | some a =>
      obtain ⟨m, rfl⟩ : ∃ m, fuel2 = m + 1 := ⟨fuel2 - 1, by omega⟩
      simp only [chain] at hc ⊢
      cases hnx : nx a with
      | none => simp [hnx] at hc
      | some n =>
        simp only [hnx] at hc ⊢
        cases hr : chain nx k n with
        | none => simp [hr] at hc
        | some l2 =>
          rw [ih m n l2 hr (by omega)]
          simpa [hr] using hc

theorem chain_allocated (nx : Nat → Option (Option Nat)) :
    ∀ (fuel : Nat) (p : Option Nat) (l : List Nat),
      chain nx fuel p = some l → ∀ a ∈ l, nx a ≠ none := by
  intro fuel
  induction fuel with
  | zero =>
    intro p l hc a ha
    cases p with
    | none => simp [chain] at hc; subst hc; simp at ha
    | some b => simp [chain] at hc
  | succ k ih =>
    intro p l hc a ha
    cases p with
    | none => simp [chain] at hc; subst hc; simp at ha
    | some b =>
      simp only [chain] at hc
      cases hnx : nx b with
      | none => simp [hnx] at hc
      | some n =>
        simp only [hnx] at hc
        cases hr : chain nx k n with
        | none => simp [hr] at hc
        | some l2 =>
          simp only [hr, Option.some.injEq] at hc
          subst hc
          rcases List.mem_cons.mp ha with rfl | h2
          · simp [hnx]
          · exact ih n l2 hr a h2

theorem chain_congr (nx nx2 : Nat → Option (Option Nat)) :
    ∀ (fuel : Nat) (p : Option Nat) (l : List Nat),
      chain nx fuel p = some l → (∀ a ∈ l, nx2 a = nx a) → chain nx2 fuel p = some l := by
  intro fuel
  induction fuel with
  | zero =>
    intro p l hc _
    cases p with
    | none => simpa [chain] using hc
    | some b => simp [chain] at hc
  | succ k ih =>
    intro p l hc hag
    cases p with
    | none => simpa [chain] using hc
    | some b =>
      simp only [chain] at hc ⊢
      cases hnx : nx b with
      | none => simp [hnx] at hc
      | some n =>
        simp only [hnx] at hc
        cases hr : chain nx k n with
        | none => simp [hr] at hc
        | some l2 =>
          simp only [hr, Option.some.injEq] at hc
          subst hc
          rw [hag b (List.mem_cons_self _ _), hnx]
          simp only
          rw [ih n l2 hr (fun a ha => hag a (List.mem_cons_of_mem _ ha))]

/-- When every `next` below `N` points to a lower address, every walk from a
pointer below `k ≤ N` ends within `k` steps. -/
theorem chain_total (nx : Nat → Option (Option Nat)) (N : Nat)
    (hdec : ∀ a, a < N → ∃ r, nx a = some r ∧ ∀ b, r = some b → b < a) :
    ∀ (k : Nat), k ≤ N → ∀ (p : Option Nat), (∀ b, p = some b → b < k) →
      ∃ l, chain nx k p = some l ∧ ∀ a ∈ l, a < k := by
  intro k
  induction k with
  | zero =>
    intro _ p hp
    cases p with
    | none => exact ⟨[], by simp [chain]⟩
    | some b => exact absurd (hp b rfl) (by omega)
  | succ k ih =>
    intro hk p hp
    cases p with
    | none => exact ⟨[], by simp [chain]⟩
    | some b =>
      have hb := hp b rfl
      obtain ⟨r, hr, hlt⟩ := hdec b (by omega)
      obtain ⟨l, hl, hmem⟩ := ih (by omega) r (fun c hc => by have := hlt c hc; omega)
      refine ⟨b :: l, by simp [chain, hr, hl], ?_⟩
      intro a ha
      rcases List.mem_cons.mp ha with rfl | h2
      · exact hb
      · have := hmem a h2; omega

/-! ## The search loops, in terms of the lists -/

theorem getDirectSubdirectory_loop_eq (h : Heap) (n : String) :
    ∀ (fuel : Nat) (p : Option Nat) (l : List Nat),
      chain h.dirNext fuel p = some l →
      getDirectSubdirectory.loop h n fuel p
        = some (l.find? (fun a => decide (h.dirName a = n))) := by
  intro fuel
  induction fuel with
  | zero =>
    intro p l hc
    cases p with
    | none => simp [chain] at hc; subst hc; simp [getDirectSubdirectory.loop]
    | some b => simp [chain] at hc
  | succ k ih =>
    intro p l hc
    cases p with
    | none => simp [chain] at hc; subst hc; simp [getDirectSubdirectory.loop]
    | some b =>
      simp only [chain, Heap.dirNext] at hc
      cases hb : h.dirs[b]? with
      | none => simp [hb] at hc
      | some d =>
        simp only [hb, Option.map_some'] at hc
        cases hr : chain h.dirNext k d.next with
        | none => simp [Heap.dirNext, hr] at hc
        | some l2 =>
          simp only [Heap.dirNext, hr, Option.some.injEq] at hc
          subst hc
          simp only [getDirectSubdirectory.loop, hb, List.find?_cons, Heap.dirName]
          by_cases hd : d.directoryName = n
          · simp [hd]
          · simp only [hd, if_false, decide_False]
            rw [ih d.next l2 hr]
            rfl

theorem add_file_loop_eq (h : Heap) (n : String) :
    ∀ (fuel : Nat) (p : Option Nat) (l : List Nat),
      chain h.fileNext fuel p = some l →
      add_file.loop h n fuel p = some (decide (n ∈ l.map h.fileName)) := by
  intro fuel
  induction fuel with
  | zero =>
    intro p l hc
    cases p with
    | none => simp [chain] at hc; subst hc; simp [add_file.loop]
    | some b => simp [chain] at hc
  | succ k ih =>
    intro p l hc
    cases p with
    | none => simp [chain] at hc; subst hc; simp [add_file.loop]
    | some b =>
      simp only [chain, Heap.fileNext] at hc
      cases hb : h.fileCells[b]? with
      | none => simp [hb] at hc
      | some c =>
        simp only [hb, Option.map_some'] at hc
        cases hr : chain h.fileNext k c.next with
        | none => simp [Heap.fileNext, hr] at hc
        | some l2 =>
          simp only [Heap.fileNext, hr, Option.some.injEq] at hc
          subst hc
          simp only [add_file.loop, hb, List.map_cons, List.mem_cons, Heap.fileName]
          by_cases hd : c.filename = n
          · simp [hd]
          · have hd2 : ¬ n = c.filename := fun e => hd e.symm
            simp only [hd, if_false, hd2, false_or]
            rw [ih c.next l2 hr]

theorem subdirNames_some {h : Heap} {dir : Nat} {names : List String}
    (hn : subdirNames h dir = some names) :
    ∃ d l, h.dirs[dir]? = some d ∧
      chain h.dirNext h.dirs.length d.subdirectories = some l ∧
      subdirs h dir = some l ∧ names = l.map h.dirName := by
  unfold subdirNames at hn
  cases hs : subdirs h dir with
  | none => simp [hs] at hn
  | some l =>
    simp only [hs, Option.map_some', Option.some.injEq] at hn
    unfold subdirs at hs
    cases hd : h.dirs[dir]? with
    | none => simp [hd] at hs
    | some d =>
      simp only [hd] at hs
      exact ⟨d, l, rfl, hs, by simp [subdirs, hd, hs], hn.symm⟩

theorem fileNames_some {h : Heap} {dir : Nat} {names : List String}
    (hn : fileNames h dir = some names) :
    ∃ d l, h.dirs[dir]? = some d ∧
      chain h.fileNext h.fileCells.length d.files = some l ∧
      fileCellsOf h dir = some l ∧ names = l.map h.fileName := by
  unfold fileNames at hn
  cases hs : fileCellsOf h dir with
  | none => simp [hs] at hn
  | some l =>
    simp only [hs, Option.map_some', Option.some.injEq] at hn
    unfold fileCellsOf at hs
    cases hd : h.dirs[dir]? with
    | none => simp [hd] at hs
    | some d =>
      simp only [hd] at hs
      exact ⟨d, l, rfl, hs, by simp [fileCellsOf, hd, hs], hn.symm⟩

/-- The search of `getDirectSubdirectory`, on a directory whose list is
`l`. -/
theorem getDirectSubdirectory_eq {h : Heap} {dir : Nat} {l : List Nat} (n : String)
    (hs : subdirs h dir = some l) :
    getDirectSubdirectory h dir n = some (l.find? (fun a => decide (h.dirName a = n))) := by
  unfold subdirs at hs
  unfold getDirectSubdirectory
  cases hd : h.dirs[dir]? with
  | none => simp [hd] at hs
  | some d =>
    simp only [hd] at hs ⊢
    exact getDirectSubdirectory_loop_eq h n _ _ _ hs

/-! ## The heap after a creation -/

theorem lt_of_getElem?_eq_some {α : Type} {l : List α} {a : Nat} {x : α}
    (hx : l[a]? = some x) : a < l.length := by
  obtain ⟨hlt, _⟩ := List.getElem?_eq_some.mp hx
  exact hlt

theorem add_subdirectory_free {h : Heap} {dir : Nat} {d : Directory} {n : String}
    (hd : h.dirs[dir]? = some d) (hg : getDirectSubdirectory h dir n = some none) :
    add_subdirectory h dir n = some (h.link dir d n, some h.dirs.length) := by
  simp [add_subdirectory, hg, hd, Heap.link]

theorem add_subdirectory_taken {h : Heap} {dir : Nat} {c : Nat} {n : String}
    (hg : getDirectSubdirectory h dir n = some (some c)) :
    add_subdirectory h dir n = some (h, none) := by
  simp [add_subdirectory, hg]

theorem link_length (h : Heap) (dir : Nat) (d : Directory) (n : String) :
    (h.link dir d n).dirs.length = h.dirs.length + 1 := by
  simp [Heap.link]

theorem link_fileCells (h : Heap) (dir : Nat) (d : Directory) (n : String) :
    (h.link dir d n).fileCells = h.fileCells := rfl

theorem link_get_dir {h : Heap} {dir : Nat} {d : Directory} (n : String)
    (hd : h.dirs[dir]? = some d) :
    (h.link dir d n).dirs[dir]? = some { d with subdirectories := some h.dirs.length } := by
  have hlt := lt_of_getElem?_eq_some hd
  simp only [Heap.link]
  rw [List.getElem?_set_self (by simp; omega)]

theorem link_get_new {h : Heap} {dir : Nat} {d : Directory} (n : String)
    (hd : h.dirs[dir]? = some d) :
    (h.link dir d n).dirs[h.dirs.length]?
      = some { directoryName := n, subdirectories := none, files := none,
               parent := some dir, next := d.subdirectories } := by
  have hlt := lt_of_getElem?_eq_some hd
  simp only [Heap.link]
  rw [List.getElem?_set_ne (by omega)]
  simp

theorem link_get_old {h : Heap} {dir : Nat} (d : Directory) (n : String) {a : Nat}
    (ha : a < h.dirs.length) (hne : a ≠ dir) :
    (h.link dir d n).dirs[a]? = h.dirs[a]? := by
  simp only [Heap.link]
  rw [List.getElem?_set_ne (fun e => hne e.symm), List.getElem?_append_left ha]

theorem link_dirNext_old {h : Heap} {dir : Nat} {d : Directory} (n : String)
    (hd : h.dirs[dir]? = some d) {a : Nat} (ha : a < h.dirs.length) :
    (h.link dir d n).dirNext a = h.dirNext a := by
  unfold Heap.dirNext
  by_cases hne : a = dir
  · subst hne
    rw [link_get_dir n hd, hd]
    rfl
  · rw [link_get_old d n ha hne]

theorem link_dirName_old {h : Heap} {dir : Nat} {d : Directory} (n : String)
    (hd : h.dirs[dir]? = some d) {a : Nat} (ha : a < h.dirs.length) :
    (h.link dir d n).dirName a = h.dirName a := by
  unfold Heap.dirName
  by_cases hne : a = dir
  · subst hne
    rw [link_get_dir n hd, hd]
  · rw [link_get_old d n ha hne]

theorem link_parent_old {h : Heap} {dir : Nat} {d : Directory} (n : String)
    (hd : h.dirs[dir]? = some d) {a : Nat} (ha : a < h.dirs.length) :
    ((h.link dir d n).dirs[a]?).map Directory.parent = (h.dirs[a]?).map Directory.parent := by
  by_cases hne : a = dir
  · subst hne
    rw [link_get_dir n hd, hd]
    rfl
  · rw [link_get_old d n ha hne]

theorem link_files_old {h : Heap} {dir : Nat} {d : Directory} (n : String)
    (hd : h.dirs[dir]? = some d) {a : Nat} (ha : a < h.dirs.length) :
    ((h.link dir d n).dirs[a]?).map Directory.files = (h.dirs[a]?).map Directory.files := by
  by_cases hne : a = dir
  · subst hne
    rw [link_get_dir n hd, hd]
    rfl
  · rw [link_get_old d n ha hne]

/-- A walk of the old heap is the same walk in the heap after a link. -/
theorem link_chain_old {h : Heap} {dir : Nat} {d : Directory} (n : String)
    (hd : h.dirs[dir]? = some d) {p : Option Nat} {l : List Nat}
    (hc : chain h.dirNext h.dirs.length p = some l) :
    chain (h.link dir d n).dirNext (h.link dir d n).dirs.length p = some l := by
  rw [link_length]
  refine chain_mono _ _ _ _ _ (chain_congr h.dirNext _ _ _ _ hc ?_) (Nat.le_succ _)
  intro a ha
  have hal := chain_allocated _ _ _ _ hc a ha
  have hlt : a < h.dirs.length := by
    unfold Heap.dirNext at hal
    cases hx : h.dirs[a]? with
    | none => simp [hx] at hal
    | some x => exact lt_of_getElem?_eq_some hx
  exact link_dirNext_old n hd hlt

theorem chain_lt_dirs {h : Heap} {fuel : Nat} {p : Option Nat} {l : List Nat}
    (hc : chain h.dirNext fuel p = some l) : ∀ a ∈ l, a < h.dirs.length := by
  intro a ha
  have hal := chain_allocated _ _ _ _ hc a ha
  unfold Heap.dirNext at hal
  cases hx : h.dirs[a]? with
  | none => simp [hx] at hal
  | some x => exact lt_of_getElem?_eq_some hx

theorem chain_lt_fileCells {h : Heap} {fuel : Nat} {p : Option Nat} {l : List Nat}
    (hc : chain h.fileNext fuel p = some l) : ∀ a ∈ l, a < h.fileCells.length := by
  intro a ha
  have hal := chain_allocated _ _ _ _ hc a ha
  unfold Heap.fileNext at hal
  cases hx : h.fileCells[a]? with
  | none => simp [hx] at hal
  | some x => exact lt_of_getElem?_eq_some hx

/-- After a link the list of `dir` is the new node followed by the old
list. -/
theorem link_subdirs_dir {h : Heap} {dir : Nat} {d : Directory} (n : String)
    (hd : h.dirs[dir]? = some d) {l : List Nat} (hs : subdirs h dir = some l) :
    subdirs (h.link dir d n) dir = some (h.dirs.length :: l) := by
  have hc : chain h.dirNext h.dirs.length d.subdirectories = some l := by
    simpa [subdirs, hd] using hs
  have hc2 := link_chain_old n hd hc
  have hlt := lt_of_getElem?_eq_some hd
  unfold subdirs
  rw [link_get_dir n hd]
  simp only
  rw [link_length]
  simp only [chain]
  have hnx : (h.link dir d n).dirNext h.dirs.length = some d.subdirectories := by
    simp [Heap.dirNext, link_get_new n hd]
  rw [hnx]
  simp only
  have hc3 : chain (h.link dir d n).dirNext h.dirs.length d.subdirectories = some l := by
    refine chain_congr h.dirNext _ _ _ _ hc ?_
    intro a ha
    exact link_dirNext_old n hd (chain_lt_dirs hc a ha)
  rw [hc3]

theorem link_subdirs_new {h : Heap} {dir : Nat} {d : Directory} (n : String)
    (hd : h.dirs[dir]? = some d) :
    subdirs (h.link dir d n) h.dirs.length = some [] := by
  unfold subdirs
  rw [link_get_new n hd]
  simp [chain]

theorem link_subdirs_old {h : Heap} {dir : Nat} {d : Directory} (n : String)
    (hd : h.dirs[dir]? = some d) {a : Nat} (ha : a < h.dirs.length) (hne : a ≠ dir)
    {l : List Nat} (hs : subdirs h a = some l) :
    subdirs (h.link dir d n) a = some l := by
  unfold subdirs at hs ⊢
  rw [link_get_old d n ha hne]
  cases hx : h.dirs[a]? with
  | none => simp [hx] at hs
  | some x =>
    simp only [hx] at hs ⊢
    exact link_chain_old n hd hs

theorem add_file_free {h : Heap} {dir : Nat} {d : Directory} {n : String}
    (hd : h.dirs[dir]? = some d)
    (hg : add_file.loop h n h.fileCells.length d.files = some false) :
    add_file h dir n = some (h.addCell dir d n, 1) := by
  simp [add_file, hg, hd, Heap.addCell]

theorem add_file_taken {h : Heap} {dir : Nat} {d : Directory} {n : String}
    (hd : h.dirs[dir]? = some d)
    (hg : add_file.loop h n h.fileCells.length d.files = some true) :
    add_file h dir n = some (h, 0) := by
  simp [add_file, hg, hd]

theorem addCell_dirs_length (h : Heap) (dir : Nat) (d : Directory) (n : String) :
    (h.addCell dir d n).dirs.length = h.dirs.length := by
  simp [Heap.addCell]

theorem addCell_fileCells_length (h : Heap) (dir : Nat) (d : Directory) (n : String) :
    (h.addCell dir d n).fileCells.length = h.fileCells.length + 1 := by
  simp [Heap.addCell]

theorem addCell_get_dir {h : Heap} {dir : Nat} {d : Directory} (n : String)
    (hd : h.dirs[dir]? = some d) :
    (h.addCell dir d n).dirs[dir]? = some { d with files := some h.fileCells.length } := by
  have hlt := lt_of_getElem?_eq_some hd
  simp only [Heap.addCell]
  rw [List.getElem?_set_self hlt]

theorem addCell_get_other (h : Heap) {dir : Nat} (d : Directory) (n : String) {a : Nat}
    (hne : a ≠ dir) : (h.addCell dir d n).dirs[a]? = h.dirs[a]? := by
  simp only [Heap.addCell]
  rw [List.getElem?_set_ne (fun e => hne e.symm)]

theorem addCell_dirNext {h : Heap} {dir : Nat} {d : Directory} (n : String)
    (hd : h.dirs[dir]? = some d) (a : Nat) :
    (h.addCell dir d n).dirNext a = h.dirNext a := by
  unfold Heap.dirNext
  by_cases hne : a = dir
  · subst hne
    rw [addCell_get_dir n hd, hd]
    rfl
  · rw [addCell_get_other h d n hne]

theorem addCell_dirName {h : Heap} {dir : Nat} {d : Directory} (n : String)
    (hd : h.dirs[dir]? = some d) (a : Nat) :
    (h.addCell dir d n).dirName a = h.dirName a := by
  unfold Heap.dirName
  by_cases hne : a = dir
  · subst hne
    rw [addCell_get_dir n hd, hd]
  · rw [addCell_get_other h d n hne]

theorem addCell_fileNext_old (h : Heap) (dir : Nat) (d : Directory) (n : String) {a : Nat}
    (ha : a < h.fileCells.length) : (h.addCell dir d n).fileNext a = h.fileNext a := by
  simp only [Heap.fileNext, Heap.addCell]
  rw [List.getElem?_append_left ha]

theorem addCell_fileName_old (h : Heap) (dir : Nat) (d : Directory) (n : String) {a : Nat}
    (ha : a < h.fileCells.length) : (h.addCell dir d n).fileName a = h.fileName a := by
  simp only [Heap.fileName, Heap.addCell]
  rw [List.getElem?_append_left ha]

theorem addCell_get_new (h : Heap) (dir : Nat) (d : Directory) (n : String) :
    (h.addCell dir d n).fileCells[h.fileCells.length]?
      = some { filename := n, next := d.files } := by
  simp [Heap.addCell]

/-- A walk over file cells of the old heap is the same walk after `add_file`. -/
theorem addCell_chain_old (h : Heap) (dir : Nat) (d : Directory) (n : String)
    {p : Option Nat} {l : List Nat}
    (hc : chain h.fileNext h.fileCells.length p = some l) :
    chain (h.addCell dir d n).fileNext (h.addCell dir d n).fileCells.length p = some l := by
  rw [addCell_fileCells_length]
  refine chain_mono _ _ _ _ _ (chain_congr h.fileNext _ _ _ _ hc ?_) (Nat.le_succ _)
  intro a ha
  exact addCell_fileNext_old h dir d n (chain_lt_fileCells hc a ha)

/-- After `add_file` the file list of `dir` is the new cell followed by the
old list. -/
theorem addCell_fileCellsOf_dir {h : Heap} {dir : Nat} {d : Directory} (n : String)
    (hd : h.dirs[dir]? = some d) {l : List Nat} (hs : fileCellsOf h dir = some l) :
    fileCellsOf (h.addCell dir d n) dir = some (h.fileCells.length :: l) := by
  have hc : chain h.fileNext h.fileCells.length d.files = some l := by
    simpa [fileCellsOf, hd] using hs
  unfold fileCellsOf
  rw [addCell_get_dir n hd]
  simp only
  rw [addCell_fileCells_length]
  simp only [chain]
  have hnx : (h.addCell dir d n).fileNext h.fileCells.length = some d.files := by
    simp [Heap.fileNext, addCell_get_new]
  rw [hnx]
  simp only
  have hc3 : chain (h.addCell dir d n).fileNext h.fileCells.length d.files = some l := by
    refine chain_congr h.fileNext _ _ _ _ hc ?_
    intro a ha
    exact addCell_fileNext_old h dir d n (chain_lt_fileCells hc a ha)
  rw [hc3]

theorem addCell_fileCellsOf_other {h : Heap} {dir : Nat} (d : Directory) (n : String)
    {a : Nat} (hne : a ≠ dir) {l : List Nat} (hs : fileCellsOf h a = some l) :
    fileCellsOf (h.addCell dir d n) a = some l := by
  unfold fileCellsOf at hs ⊢
  rw [addCell_get_other h d n hne]
  cases hx : h.dirs[a]? with
  | none => simp [hx] at hs
  | some x =>
    simp only [hx] at hs ⊢
    exact addCell_chain_old h dir d n hs

theorem addCell_subdirs {h : Heap} {dir : Nat} {d : Directory} (n : String)
    (hd : h.dirs[dir]? = some d) (a : Nat) :
    subdirs (h.addCell dir d n) a = subdirs h a := by
  have hnx : (h.addCell dir d n).dirNext = h.dirNext := funext (addCell_dirNext n hd)
  unfold subdirs
  rw [addCell_dirs_length, hnx]
  by_cases hne : a = dir
  · subst hne
    rw [addCell_get_dir n hd, hd]
  · rw [addCell_get_other h d n hne]

theorem map_fileName_addCell (h : Heap) (dir : Nat) (d : Directory) (n : String)
    {l : List Nat} (hl : ∀ a ∈ l, a < h.fileCells.length) :
    l.map (h.addCell dir d n).fileName = l.map h.fileName :=
  List.map_congr_left (fun a ha => addCell_fileName_old h dir d n (hl a ha))

theorem map_dirName_link {h : Heap} {dir : Nat} {d : Directory} (n : String)
    (hd : h.dirs[dir]? = some d) {l : List Nat} (hl : ∀ a ∈ l, a < h.dirs.length) :
    l.map (h.link dir d n).dirName = l.map h.dirName :=
  List.map_congr_left (fun a ha => link_dirName_old n hd (hl a ha))

/-! ## The two creation operations -/

/-- C1: when `dir` has no subdirectory named `n`, `add_subdirectory` succeeds
and returns a directory that was not allocated before, whose name is `n`,
whose subdirectory and file lists are empty and whose parent is `dir`;
afterwards `getDirectSubdirectory` on `dir` and `n` returns exactly that
directory. -/
theorem add_subdirectory_creates (h : Heap) (dir : Nat) (n : String) (names : List String)
    (hnames : subdirNames h dir = some names) (hfree : n ∉ names) :
    ∃ h2 newDir d2,
      add_subdirectory h dir n = some (h2, some newDir) ∧
      h.dirs[newDir]? = none ∧
      h2.dirs[newDir]? = some d2 ∧
      d2.directoryName = n ∧ d2.subdirectories = none ∧ d2.files = none ∧
      subdirs h2 newDir = some [] ∧ fileCellsOf h2 newDir = some [] ∧
      d2.parent = some dir ∧
      getDirectSubdirectory h2 dir n = some (some newDir) := by
  obtain ⟨d, l, hd, _, hs, rfl⟩ := subdirNames_some hnames
  have hg : getDirectSubdirectory h dir n = some none := by
    rw [getDirectSubdirectory_eq n hs]
    congr 1
    rw [List.find?_eq_none]
    intro a ha hp
    exact hfree (List.mem_map.mpr ⟨a, ha, by simpa using hp⟩)
  refine ⟨h.link dir d n, h.dirs.length, _, add_subdirectory_free hd hg, by simp,
    link_get_new n hd, rfl, rfl, rfl, link_subdirs_new n hd, ?_, rfl, ?_⟩
  · simp [fileCellsOf, link_get_new n hd, chain]
  · rw [getDirectSubdirectory_eq n (link_subdirs_dir n hd hs)]
    simp [Heap.dirName, link_get_new n hd]

/-- C2: when `dir` already has a subdirectory named `n`, `add_subdirectory`
returns `NULL` and the heap it leaves is the heap it was given; the names of
the subdirectories of `dir` are thus the same, and `n` occurs once among them
when they were distinct. -/
theorem add_subdirectory_exists (h : Heap) (dir : Nat) (n : String) (names : List String)
    (hnames : subdirNames h dir = some names) (htaken : n ∈ names) :
    add_subdirectory h dir n = some (h, none) ∧
      (names.Nodup → names.count n = 1) := by
  obtain ⟨d, l, hd, _, hs, rfl⟩ := subdirNames_some hnames
  obtain ⟨a, ha, han⟩ := List.mem_map.mp htaken
  refine ⟨?_, fun hnd => List.count_eq_one_of_mem hnd htaken⟩
  cases hf : l.find? (fun a => decide (h.dirName a = n)) with
  | none =>
    rw [List.find?_eq_none] at hf
    exact absurd (by simpa using han) (hf a ha)
  | some c =>
    exact add_subdirectory_taken (c := c) (by rw [getDirectSubdirectory_eq n hs, hf])

/-- C3: `add_file` returns 0 exactly when the file list of `dir` holds `n`, and
then the heap is unchanged; otherwise it returns 1 and the file list of `dir`
is `n` followed by the files it held before. -/
theorem add_file_spec (h : Heap) (dir : Nat) (n : String) (names : List String)
    (hnames : fileNames h dir = some names) :
    ∃ h2 r, add_file h dir n = some (h2, r) ∧
      (r = 0 ↔ n ∈ names) ∧
      (n ∈ names → h2 = h) ∧
      (n ∉ names → r = 1 ∧ fileNames h2 dir = some (n :: names)) := by
  obtain ⟨d, l, hd, hc, hs, rfl⟩ := fileNames_some hnames
  have hloop := add_file_loop_eq h n _ _ _ hc
  by_cases hin : n ∈ l.map h.fileName
  · rw [decide_eq_true hin] at hloop
    exact ⟨h, 0, add_file_taken hd hloop, by simp [hin], fun _ => rfl,
      fun hnot => absurd hin hnot⟩
  · rw [decide_eq_false hin] at hloop
    refine ⟨h.addCell dir d n, 1, add_file_free hd hloop, by simp [hin],
      fun hyes => absurd hyes hin, fun _ => ⟨rfl, ?_⟩⟩
    unfold fileNames
    rw [addCell_fileCellsOf_dir n hd hs]
    simp only [Option.map_some', List.map_cons, Option.some.injEq]
    rw [map_fileName_addCell h dir d n (chain_lt_fileCells hc)]
    simp [Heap.fileName, addCell_get_new]

theorem add_subdirectory_creates_witness :
    subdirNames sampleHeap 0 = some ["B", "A"] ∧ "C" ∉ ["B", "A"] ∧
    ∃ h2 newDir d2,
      add_subdirectory sampleHeap 0 "C" = some (h2, some newDir) ∧
      sampleHeap.dirs[newDir]? = none ∧
      h2.dirs[newDir]? = some d2 ∧
      d2.directoryName = "C" ∧ d2.subdirectories = none ∧ d2.files = none ∧
      subdirs h2 newDir = some [] ∧ fileCellsOf h2 newDir = some [] ∧
      d2.parent = some 0 ∧
      getDirectSubdirectory h2 0 "C" = some (some newDir) :=
  ⟨by decide, by decide,
    add_subdirectory_creates sampleHeap 0 "C" ["B", "A"] (by decide) (by decide)⟩

theorem add_subdirectory_exists_witness :
    subdirNames sampleHeap 0 = some ["B", "A"] ∧ "A" ∈ ["B", "A"] ∧
    add_subdirectory sampleHeap 0 "A" = some (sampleHeap, none) ∧
      (["B", "A"].Nodup → ["B", "A"].count "A" = 1) :=
  ⟨by decide, by decide,
    add_subdirectory_exists sampleHeap 0 "A" ["B", "A"] (by decide) (by decide)⟩

theorem add_file_spec_witness :
    fileNames sampleHeap 0 = some ["f"] ∧
    ∃ h2 r, add_file sampleHeap 0 "g" = some (h2, r) ∧
      (r = 0 ↔ "g" ∈ ["f"]) ∧
      ("g" ∈ ["f"] → h2 = sampleHeap) ∧
      ("g" ∉ ["f"] → r = 1 ∧ fileNames h2 0 = some ("g" :: ["f"])) :=
  ⟨by decide, add_file_spec sampleHeap 0 "g" ["f"] (by decide)⟩

/-! ## Tokens of a command line -/

theorem takeWhile_token (a b : List Char) (hsp : ∀ c ∈ a, c ≠ ' ') :
    (a ++ ' ' :: b).takeWhile (fun c => c ≠ ' ') = a ∧
    (a ++ ' ' :: b).dropWhile (fun c => c ≠ ' ') = ' ' :: b := by
  induction a with
  | nil =>
    constructor
    · exact List.takeWhile_cons_of_neg (by decide)
    · exact List.dropWhile_cons_of_neg (by decide)
  | cons x xs ih =>
    have hx : decide (x ≠ ' ') = true := decide_eq_true (hsp x (List.mem_cons_self _ _))
    have h2 := ih (fun c hc => hsp c (List.mem_cons_of_mem _ hc))
    constructor
    · rw [List.cons_append, List.takeWhile_cons_of_pos (p := fun c => decide (c ≠ ' ')) hx, h2.1]
    · rw [List.cons_append, List.dropWhile_cons_of_pos (p := fun c => decide (c ≠ ' ')) hx, h2.2]

theorem takeWhile_all (a : List Char) (hsp : ∀ c ∈ a, c ≠ ' ') :
    a.takeWhile (fun c => c ≠ ' ') = a ∧ a.dropWhile (fun c => c ≠ ' ') = [] := by
  induction a with
  | nil => exact ⟨rfl, rfl⟩
  | cons x xs ih =>
    have hx : decide (x ≠ ' ') = true := decide_eq_true (hsp x (List.mem_cons_self _ _))
    have h2 := ih (fun c hc => hsp c (List.mem_cons_of_mem _ hc))
    constructor
    · rw [List.takeWhile_cons_of_pos (p := fun c => decide (c ≠ ' ')) hx, h2.1]
    · rw [List.dropWhile_cons_of_pos (p := fun c => decide (c ≠ ' ')) hx, h2.2]

theorem dropWhile_space (a : List Char) (hne : a ≠ []) (hsp : ∀ c ∈ a, c ≠ ' ')
    (b : List Char) : (a ++ b).dropWhile (fun c => c = ' ') = a ++ b := by
  cases a with
  | nil => exact absurd rfl hne
  | cons x xs =>
    have hx : ¬ (decide (x = ' ') = true) := by
      simpa using hsp x (List.mem_cons_self _ _)
    rw [List.cons_append, List.dropWhile_cons_of_neg (p := fun c => decide (c = ' ')) hx]

theorem strtok_first (a b : List Char) (hne : a ≠ []) (hsp : ∀ c ∈ a, c ≠ ' ') :
    strtok (a ++ ' ' :: b) = (some (String.mk a), b) := by
  have h1 := takeWhile_token a b hsp
  have hne2 : a ++ ' ' :: b ≠ [] := by simp
  unfold strtok
  simp only [dropWhile_space a hne hsp, hne2, if_false]
  rw [h1.1, h1.2]
  rfl

theorem strtok_last (a : List Char) (hne : a ≠ []) (hsp : ∀ c ∈ a, c ≠ ' ') :
    strtok a = (some (String.mk a), []) := by
  have h0 := dropWhile_space a hne hsp []
  simp only [List.append_nil] at h0
  have h1 := takeWhile_all a hsp
  unfold strtok
  simp only [h0, hne, if_false]
  rw [h1.1, h1.2]
  rfl

theorem trim_newline_of_last (a : List Char) (hne : a ≠ []) (hnl : ∀ c ∈ a, c ≠ '\n')
    (b : List Char) : trim_newline (b ++ a) = b ++ a := by
  have hlen : (b ++ a).length ≠ 0 := by
    cases a with
    | nil => exact absurd rfl hne
    | cons x xs => simp
  have hlast : (b ++ a).getLast? ≠ some '\n' := by
    rw [List.getLast?_append_of_ne_nil b hne]
    intro hl
    exact hnl _ (List.mem_of_getLast?_eq_some hl) rfl
  unfold trim_newline
  rw [if_neg hlen, if_neg hlast]

/-- A line made of a command word, one space and an argument is dispatched on
these two tokens. -/
theorem loopBody_command_argument (s : Session) (cmd n : String)
    (hc : IsName cmd) (hn : IsName n) :
    loopBody s (cmd ++ " " ++ n) = dispatch s cmd (some n) := by
  have hdata : (cmd ++ " " ++ n).data = cmd.data ++ ' ' :: n.data := by
    simp [String.data_append]
  have htrim : trim_newline (cmd.data ++ ' ' :: n.data) = cmd.data ++ ' ' :: n.data := by
    have := trim_newline_of_last n.data hn.1 (fun c hc => (hn.2 c hc).2) (cmd.data ++ [' '])
    simpa using this
  have hlen : (cmd.data ++ ' ' :: n.data).length ≠ 0 := by simp
  unfold loopBody
  simp only [hdata, htrim, hlen, if_false]
  rw [strtok_first cmd.data n.data hc.1 (fun c h => (hc.2 c h).1)]
  simp only
  rw [strtok_last n.data hn.1 (fun c h => (hn.2 c h).1)]

/-! ## Success of the creations, from the names held -/

theorem getDirectSubdirectory_none_of_not_mem {h : Heap} {dir : Nat} {n : String}
    {names : List String} (hnames : subdirNames h dir = some names) (hfree : n ∉ names) :
    getDirectSubdirectory h dir n = some none := by
  obtain ⟨d, l, hd, _, hs, rfl⟩ := subdirNames_some hnames
  rw [getDirectSubdirectory_eq n hs]
  congr 1
  rw [List.find?_eq_none]
  intro a ha hp
  exact hfree (List.mem_map.mpr ⟨a, ha, by simpa using hp⟩)

theorem getDirectSubdirectory_some_of_mem {h : Heap} {dir : Nat} {n : String}
    {l : List Nat} (hs : subdirs h dir = some l) (htaken : n ∈ l.map h.dirName) :
    ∃ c, getDirectSubdirectory h dir n = some (some c) ∧ c ∈ l ∧ h.dirName c = n := by
  obtain ⟨a, ha, han⟩ := List.mem_map.mp htaken
  cases hf : l.find? (fun a => decide (h.dirName a = n)) with
  | none =>
    rw [List.find?_eq_none] at hf
    exact absurd (by simpa using han) (hf a ha)
  | some c =>
    refine ⟨c, by rw [getDirectSubdirectory_eq n hs, hf], List.mem_of_find?_eq_some hf, ?_⟩
    simpa using List.find?_some hf

theorem add_subdirectory_of_not_mem {h : Heap} {dir : Nat} {n : String}
    {names : List String} (hnames : subdirNames h dir = some names) (hfree : n ∉ names) :
    ∃ d, h.dirs[dir]? = some d ∧
      add_subdirectory h dir n = some (h.link dir d n, some h.dirs.length) := by
  obtain ⟨d, l, hd, _, _, _⟩ := subdirNames_some hnames
  exact ⟨d, hd, add_subdirectory_free hd (getDirectSubdirectory_none_of_not_mem hnames hfree)⟩

theorem add_file_of_not_mem {h : Heap} {dir : Nat} {n : String}
    {names : List String} (hnames : fileNames h dir = some names) (hfree : n ∉ names) :
    ∃ d, h.dirs[dir]? = some d ∧ add_file h dir n = some (h.addCell dir d n, 1) := by
  obtain ⟨d, l, hd, hc, _, rfl⟩ := fileNames_some hnames
  have hloop := add_file_loop_eq h n _ _ _ hc
  rw [decide_eq_false hfree] at hloop
  exact ⟨d, hd, add_file_free hd hloop⟩

theorem add_file_of_mem {h : Heap} {dir : Nat} {n : String}
    {names : List String} (hnames : fileNames h dir = some names) (htaken : n ∈ names) :
    add_file h dir n = some (h, 0) := by
  obtain ⟨d, l, hd, hc, _, rfl⟩ := fileNames_some hnames
  have hloop := add_file_loop_eq h n _ _ _ hc
  rw [decide_eq_true htaken] at hloop
  exact add_file_taken hd hloop

theorem link_subdirNames_dir {h : Heap} {dir : Nat} {d : Directory} (n : String)
    (hd : h.dirs[dir]? = some d) {names : List String}
    (hnames : subdirNames h dir = some names) :
    subdirNames (h.link dir d n) dir = some (n :: names) := by
  obtain ⟨d2, l, hd2, hc, hs, rfl⟩ := subdirNames_some hnames
  unfold subdirNames
  rw [link_subdirs_dir n hd hs]
  simp only [Option.map_some', List.map_cons, Option.some.injEq]
  rw [map_dirName_link n hd (chain_lt_dirs hc)]
  simp [Heap.dirName, link_get_new n hd]

theorem addCell_fileNames_dir {h : Heap} {dir : Nat} {d : Directory} (n : String)
    (hd : h.dirs[dir]? = some d) {names : List String}
    (hnames : fileNames h dir = some names) :
    fileNames (h.addCell dir d n) dir = some (n :: names) := by
  obtain ⟨d2, l, hd2, hc, hs, rfl⟩ := fileNames_some hnames
  unfold fileNames
  rw [addCell_fileCellsOf_dir n hd hs]
  simp only [Option.map_some', List.map_cons, Option.some.injEq]
  rw [map_fileName_addCell h dir d n (chain_lt_fileCells hc)]
  simp [Heap.fileName, addCell_get_new]

theorem addCell_subdirNames {h : Heap} {dir : Nat} {d : Directory} (n : String)
    (hd : h.dirs[dir]? = some d) (a : Nat) :
    subdirNames (h.addCell dir d n) a = subdirNames h a := by
  have hnm : (h.addCell dir d n).dirName = h.dirName := funext (addCell_dirName n hd)
  unfold subdirNames
  rw [addCell_subdirs n hd, hnm]

theorem link_fileCellsOf {h : Heap} {dir : Nat} {d : Directory} (n : String)
    (hd : h.dirs[dir]? = some d) {a : Nat} (ha : a < h.dirs.length) :
    fileCellsOf (h.link dir d n) a = fileCellsOf h a := by
  have hf := link_files_old n hd ha
  have hnx : (h.link dir d n).fileNext = h.fileNext := rfl
  unfold fileCellsOf
  rw [link_fileCells, hnx]
  cases hx : (h.link dir d n).dirs[a]? with
  | none =>
    rw [hx] at hf
    cases hy : h.dirs[a]? with
    | none => rfl
    | some y => rw [hy] at hf; simp at hf
  | some x =>
    rw [hx] at hf
    cases hy : h.dirs[a]? with
    | none => rw [hy] at hf; simp at hf
    | some y =>
      rw [hy] at hf
      simp only [Option.map_some', Option.some.injEq] at hf
      simp only [hf]

theorem link_fileNames {h : Heap} {dir : Nat} {d : Directory} (n : String)
    (hd : h.dirs[dir]? = some d) {a : Nat} (ha : a < h.dirs.length) :
    fileNames (h.link dir d n) a = fileNames h a := by
  have hnm : (h.link dir d n).fileName = h.fileName := rfl
  unfold fileNames
  rw [link_fileCellsOf n hd ha, hnm]

/-! ## Command lines with an argument -/

theorem loopBody_cd (s : Session) (n : String) (hn : IsName n) :
    loopBody s ("cd " ++ n) = dispatch s "cd" (some n) := by
  have e : "cd " ++ n = "cd" ++ " " ++ n := by
    rw [String.append_assoc]; rfl
  rw [e]
  exact loopBody_command_argument s "cd" n (by decide) hn

theorem loopBody_mkdir (s : Session) (n : String) (hn : IsName n) :
    loopBody s ("mkdir " ++ n) = dispatch s "mkdir" (some n) := by
  have e : "mkdir " ++ n = "mkdir" ++ " " ++ n := by
    rw [String.append_assoc]; rfl
  rw [e]
  exact loopBody_command_argument s "mkdir" n (by decide) hn

theorem loopBody_touch (s : Session) (n : String) (hn : IsName n) :
    loopBody s ("touch " ++ n) = dispatch s "touch" (some n) := by
  have e : "touch " ++ n = "touch" ++ " " ++ n := by
    rw [String.append_assoc]; rfl
  rw [e]
  exact loopBody_command_argument s "touch" n (by decide) hn

theorem dispatch_mkdir (s : Session) (n : String) :
    dispatch s "mkdir" (some n) =
      match add_subdirectory s.heap s.head n with
      | none => none
      | some (h, some _) =>
        some ({ s with heap := h }, "Created SubDirectory " ++ n ++ "\n", true)
      | some (h, none) =>
        some ({ s with heap := h },
              "SubDirectory with name " ++ n ++ " already exists here\n", true) := by
  unfold dispatch
  rw [if_neg (by decide), if_pos rfl]

theorem dispatch_touch (s : Session) (n : String) :
    dispatch s "touch" (some n) =
      match add_file s.heap s.head n with
      | none => none
      | some (h, x) =>
        if x ≠ 0 then some ({ s with heap := h }, "Created file " ++ n ++ "\n", true)
        else some ({ s with heap := h },
                   "File with name " ++ n ++ " already exists here\n", true) := by
  unfold dispatch
  rw [if_neg (by decide), if_neg (by decide), if_pos rfl]

theorem dispatch_cd_up (s : Session) :
    dispatch s "cd" (some "..") =
      if s.head ≠ s.fs.rootDirectory then
        match s.heap.dirs[s.head]? with
        | none => none
        | some d =>
          match d.parent with
          | none => none
          | some p =>
            match s.heap.dirs[p]? with
            | none => none
            | some pd =>
              some ({ s with head := p },
                    "Switched to parent directory " ++ pd.directoryName ++ "\n", true)
      else some (s, "You are already at root directory\n", true) := by
  unfold dispatch
  rw [if_pos rfl]
  simp only [if_true]

theorem dispatch_cd_name (s : Session) (n : String) (hne : n ≠ "..") :
    dispatch s "cd" (some n) =
      match getDirectSubdirectory s.heap s.head n with
      | none => none
      | some (some dir) =>
        some ({ s with head := dir }, "Switched to directory " ++ n ++ "\n", true)
      | some none => some (s, "No such subdirectory here\n", true) := by
  unfold dispatch
  rw [if_pos rfl]
  simp only [hne, if_false]

theorem loopBody_cd_up (s : Session) : loopBody s "cd .." = dispatch s "cd" (some "..") :=
  loopBody_cd s ".." (by decide)

/-! ## Reads that do not depend on the other list -/

/-- The command `mkdir n` in a directory without a subdirectory named `n`. -/
theorem mkdir_fresh (s : Session) (n : String) (hn : IsName n) {names : List String}
    (hnames : subdirNames s.heap s.head = some names) (hfree : n ∉ names) :
    ∃ d, s.heap.dirs[s.head]? = some d ∧
      loopBody s ("mkdir " ++ n)
        = some ({ s with heap := s.heap.link s.head d n },
                "Created SubDirectory " ++ n ++ "\n", true) := by
  obtain ⟨d, hd, hadd⟩ := add_subdirectory_of_not_mem hnames hfree
  refine ⟨d, hd, ?_⟩
  rw [loopBody_mkdir s n hn, dispatch_mkdir, hadd]

/-- The command `touch n` in a directory without a file named `n`. -/
theorem touch_fresh (s : Session) (n : String) (hn : IsName n) {names : List String}
    (hnames : fileNames s.heap s.head = some names) (hfree : n ∉ names) :
    ∃ d, s.heap.dirs[s.head]? = some d ∧
      loopBody s ("touch " ++ n)
        = some ({ s with heap := s.heap.addCell s.head d n },
                "Created file " ++ n ++ "\n", true) := by
  obtain ⟨d, hd, hadd⟩ := add_file_of_not_mem hnames hfree
  refine ⟨d, hd, ?_⟩
  rw [loopBody_touch s n hn, dispatch_touch, hadd]
  rfl

theorem subdirs_total {h : Heap} (hok : HeapOK h) {a : Nat} (ha : a < h.dirs.length) :
    ∃ l, subdirs h a = some l ∧ ∀ c ∈ l, c < h.dirs.length := by
  obtain ⟨d, hd⟩ : ∃ d, h.dirs[a]? = some d := ⟨h.dirs[a], List.getElem?_eq_getElem ha⟩
  have hdec : ∀ b, b < h.dirs.length →
      ∃ r, h.dirNext b = some r ∧ ∀ c, r = some c → c < b := by
    intro b hb
    refine ⟨(h.dirs[b]).next, by simp [Heap.dirNext, List.getElem?_eq_getElem hb], ?_⟩
    intro c hc
    exact hok.next_lt b _ (List.getElem?_eq_getElem hb) c hc
  obtain ⟨l, hl, hmem⟩ := chain_total h.dirNext h.dirs.length hdec h.dirs.length
    (Nat.le_refl _) d.subdirectories (fun b hb => hok.sub_lt a d hd b hb)
  exact ⟨l, by simp [subdirs, hd, hl], hmem⟩

theorem fileCellsOf_total {h : Heap} (hok : HeapOK h) {a : Nat} (ha : a < h.dirs.length) :
    ∃ l, fileCellsOf h a = some l ∧ ∀ c ∈ l, c < h.fileCells.length := by
  obtain ⟨d, hd⟩ : ∃ d, h.dirs[a]? = some d := ⟨h.dirs[a], List.getElem?_eq_getElem ha⟩
  have hdec : ∀ b, b < h.fileCells.length →
      ∃ r, h.fileNext b = some r ∧ ∀ c, r = some c → c < b := by
    intro b hb
    refine ⟨(h.fileCells[b]).next, by simp [Heap.fileNext, List.getElem?_eq_getElem hb], ?_⟩
    intro c hc
    exact hok.fnext_lt b _ (List.getElem?_eq_getElem hb) c hc
  obtain ⟨l, hl, hmem⟩ := chain_total h.fileNext h.fileCells.length hdec h.fileCells.length
    (Nat.le_refl _) d.files (fun b hb => hok.files_lt a d hd b hb)
  exact ⟨l, by simp [fileCellsOf, hd, hl], hmem⟩

theorem subdirNames_total {h : Heap} (hok : HeapOK h) {a : Nat} (ha : a < h.dirs.length) :
    ∃ names, subdirNames h a = some names := by
  obtain ⟨l, hl, _⟩ := subdirs_total hok ha
  exact ⟨l.map h.dirName, by simp [subdirNames, hl]⟩

theorem fileNames_total {h : Heap} (hok : HeapOK h) {a : Nat} (ha : a < h.dirs.length) :
    ∃ names, fileNames h a = some names := by
  obtain ⟨l, hl, _⟩ := fileCellsOf_total hok ha
  exact ⟨l.map h.fileName, by simp [fileNames, hl]⟩

theorem subdirs_lt {h : Heap} {a : Nat} {l : List Nat} (hs : subdirs h a = some l) :
    a < h.dirs.length := by
  unfold subdirs at hs
  cases hd : h.dirs[a]? with
  | none => simp [hd] at hs
  | some d => exact lt_of_getElem?_eq_some hd

theorem subdirNames_lt {h : Heap} {a : Nat} {l : List String}
    (hs : subdirNames h a = some l) : a < h.dirs.length := by
  obtain ⟨d, _, hd, _⟩ := subdirNames_some hs
  exact lt_of_getElem?_eq_some hd

theorem fileNames_lt {h : Heap} {a : Nat} {l : List String}
    (hs : fileNames h a = some l) : a < h.dirs.length := by
  obtain ⟨d, _, hd, _⟩ := fileNames_some hs
  exact lt_of_getElem?_eq_some hd

/-- On a well-formed heap the search of `getDirectSubdirectory` returns. -/
theorem getDirectSubdirectory_total {h : Heap} (hok : HeapOK h) {dir : Nat}
    (hdir : dir < h.dirs.length) (n : String) :
    ∃ r, getDirectSubdirectory h dir n = some r := by
  obtain ⟨l, hl, _⟩ := subdirs_total hok hdir
  exact ⟨_, getDirectSubdirectory_eq n hl⟩

/-! ## The creations keep the heap well formed -/

theorem link_get_cases {h : Heap} {dir : Nat} {d : Directory} (n : String)
    (hd : h.dirs[dir]? = some d) {a : Nat} {x : Directory}
    (hx : (h.link dir d n).dirs[a]? = some x) :
    (a = dir ∧ x = { d with subdirectories := some h.dirs.length }) ∨
    (a = h.dirs.length ∧
      x = { directoryName := n, subdirectories := none, files := none,
            parent := some dir, next := d.subdirectories }) ∨
    (a < h.dirs.length ∧ a ≠ dir ∧ h.dirs[a]? = some x) := by
  have hlt := lt_of_getElem?_eq_some hx
  rw [link_length] at hlt
  by_cases h1 : a = dir
  · subst h1
    rw [link_get_dir n hd] at hx
    exact Or.inl ⟨rfl, (Option.some.inj hx).symm⟩
  · by_cases h2 : a = h.dirs.length
    · subst h2
      rw [link_get_new n hd] at hx
      exact Or.inr (Or.inl ⟨rfl, (Option.some.inj hx).symm⟩)
    · have h3 : a < h.dirs.length := by omega
      rw [link_get_old d n h3 h1] at hx
      exact Or.inr (Or.inr ⟨h3, h1, hx⟩)

theorem heapOK_link {h : Heap} (hok : HeapOK h) {dir : Nat} {d : Directory} (n : String)
    (hd : h.dirs[dir]? = some d) : HeapOK (h.link dir d n) := by
  have hdir := lt_of_getElem?_eq_some hd
  constructor
  · intro a x hx b hb
    rcases link_get_cases n hd hx with ⟨rfl, rfl⟩ | ⟨rfl, rfl⟩ | ⟨_, _, hold⟩
    · exact hok.next_lt _ d hd b hb
    · exact hok.sub_lt dir d hd b hb
    · exact hok.next_lt a x hold b hb
  · intro a x hx b hb
    rw [link_length]
    rcases link_get_cases n hd hx with ⟨rfl, rfl⟩ | ⟨rfl, rfl⟩ | ⟨_, _, hold⟩
    · simp only [Option.some.injEq] at hb
      omega
    · simp at hb
    · have := hok.sub_lt a x hold b hb
      omega
  · intro a x hx b hb
    rw [link_fileCells]
    rcases link_get_cases n hd hx with ⟨rfl, rfl⟩ | ⟨rfl, rfl⟩ | ⟨_, _, hold⟩
    · exact hok.files_lt _ d hd b hb
    · simp at hb
    · exact hok.files_lt a x hold b hb
  · intro a c hc b hb
    exact hok.fnext_lt a c hc b hb

theorem addCell_get_cases {h : Heap} {dir : Nat} {d : Directory} (n : String)
    (hd : h.dirs[dir]? = some d) {a : Nat} {x : Directory}
    (hx : (h.addCell dir d n).dirs[a]? = some x) :
    (a = dir ∧ x = { d with files := some h.fileCells.length }) ∨
    (a ≠ dir ∧ h.dirs[a]? = some x) := by
  by_cases h1 : a = dir
  · subst h1
    rw [addCell_get_dir n hd] at hx
    exact Or.inl ⟨rfl, (Option.some.inj hx).symm⟩
  · rw [addCell_get_other h d n h1] at hx
    exact Or.inr ⟨h1, hx⟩

theorem heapOK_addCell {h : Heap} (hok : HeapOK h) {dir : Nat} {d : Directory} (n : String)
    (hd : h.dirs[dir]? = some d) : HeapOK (h.addCell dir d n) := by
  constructor
  · intro a x hx b hb
    rcases addCell_get_cases n hd hx with ⟨rfl, rfl⟩ | ⟨_, hold⟩
    · exact hok.next_lt _ d hd b hb
    · exact hok.next_lt a x hold b hb
  · intro a x hx b hb
    rw [addCell_dirs_length]
    rcases addCell_get_cases n hd hx with ⟨rfl, rfl⟩ | ⟨_, hold⟩
    · exact hok.sub_lt _ d hd b hb
    · exact hok.sub_lt a x hold b hb
  · intro a x hx b hb
    rw [addCell_fileCells_length]
    rcases addCell_get_cases n hd hx with ⟨rfl, rfl⟩ | ⟨_, hold⟩
    · simp only [Option.some.injEq] at hb
      omega
    · have := hok.files_lt a x hold b hb
      omega
  · intro a c hc b hb
    have hlt := lt_of_getElem?_eq_some hc
    rw [addCell_fileCells_length] at hlt
    by_cases h1 : a = h.fileCells.length
    · subst h1
      rw [addCell_get_new] at hc
      have hc2 := (Option.some.inj hc).symm
      subst hc2
      exact hok.files_lt dir d hd b hb
    · have h3 : a < h.fileCells.length := by omega
      have hc3 : h.fileCells[a]? = some c := by
        simp only [Heap.addCell] at hc
        rwa [List.getElem?_append_left h3] at hc
      exact hok.fnext_lt a c hc3 b hb

/-- The subdirectory lists after a link, directory by directory. -/
theorem link_subdirs_cases {h : Heap} (hok : HeapOK h) {dir : Nat} {d : Directory}
    (n : String) (hd : h.dirs[dir]? = some d) {p : Nat} {l : List Nat}
    (hs : subdirs (h.link dir d n) p = some l) :
    (p = dir ∧ ∃ l0, subdirs h dir = some l0 ∧ l = h.dirs.length :: l0) ∨
    (p = h.dirs.length ∧ l = []) ∨
    (p < h.dirs.length ∧ p ≠ dir ∧ subdirs h p = some l) := by
  have hlt := subdirs_lt hs
  rw [link_length] at hlt
  by_cases h1 : p = dir
  · subst h1
    obtain ⟨l0, hl0, _⟩ := subdirs_total hok (lt_of_getElem?_eq_some hd)
    rw [link_subdirs_dir n hd hl0] at hs
    exact Or.inl ⟨rfl, l0, hl0, (Option.some.inj hs).symm⟩
  · by_cases h2 : p = h.dirs.length
    · subst h2
      rw [link_subdirs_new n hd] at hs
      exact Or.inr (Or.inl ⟨rfl, (Option.some.inj hs).symm⟩)
    · have h3 : p < h.dirs.length := by omega
      obtain ⟨l0, hl0, _⟩ := subdirs_total hok h3
      rw [link_subdirs_old n hd h3 h1 hl0] at hs
      rw [hl0, hs]
      exact Or.inr (Or.inr ⟨h3, h1, rfl⟩)

theorem link_subdirNames_old {h : Heap} (hok : HeapOK h) {dir : Nat} {d : Directory}
    (n : String) (hd : h.dirs[dir]? = some d) {a : Nat} (ha : a < h.dirs.length)
    (hne : a ≠ dir) : subdirNames (h.link dir d n) a = subdirNames h a := by
  obtain ⟨l0, hl0, hmem⟩ := subdirs_total hok ha
  unfold subdirNames
  rw [link_subdirs_old n hd ha hne hl0, hl0]
  simp only [Option.map_some', Option.some.injEq]
  exact map_dirName_link n hd hmem

/-! ## The invariant is kept -/

theorem inv_link {s : Session} (hinv : Inv s) {dir : Nat} {d : Directory} {n : String}
    (hd : s.heap.dirs[dir]? = some d)
    (hg : getDirectSubdirectory s.heap dir n = some none) :
    Inv { s with heap := s.heap.link dir d n } := by
  have hok := hinv.ok
  have hdir := lt_of_getElem?_eq_some hd
  obtain ⟨l0, hl0, hl0lt⟩ := subdirs_total hok hdir
  have hl0' := link_subdirs_dir n hd hl0
  refine ⟨heapOK_link hok n hd, ?_, ?_, ?_, ?_, ?_, ?_, ?_⟩
  · show s.fs.rootDirectory < (s.heap.link dir d n).dirs.length
    rw [link_length]; exact Nat.lt_succ_of_lt hinv.root_lt
  · show s.head < (s.heap.link dir d n).dirs.length
    rw [link_length]; exact Nat.lt_succ_of_lt hinv.head_lt
  · intro x hx
    have hp := link_parent_old n hd hinv.root_lt
    have hx' : (s.heap.link dir d n).dirs[s.fs.rootDirectory]? = some x := hx
    rw [hx'] at hp
    cases hy : s.heap.dirs[s.fs.rootDirectory]? with
    | none => rw [hy] at hp; simp at hp
    | some y =>
      rw [hy] at hp
      simp only [Option.map_some', Option.some.injEq] at hp
      rw [hp]
      exact hinv.root_parent y hy
  · intro p l c hs hc
    have hs' : subdirs (s.heap.link dir d n) p = some l := hs
    show ∃ x, (s.heap.link dir d n).dirs[c]? = some x ∧ x.parent = some p
    have hold : ∀ q lq, subdirs s.heap q = some lq → c ∈ lq →
        ∃ x, (s.heap.link dir d n).dirs[c]? = some x ∧ x.parent = some q := by
      intro q lq hq hcq
      obtain ⟨y, hy, hyp⟩ := hinv.child_parent q lq c hq hcq
      have hp := link_parent_old n hd (lt_of_getElem?_eq_some hy)
      rw [hy] at hp
      cases hx : (s.heap.link dir d n).dirs[c]? with
      | none => rw [hx] at hp; simp at hp
      | some x =>
        rw [hx] at hp
        simp only [Option.map_some', Option.some.injEq] at hp
        exact ⟨x, rfl, by rw [hp, hyp]⟩
    rcases link_subdirs_cases hok n hd hs' with ⟨rfl, l1, hl1, rfl⟩ | ⟨_, rfl⟩ | ⟨_, _, hq⟩
    · rcases List.mem_cons.mp hc with rfl | hc1
      · exact ⟨_, link_get_new n hd, rfl⟩
      · exact hold _ l1 hl1 hc1
    · simp at hc
    · exact hold p l hq hc
  · intro a x hx hne
    have hx' : (s.heap.link dir d n).dirs[a]? = some x := hx
    show ∃ p l, x.parent = some p ∧ subdirs (s.heap.link dir d n) p = some l ∧ a ∈ l
    have hold : ∀ y, s.heap.dirs[a]? = some y → x.parent = y.parent →
        ∃ p l, x.parent = some p ∧ subdirs (s.heap.link dir d n) p = some l ∧ a ∈ l := by
      intro y hy hxy
      obtain ⟨p, l, hp, hl, hal⟩ := hinv.parent_child a y hy hne
      have hpl := subdirs_lt hl
      by_cases hpd : p = dir
      · subst hpd
        rw [hl0] at hl
        have hll := Option.some.inj hl
        subst hll
        exact ⟨p, _, by rw [hxy, hp], hl0', List.mem_cons_of_mem _ hal⟩
      · exact ⟨p, l, by rw [hxy, hp], link_subdirs_old n hd hpl hpd hl, hal⟩
    rcases link_get_cases n hd hx' with ⟨rfl, rfl⟩ | ⟨rfl, rfl⟩ | ⟨_, _, hy⟩
    · exact hold d hd rfl
    · exact ⟨dir, _, rfl, hl0', List.mem_cons_self _ _⟩
    · exact hold x hy rfl
  · intro a l hl
    have hl' : subdirNames (s.heap.link dir d n) a = some l := hl
    have hlt := subdirNames_lt hl'
    rw [link_length] at hlt
    by_cases h1 : a = dir
    · subst h1
      obtain ⟨names, hnames⟩ := subdirNames_total hok hdir
      rw [link_subdirNames_dir n hd hnames] at hl'
      have hll := Option.some.inj hl'
      subst hll
      refine List.nodup_cons.mpr ⟨?_, hinv.dir_nodup _ names hnames⟩
      intro hmem
      obtain ⟨d1, l1, _, _, hs1, rfl⟩ := subdirNames_some hnames
      obtain ⟨c, hc, _, _⟩ := getDirectSubdirectory_some_of_mem hs1 hmem
      rw [hg] at hc
      simp at hc
    · by_cases h2 : a = s.heap.dirs.length
      · subst h2
        have : subdirNames (s.heap.link dir d n) s.heap.dirs.length = some [] := by
          simp [subdirNames, link_subdirs_new n hd]
        rw [this] at hl'
        have hll := Option.some.inj hl'
        subst hll
        exact List.nodup_nil
      · have h3 : a < s.heap.dirs.length := by omega
        rw [link_subdirNames_old hok n hd h3 h1] at hl'
        exact hinv.dir_nodup a l hl'
  · intro a l hl
    have hl' : fileNames (s.heap.link dir d n) a = some l := hl
    have hlt := fileNames_lt hl'
    rw [link_length] at hlt
    by_cases h2 : a = s.heap.dirs.length
    · subst h2
      have : fileNames (s.heap.link dir d n) s.heap.dirs.length = some [] := by
        simp [fileNames, fileCellsOf, link_get_new n hd, chain]
      rw [this] at hl'
      have hll := Option.some.inj hl'
      subst hll
      exact List.nodup_nil
    · have h3 : a < s.heap.dirs.length := by omega
      rw [link_fileNames n hd h3] at hl'
      exact hinv.file_nodup a l hl'

theorem addCell_parent {h : Heap} {dir : Nat} {d : Directory} (n : String)
    (hd : h.dirs[dir]? = some d) (a : Nat) :
    ((h.addCell dir d n).dirs[a]?).map Directory.parent
      = (h.dirs[a]?).map Directory.parent := by
  by_cases hne : a = dir
  · subst hne
    rw [addCell_get_dir n hd, hd]
    rfl
  · rw [addCell_get_other h d n hne]

theorem addCell_fileNames_other {h : Heap} (hok : HeapOK h) {dir : Nat} (d : Directory)
    (n : String) {a : Nat} (ha : a < h.dirs.length) (hne : a ≠ dir) :
    fileNames (h.addCell dir d n) a = fileNames h a := by
  obtain ⟨l0, hl0, hmem⟩ := fileCellsOf_total hok ha
  unfold fileNames
  rw [addCell_fileCellsOf_other d n hne hl0, hl0]
  simp only [Option.map_some', Option.some.injEq]
  exact map_fileName_addCell h dir d n hmem

theorem inv_addCell {s : Session} (hinv : Inv s) {dir : Nat} {d : Directory} {n : String}
    (hd : s.heap.dirs[dir]? = some d)
    (hg : add_file.loop s.heap n s.heap.fileCells.length d.files = some false) :
    Inv { s with heap := s.heap.addCell dir d n } := by
  have hok := hinv.ok
  have hdir := lt_of_getElem?_eq_some hd
  have hpar : ∀ (a : Nat) (x y : Directory), (s.heap.addCell dir d n).dirs[a]? = some x →
      s.heap.dirs[a]? = some y → x.parent = y.parent := by
    intro a x y hx hy
    have hp := addCell_parent n hd a
    rw [hx, hy] at hp
    simpa using hp
  refine ⟨heapOK_addCell hok n hd, ?_, ?_, ?_, ?_, ?_, ?_, ?_⟩
  · show s.fs.rootDirectory < (s.heap.addCell dir d n).dirs.length
    rw [addCell_dirs_length]; exact hinv.root_lt
  · show s.head < (s.heap.addCell dir d n).dirs.length
    rw [addCell_dirs_length]; exact hinv.head_lt
  · intro x hx
    have hx' : (s.heap.addCell dir d n).dirs[s.fs.rootDirectory]? = some x := hx
    obtain ⟨y, hy⟩ : ∃ y, s.heap.dirs[s.fs.rootDirectory]? = some y :=
      ⟨_, List.getElem?_eq_getElem hinv.root_lt⟩
    rw [hpar _ x y hx' hy]
    exact hinv.root_parent y hy
  · intro p l c hs hc
    have hs' : subdirs (s.heap.addCell dir d n) p = some l := hs
    show ∃ x, (s.heap.addCell dir d n).dirs[c]? = some x ∧ x.parent = some p
    rw [addCell_subdirs n hd] at hs'
    obtain ⟨y, hy, hyp⟩ := hinv.child_parent p l c hs' hc
    have hclt : c < (s.heap.addCell dir d n).dirs.length := by
      rw [addCell_dirs_length]; exact lt_of_getElem?_eq_some hy
    refine ⟨_, List.getElem?_eq_getElem hclt, ?_⟩
    rw [hpar c _ y (List.getElem?_eq_getElem hclt) hy, hyp]
  · intro a x hx hne
    have hx' : (s.heap.addCell dir d n).dirs[a]? = some x := hx
    show ∃ p l, x.parent = some p ∧ subdirs (s.heap.addCell dir d n) p = some l ∧ a ∈ l
    have halt : a < s.heap.dirs.length := by
      have := lt_of_getElem?_eq_some hx'
      rwa [addCell_dirs_length] at this
    obtain ⟨p, l, hp, hl, hal⟩ :=
      hinv.parent_child a _ (List.getElem?_eq_getElem halt) hne
    refine ⟨p, l, ?_, by rw [addCell_subdirs n hd]; exact hl, hal⟩
    rw [hpar a x _ hx' (List.getElem?_eq_getElem halt), hp]
  · intro a l hl
    have hl' : subdirNames (s.heap.addCell dir d n) a = some l := hl
    rw [addCell_subdirNames n hd] at hl'
    exact hinv.dir_nodup a l hl'
  · intro a l hl
    have hl' : fileNames (s.heap.addCell dir d n) a = some l := hl
    have hlt := fileNames_lt hl'
    rw [addCell_dirs_length] at hlt
    by_cases h1 : a = dir
    · subst h1
      obtain ⟨names, hnames⟩ := fileNames_total hok hdir
      rw [addCell_fileNames_dir n hd hnames] at hl'
      have hll := Option.some.inj hl'
      subst hll
      refine List.nodup_cons.mpr ⟨?_, hinv.file_nodup _ names hnames⟩
      intro hmem
      have h0 := add_file_of_mem hnames hmem
      have h1 : add_file s.heap a n = some (s.heap.addCell a d n, 1) := add_file_free hd hg
      rw [h0] at h1
      have h2 := congrArg Prod.snd (Option.some.inj h1)
      simp at h2
    · rw [addCell_fileNames_other hok d n hlt h1] at hl'
      exact hinv.file_nodup a l hl'

theorem inv_head {s : Session} (hinv : Inv s) {p : Nat} (hp : p < s.heap.dirs.length) :
    Inv { s with head := p } :=
  ⟨hinv.ok, hinv.root_lt, hp, hinv.root_parent, hinv.child_parent, hinv.parent_child,
    hinv.dir_nodup, hinv.file_nodup⟩

theorem getElem?_singleton_some {α : Type} {x y : α} {a : Nat}
    (hx : [x][a]? = some y) : a = 0 ∧ y = x := by
  cases a with
  | zero => simpa using hx.symm
  | succ k => simp at hx

theorem inv_initial : Inv initial := by
  have hdirs : initial.heap.dirs
      = [{ directoryName := "root", subdirectories := none, next := none,
           files := none, parent := none }] := rfl
  have hfiles : initial.heap.fileCells = [] := rfl
  have hsub : ∀ p l, subdirs initial.heap p = some l → p = 0 ∧ l = [] := by
    intro p l hs
    have hp := subdirs_lt hs
    rw [hdirs] at hp
    have hp0 : p = 0 := by simpa using hp
    subst hp0
    have : subdirs initial.heap 0 = some [] := rfl
    rw [this] at hs
    exact ⟨rfl, (Option.some.inj hs).symm⟩
  refine ⟨⟨?_, ?_, ?_, ?_⟩, by decide, by decide, ?_, ?_, ?_, ?_, ?_⟩
  · intro a d hd b hb
    rw [hdirs] at hd
    obtain ⟨_, rfl⟩ := getElem?_singleton_some hd
    simp at hb
  · intro a d hd b hb
    rw [hdirs] at hd
    obtain ⟨_, rfl⟩ := getElem?_singleton_some hd
    simp at hb
  · intro a d hd b hb
    rw [hdirs] at hd
    obtain ⟨_, rfl⟩ := getElem?_singleton_some hd
    simp at hb
  · intro a c hc
    rw [hfiles] at hc
    simp at hc
  · intro d hd
    have hd' : initial.heap.dirs[0]? = some d := hd
    rw [hdirs] at hd'
    obtain ⟨_, rfl⟩ := getElem?_singleton_some hd'
    rfl
  · intro p l c hs hc
    obtain ⟨_, rfl⟩ := hsub p l hs
    simp at hc
  · intro a d hd hne
    rw [hdirs] at hd
    obtain ⟨ha, _⟩ := getElem?_singleton_some hd
    exact absurd ha hne
  · intro a l hl
    obtain ⟨d, l0, _, _, hs, rfl⟩ := subdirNames_some hl
    obtain ⟨_, rfl⟩ := hsub a l0 hs
    exact List.nodup_nil
  · intro a l hl
    have ha := fileNames_lt hl
    rw [hdirs] at ha
    have hp0 : a = 0 := by simpa using ha
    subst hp0
    have : fileNames initial.heap 0 = some [] := rfl
    rw [this] at hl
    have hll := Option.some.inj hl
    subst hll
    exact List.nodup_nil

theorem add_subdirectory_cases {h h2 : Heap} {dir : Nat} {n : String} {r : Option Nat}
    (hadd : add_subdirectory h dir n = some (h2, r)) :
    (r = none ∧ h2 = h) ∨
    (∃ d, h.dirs[dir]? = some d ∧ getDirectSubdirectory h dir n = some none ∧
      h2 = h.link dir d n ∧ r = some h.dirs.length) := by
  cases hg : getDirectSubdirectory h dir n with
  | none => simp [add_subdirectory, hg] at hadd
  | some found =>
    cases found with
    | some c =>
      rw [add_subdirectory_taken hg] at hadd
      simp only [Option.some.injEq, Prod.mk.injEq] at hadd
      exact Or.inl ⟨hadd.2.symm, hadd.1.symm⟩
    | none =>
      cases hd : h.dirs[dir]? with
      | none => simp [getDirectSubdirectory, hd] at hg
      | some d =>
        rw [add_subdirectory_free hd hg] at hadd
        simp only [Option.some.injEq, Prod.mk.injEq] at hadd
        exact Or.inr ⟨d, rfl, rfl, hadd.1.symm, hadd.2.symm⟩

theorem add_file_cases {h h2 : Heap} {dir : Nat} {n : String} {r : Int}
    (hadd : add_file h dir n = some (h2, r)) :
    (r = 0 ∧ h2 = h) ∨
    (∃ d, h.dirs[dir]? = some d ∧
      add_file.loop h n h.fileCells.length d.files = some false ∧
      h2 = h.addCell dir d n ∧ r = 1) := by
  cases hd : h.dirs[dir]? with
  | none => simp [add_file, hd] at hadd
  | some d =>
    cases hg : add_file.loop h n h.fileCells.length d.files with
    | none => simp [add_file, hd, hg] at hadd
    | some found =>
      cases found with
      | true =>
        rw [add_file_taken hd hg] at hadd
        simp only [Option.some.injEq, Prod.mk.injEq] at hadd
        exact Or.inl ⟨hadd.2.symm, hadd.1.symm⟩
      | false =>
        rw [add_file_free hd hg] at hadd
        simp only [Option.some.injEq, Prod.mk.injEq] at hadd
        exact Or.inr ⟨d, rfl, hg, hadd.1.symm, hadd.2.symm⟩

theorem getDirectSubdirectory_loop_lt (h : Heap) (n : String) :
    ∀ (fuel : Nat) (p : Option Nat) (c : Nat),
      getDirectSubdirectory.loop h n fuel p = some (some c) → c < h.dirs.length := by
  intro fuel
  induction fuel with
  | zero =>
    intro p c hc
    cases p <;> simp [getDirectSubdirectory.loop] at hc
  | succ k ih =>
    intro p c hc
    cases p with
    | none => simp [getDirectSubdirectory.loop] at hc
    | some a =>
      simp only [getDirectSubdirectory.loop] at hc
      cases ha : h.dirs[a]? with
      | none => simp [ha] at hc
      | some x =>
        simp only [ha] at hc
        by_cases hx : x.directoryName = n
        · simp only [hx, if_true, Option.some.injEq] at hc
          subst hc
          exact lt_of_getElem?_eq_some ha
        · simp only [hx, if_false] at hc
          exact ih _ c hc

theorem getDirectSubdirectory_lt {h : Heap} {dir : Nat} {n : String} {c : Nat}
    (hg : getDirectSubdirectory h dir n = some (some c)) : c < h.dirs.length := by
  unfold getDirectSubdirectory at hg
  cases hd : h.dirs[dir]? with
  | none => simp [hd] at hg
  | some d =>
    simp only [hd] at hg
    exact getDirectSubdirectory_loop_lt h n _ _ c hg

/-- The states an iteration can lead to. -/
theorem dispatch_state {s s2 : Session} {c : String} {a : Option String} {out : String}
    {b : Bool} (hstep : dispatch s c a = some (s2, out, b)) :
    s2 = s ∨
    (∃ p, p < s.heap.dirs.length ∧ s2 = { s with head := p }) ∨
    (∃ d n, s.heap.dirs[s.head]? = some d ∧
      getDirectSubdirectory s.heap s.head n = some none ∧
      s2 = { s with heap := s.heap.link s.head d n }) ∨
    (∃ d n, s.heap.dirs[s.head]? = some d ∧
      add_file.loop s.heap n s.heap.fileCells.length d.files = some false ∧
      s2 = { s with heap := s.heap.addCell s.head d n }) := by
  unfold dispatch at hstep
  split at hstep
  · split at hstep
    · simp only [Option.some.injEq, Prod.mk.injEq] at hstep
      exact Or.inl hstep.1.symm
    · split at hstep
      · split at hstep
        · split at hstep
          · simp at hstep
          · split at hstep
            · simp at hstep
            · split at hstep
              · simp at hstep
              · rename_i p _ _ pd hpd
                simp only [Option.some.injEq, Prod.mk.injEq] at hstep
                exact Or.inr (Or.inl ⟨p, lt_of_getElem?_eq_some hpd, hstep.1.symm⟩)
        · simp only [Option.some.injEq, Prod.mk.injEq] at hstep
          exact Or.inl hstep.1.symm
      · split at hstep
        · simp at hstep
        · rename_i dir hg
          simp only [Option.some.injEq, Prod.mk.injEq] at hstep
          exact Or.inr (Or.inl ⟨dir, getDirectSubdirectory_lt hg, hstep.1.symm⟩)
        · simp only [Option.some.injEq, Prod.mk.injEq] at hstep
          exact Or.inl hstep.1.symm
  · split at hstep
    · split at hstep
      · simp only [Option.some.injEq, Prod.mk.injEq] at hstep
        exact Or.inl hstep.1.symm
      · split at hstep
        · simp at hstep
        · rename_i h2 x hadd
          simp only [Option.some.injEq, Prod.mk.injEq] at hstep
          rcases add_subdirectory_cases hadd with ⟨hr, _⟩ | ⟨d, hd, hg, hh, _⟩
          · simp at hr
          · subst hh
            exact Or.inr (Or.inr (Or.inl ⟨d, _, hd, hg, hstep.1.symm⟩))
        · rename_i h2 hadd
          simp only [Option.some.injEq, Prod.mk.injEq] at hstep
          rcases add_subdirectory_cases hadd with ⟨_, hh⟩ | ⟨d, _, _, _, hr⟩
          · subst hh
            exact Or.inl hstep.1.symm
          · simp at hr
    · split at hstep
      · split at hstep
        · simp only [Option.some.injEq, Prod.mk.injEq] at hstep
          exact Or.inl hstep.1.symm
        · split at hstep
          · simp at hstep
          · rename_i h2 x hadd
            have hs2 : s2 = { s with heap := h2 } := by
              split at hstep <;>
                (simp only [Option.some.injEq, Prod.mk.injEq] at hstep; exact hstep.1.symm)
            rcases add_file_cases hadd with ⟨_, hh⟩ | ⟨d, hd, hg, hh, _⟩
            · subst hh
              exact Or.inl hs2
            · subst hh
              exact Or.inr (Or.inr (Or.inr ⟨d, _, hd, hg, hs2⟩))
      · split at hstep
        · split at hstep
          · simp at hstep
          · simp only [Option.some.injEq, Prod.mk.injEq] at hstep
            exact Or.inl hstep.1.symm
        · split at hstep
          · split at hstep
            · simp at hstep
            · simp only [Option.some.injEq, Prod.mk.injEq] at hstep
              exact Or.inl hstep.1.symm
          · split at hstep
            · simp only [Option.some.injEq, Prod.mk.injEq] at hstep
              exact Or.inl hstep.1.symm
            · simp only [Option.some.injEq, Prod.mk.injEq] at hstep
              exact Or.inl hstep.1.symm

theorem loopBody_state {s s2 : Session} {input out : String} {b : Bool}
    (hstep : loopBody s input = some (s2, out, b)) :
    s2 = s ∨ ∃ c a, dispatch s c a = some (s2, out, b) := by
  unfold loopBody at hstep
  simp only at hstep
  split at hstep
  · simp only [Option.some.injEq, Prod.mk.injEq] at hstep
    exact Or.inl hstep.1.symm
  · split at hstep
    · simp at hstep
    · exact Or.inr ⟨_, _, hstep⟩

theorem inv_dispatch {s s2 : Session} {c : String} {a : Option String} {out : String}
    {b : Bool} (hinv : Inv s) (hstep : dispatch s c a = some (s2, out, b)) : Inv s2 := by
  rcases dispatch_state hstep with rfl | ⟨p, hp, rfl⟩ | ⟨d, n, hd, hg, rfl⟩ | ⟨d, n, hd, hg, rfl⟩
  · exact hinv
  · exact inv_head hinv hp
  · exact inv_link hinv hd hg
  · exact inv_addCell hinv hd hg

theorem inv_loopBody {s s2 : Session} {input out : String} {b : Bool}
    (hinv : Inv s) (hstep : loopBody s input = some (s2, out, b)) : Inv s2 := by
  rcases loopBody_state hstep with rfl | ⟨c, a, hd⟩
  · exact hinv
  · exact inv_dispatch hinv hd

/-- Every state of the loop satisfies the invariant. -/
theorem inv_of_reachable {s : Session} (hr : Reachable s) : Inv s := by
  induction hr with
  | start => exact inv_initial
  | next _ hstep ih => exact inv_loopBody ih hstep

/-! ## Runs of the loop -/

theorem reachable_run {s : Session} (hr : Reachable s) :
    ∀ (lines : List String) (s2 : Session), run s lines = some s2 → Reachable s2 := by
  intro lines
  induction lines generalizing s with
  | nil =>
    intro s2 h
    simp only [run, Option.some.injEq] at h
    exact h ▸ hr
  | cons input rest ih =>
    intro s2 h
    simp only [run] at h
    split at h
    · rename_i s1 out hstep
      exact ih (Reachable.next hr hstep) s2 h
    · simp at h

theorem reachable_of_run (lines : List String) {s : Session}
    (h : run initial lines = some s) : Reachable s :=
  reachable_run Reachable.start lines s h

theorem reachable_sampleSession : Reachable sampleSession :=
  reachable_of_run ["mkdir A", "mkdir B", "touch f", "cd A"] (by decide)

/-- A line made of one word is dispatched on this word, without argument. -/
theorem loopBody_command (s : Session) (cmd : String) (hc : IsName cmd) :
    loopBody s cmd = dispatch s cmd none := by
  have htrim : trim_newline cmd.data = cmd.data := by
    have := trim_newline_of_last cmd.data hc.1 (fun c h => (hc.2 c h).2) []
    simpa using this
  have hlen : cmd.data.length ≠ 0 := by
    have := hc.1
    cases hdata : cmd.data with
    | nil => exact absurd hdata this
    | cons x xs => simp
  unfold loopBody
  simp only [htrim, hlen, if_false]
  rw [strtok_last cmd.data hc.1 (fun c h => (hc.2 c h).1)]
  rfl

/-- In a state of the loop `mkdir n` goes on, keeps the cursor, and leaves a
subdirectory named `n` under it; the directories that were there keep their
parent. -/
theorem mkdir_total (s : Session) (hinv : Inv s) (n : String) (hn : IsName n) :
    ∃ s2 out c, loopBody s ("mkdir " ++ n) = some (s2, out, true) ∧
      s2.head = s.head ∧ s2.fs = s.fs ∧
      getDirectSubdirectory s2.heap s2.head n = some (some c) ∧
      s.heap.dirs.length ≤ s2.heap.dirs.length ∧
      ∀ x, x < s.heap.dirs.length →
        (s2.heap.dirs[x]?).map Directory.parent = (s.heap.dirs[x]?).map Directory.parent := by
  obtain ⟨r, hg⟩ := getDirectSubdirectory_total hinv.ok hinv.head_lt n
  rw [loopBody_mkdir s n hn, dispatch_mkdir]
  cases r with
  | some c =>
    rw [add_subdirectory_taken hg]
    exact ⟨_, _, c, rfl, rfl, rfl, hg, Nat.le_refl _, fun _ _ => rfl⟩
  | none =>
    obtain ⟨d, hd⟩ : ∃ d, s.heap.dirs[s.head]? = some d :=
      ⟨_, List.getElem?_eq_getElem hinv.head_lt⟩
    obtain ⟨l, hl, _⟩ := subdirs_total hinv.ok hinv.head_lt
    rw [add_subdirectory_free hd hg]
    refine ⟨_, _, s.heap.dirs.length, rfl, rfl, rfl, ?_, ?_, ?_⟩
    · show getDirectSubdirectory (s.heap.link s.head d n) s.head n = _
      rw [getDirectSubdirectory_eq n (link_subdirs_dir n hd hl)]
      simp [Heap.dirName, link_get_new n hd]
    · show s.heap.dirs.length ≤ (s.heap.link s.head d n).dirs.length
      rw [link_length]; exact Nat.le_succ _
    · intro x hx
      exact link_parent_old n hd hx

/-- The directory `getDirectSubdirectory` finds is in the list of `dir`. -/
theorem getDirectSubdirectory_mem {h : Heap} (hok : HeapOK h) {dir : Nat} {n : String}
    {c : Nat} (hg : getDirectSubdirectory h dir n = some (some c)) :
    ∃ l, subdirs h dir = some l ∧ c ∈ l ∧ h.dirName c = n := by
  have hdir : dir < h.dirs.length := by
    unfold getDirectSubdirectory at hg
    cases hd : h.dirs[dir]? with
    | none => simp [hd] at hg
    | some d => exact lt_of_getElem?_eq_some hd
  obtain ⟨l, hl, _⟩ := subdirs_total hok hdir
  rw [getDirectSubdirectory_eq n hl] at hg
  have hf := Option.some.inj hg
  exact ⟨l, hl, List.mem_of_find?_eq_some hf, by simpa using List.find?_some hf⟩

/-! ## Moving the cursor -/

/-- C5: in a reachable state, `cd ..` with the cursor on the root leaves the
state (cursor and heap) as it is and prints "You are already at root
directory"; with the cursor elsewhere it moves the cursor to the parent of the
current directory, the directory whose subdirectory list holds it, and leaves
the heap as it is. -/
theorem cd_up (s : Session) (hr : Reachable s) :
    (s.head = s.fs.rootDirectory →
      loopBody s "cd .." = some (s, "You are already at root directory\n", true)) ∧
    (s.head ≠ s.fs.rootDirectory →
      ∃ d p pd l, s.heap.dirs[s.head]? = some d ∧ d.parent = some p ∧
        s.heap.dirs[p]? = some pd ∧ subdirs s.heap p = some l ∧ s.head ∈ l ∧
        loopBody s "cd .."
          = some ({ s with head := p },
                  "Switched to parent directory " ++ pd.directoryName ++ "\n", true)) := by
  have hinv := inv_of_reachable hr
  constructor
  · intro hroot
    rw [loopBody_cd_up, dispatch_cd_up]
    simp [hroot]
  · intro hne
    obtain ⟨d, hd⟩ : ∃ d, s.heap.dirs[s.head]? = some d :=
      ⟨_, List.getElem?_eq_getElem hinv.head_lt⟩
    obtain ⟨p, l, hp, hl, hmem⟩ := hinv.parent_child s.head d hd hne
    obtain ⟨pd, hpd⟩ : ∃ pd, s.heap.dirs[p]? = some pd :=
      ⟨_, List.getElem?_eq_getElem (subdirs_lt hl)⟩
    refine ⟨d, p, pd, l, hd, hp, hpd, hl, hmem, ?_⟩
    rw [loopBody_cd_up, dispatch_cd_up, if_pos hne, hd]
    simp only [hp, hpd]

theorem cd_up_witness :
    ∃ d p pd l, sampleSession.heap.dirs[sampleSession.head]? = some d ∧
      d.parent = some p ∧
      sampleSession.heap.dirs[p]? = some pd ∧ subdirs sampleSession.heap p = some l ∧
      sampleSession.head ∈ l ∧
      loopBody sampleSession "cd .."
        = some ({ sampleSession with head := p },
                "Switched to parent directory " ++ pd.directoryName ++ "\n", true) :=
  (cd_up sampleSession
    (reachable_of_run ["mkdir A", "mkdir B", "touch f", "cd A"] (by decide))).2 (by decide)

/-- From a reachable state, four iterations on the buffers `mkdir A`, `cd A`,
`mkdir B`, `cd ..` are all carried out and the cursor is then where it was
before, for every word `A` other than `..` and every word `B`. -/
theorem run_mkdir_cd_mkdir_cd_up (s : Session) (hr : Reachable s) (A B : String)
    (hA : IsName A) (hB : IsName B) (hA2 : A ≠ "..") :
    ∃ s4, run s ["mkdir " ++ A, "cd " ++ A, "mkdir " ++ B, "cd .."] = some s4 ∧
      s4.head = s.head := by
  have hinv := inv_of_reachable hr
  obtain ⟨s1, o1, a, h1, hhead1, hfs1, hg1, hlen1, _⟩ := mkdir_total s hinv A hA
  have hr1 : Reachable s1 := Reachable.next hr h1
  have hinv1 := inv_of_reachable hr1
  have h2 : loopBody s1 ("cd " ++ A)
      = some ({ s1 with head := a }, "Switched to directory " ++ A ++ "\n", true) := by
    rw [loopBody_cd s1 A hA, dispatch_cd_name s1 A hA2, hg1]
  have hr2 : Reachable { s1 with head := a } := Reachable.next hr1 h2
  have hinv2 := inv_of_reachable hr2
  obtain ⟨l, hl, hal, _⟩ := getDirectSubdirectory_mem hinv1.ok hg1
  obtain ⟨da, hda, hpa⟩ := hinv1.child_parent s1.head l a hl hal
  obtain ⟨s3, o3, b, h3, hhead3, hfs3, _, hlen3, hpar3⟩ :=
    mkdir_total { s1 with head := a } hinv2 B hB
  have hr3 : Reachable s3 := Reachable.next hr2 h3
  have hinv3 := inv_of_reachable hr3
  have halt : a < s1.heap.dirs.length := lt_of_getElem?_eq_some hda
  have hpa3 := hpar3 a halt
  have hda' : ({ s1 with head := a } : Session).heap.dirs[a]? = some da := hda
  rw [hda'] at hpa3
  have hhead3' : s3.head = a := hhead3
  obtain ⟨d3, hd3⟩ : ∃ d3, s3.heap.dirs[a]? = some d3 :=
    ⟨_, List.getElem?_eq_getElem (Nat.lt_of_lt_of_le halt hlen3)⟩
  rw [hd3] at hpa3
  simp only [Option.map_some', Option.some.injEq] at hpa3
  have hp3 : d3.parent = some s.head := by rw [hpa3, hpa, hhead1]
  have hne : s3.head ≠ s3.fs.rootDirectory := by
    intro heq
    have := hinv3.root_parent d3 (by rw [← heq, hhead3']; exact hd3)
    rw [hp3] at this
    simp at this
  obtain ⟨pd, hpd⟩ : ∃ pd, s3.heap.dirs[s.head]? = some pd := by
    refine ⟨_, List.getElem?_eq_getElem ?_⟩
    have h0 := hinv.head_lt
    have hlen3' : s1.heap.dirs.length ≤ s3.heap.dirs.length := hlen3
    omega
  have h4 : loopBody s3 "cd .."
      = some ({ s3 with head := s.head },
              "Switched to parent directory " ++ pd.directoryName ++ "\n", true) := by
    rw [loopBody_cd_up, dispatch_cd_up, if_pos hne, hhead3', hd3]
    simp only [hp3, hpd]
  exact ⟨{ s3 with head := s.head }, by simp only [run, h1, h2, h3, h4], rfl⟩

/-- C7: for a word `n` other than `..`, `cd n` moves the cursor to the
directory `getDirectSubdirectory` finds under the current directory and
prints "Switched to directory n"; when the search finds none it prints "No
such subdirectory here" and keeps the cursor; the heap is the same in both
cases.  On a well-formed heap the search returns, and what it finds is a
subdirectory of the current directory named `n`. -/
theorem cd_name (s : Session) (n : String) (hn : IsName n) (hne : n ≠ "..") :
    (∀ dir, getDirectSubdirectory s.heap s.head n = some (some dir) →
      loopBody s ("cd " ++ n)
        = some ({ s with head := dir }, "Switched to directory " ++ n ++ "\n", true)) ∧
    (getDirectSubdirectory s.heap s.head n = some none →
      loopBody s ("cd " ++ n) = some (s, "No such subdirectory here\n", true)) ∧
    (HeapOK s.heap → s.head < s.heap.dirs.length →
      ∃ r, getDirectSubdirectory s.heap s.head n = some r ∧
        ∀ dir, r = some dir →
          ∃ l, subdirs s.heap s.head = some l ∧ dir ∈ l ∧ s.heap.dirName dir = n) := by
  refine ⟨?_, ?_, ?_⟩
  · intro dir hg
    rw [loopBody_cd s n hn, dispatch_cd_name s n hne, hg]
  · intro hg
    rw [loopBody_cd s n hn, dispatch_cd_name s n hne, hg]
  · intro hok hhead
    obtain ⟨r, hg⟩ := getDirectSubdirectory_total hok hhead n
    refine ⟨r, hg, ?_⟩
    intro dir hr
    subst hr
    exact getDirectSubdirectory_mem hok hg

theorem cd_name_witness :
    loopBody { sampleSession with head := 0 } ("cd " ++ "A")
      = some ({ sampleSession with head := 1 }, "Switched to directory " ++ "A" ++ "\n", true) :=
  (cd_name { sampleSession with head := 0 } "A" (by decide) (by decide)).1 1 (by decide)

/-! ## Invariants of the reachable states -/

/-- C8: after any finite sequence of lines from the initial state, in every
allocated directory the names of the subdirectories are pairwise distinct and
the names of the files are pairwise distinct. -/
theorem names_unique (lines : List String) (s : Session)
    (hrun : run initial lines = some s) : NamesUnique s.heap := by
  have hinv := inv_of_reachable (reachable_of_run lines hrun)
  intro a ha
  obtain ⟨dn, hdn⟩ := subdirNames_total hinv.ok ha
  obtain ⟨fn, hfn⟩ := fileNames_total hinv.ok ha
  exact ⟨dn, fn, hdn, hinv.dir_nodup a dn hdn, hfn, hinv.file_nodup a fn hfn⟩

theorem names_unique_witness :
    run initial ["mkdir A", "mkdir B", "touch f", "cd A"] = some sampleSession ∧
    NamesUnique sampleSession.heap :=
  ⟨by decide,
    names_unique ["mkdir A", "mkdir B", "touch f", "cd A"] sampleSession (by decide)⟩

/-- C9: after any finite sequence of lines from the initial state, the parent
of the root is `NULL`, and every other allocated directory has a parent whose
subdirectory list holds it, while the list of no other directory does. -/
theorem parent_linked (lines : List String) (s : Session)
    (hrun : run initial lines = some s) : ParentLinked s.heap s.fs.rootDirectory := by
  have hinv := inv_of_reachable (reachable_of_run lines hrun)
  constructor
  · obtain ⟨r, hroot⟩ : ∃ r, s.heap.dirs[s.fs.rootDirectory]? = some r :=
      ⟨_, List.getElem?_eq_getElem hinv.root_lt⟩
    exact ⟨r, hroot, hinv.root_parent r hroot⟩
  · intro a d hd hne
    obtain ⟨p, l, hp, hl, hmem⟩ := hinv.parent_child a d hd hne
    refine ⟨p, l, hp, hl, hmem, ?_⟩
    intro q l2 hl2 hmem2
    obtain ⟨d2, hd2, hp2⟩ := hinv.child_parent q l2 a hl2 hmem2
    rw [hd] at hd2
    have hdd := Option.some.inj hd2
    subst hdd
    rw [hp] at hp2
    exact (Option.some.inj hp2).symm

theorem parent_linked_witness :
    run initial ["mkdir A", "mkdir B", "touch f", "cd A"] = some sampleSession ∧
    ParentLinked sampleSession.heap sampleSession.fs.rootDirectory :=
  ⟨by decide,
    parent_linked ["mkdir A", "mkdir B", "touch f", "cd A"] sampleSession (by decide)⟩

/-! ## Printing -/

/-- C10: whatever the cursor, the line `print` writes the text of
`print_filesystem` on the heap and the root, and changes nothing; in the state
reached from the initial one by `mkdir A`, `cd A`, `mkdir B`, `cd B`, where
the cursor is on `B`, this text is the line "Root Directory: root", then
"Directory: A" after 2 spaces, then "Directory: B" after 4 spaces. -/
theorem print_from_root :
    (∀ (s : Session) (c : Nat),
      loopBody { s with head := c } "print"
        = (print_filesystem s.heap s.fs).map (fun out => ({ s with head := c }, out, true))) ∧
    ∃ s, run initial ["mkdir A", "cd A", "mkdir B", "cd B"] = some s ∧
      s.head = 2 ∧ s.fs.rootDirectory = 0 ∧ s.heap.dirName 2 = "B" ∧
      print_filesystem s.heap s.fs
        = some "Root Directory: root\n  Directory: A\n    Directory: B\n" := by
  constructor
  · intro s c
    have h0 : loopBody { s with head := c } "print"
        = dispatch { s with head := c } "print" none := rfl
    rw [h0]
    unfold dispatch
    rw [if_neg (by decide), if_neg (by decide), if_neg (by decide), if_neg (by decide),
      if_pos rfl]
    cases print_filesystem s.heap s.fs <;> rfl
  · exact ⟨_, rfl, rfl, rfl, rfl, rfl⟩

/-! ## Listing a directory -/

theorem link_fileNames_new {h : Heap} {dir : Nat} {d : Directory} (n : String)
    (hd : h.dirs[dir]? = some d) :
    fileNames (h.link dir d n) h.dirs.length = some [] := by
  simp [fileNames, fileCellsOf, link_get_new n hd, chain]

theorem link_subdirNames_new {h : Heap} {dir : Nat} {d : Directory} (n : String)
    (hd : h.dirs[dir]? = some d) :
    subdirNames (h.link dir d n) h.dirs.length = some [] := by
  simp [subdirNames, link_subdirs_new n hd]

theorem print_directory_contents_link_new {h : Heap} {dir : Nat} {d : Directory}
    (n : String) (hd : h.dirs[dir]? = some d) :
    print_directory_contents (h.link dir d n) h.dirs.length
      = some "Directories:\nFiles:\n" := by
  unfold print_directory_contents
  rw [link_get_new n hd]
  simp only [print_directory_contents.dirLoop, print_directory_contents.fileLoop]
  rfl

/-- C12: a directory that was just created lists nothing.  For the node
`add_subdirectory` returns, and for the root `create_filesystem` makes (on any
heap), `print_directory_contents` writes the two headers "Directories:" and
"Files:" and no entry, and the subdirectory and file lists are empty; `ls` as
the first command of a session prints these two headers. -/
theorem fresh_directory_lists_nothing :
    (∀ (h : Heap) (dir : Nat) (n : String) (names : List String),
      subdirNames h dir = some names → n ∉ names →
      ∃ h2 newDir, add_subdirectory h dir n = some (h2, some newDir) ∧
        print_directory_contents h2 newDir = some "Directories:\nFiles:\n" ∧
        subdirNames h2 newDir = some [] ∧ fileNames h2 newDir = some []) ∧
    (∀ (h : Heap) (rootName : String),
      print_directory_contents (create_filesystem h rootName).1
          (create_filesystem h rootName).2.rootDirectory
        = some "Directories:\nFiles:\n" ∧
      subdirNames (create_filesystem h rootName).1
          (create_filesystem h rootName).2.rootDirectory = some [] ∧
      fileNames (create_filesystem h rootName).1
          (create_filesystem h rootName).2.rootDirectory = some []) ∧
    loopBody initial "ls" = some (initial, "Directories:\nFiles:\n", true) := by
  refine ⟨?_, ?_, rfl⟩
  · intro h dir n names hnames hfree
    obtain ⟨d, hd, hadd⟩ := add_subdirectory_of_not_mem hnames hfree
    exact ⟨_, _, hadd, print_directory_contents_link_new n hd,
      link_subdirNames_new n hd, link_fileNames_new n hd⟩
  · intro h rootName
    have hget : (create_filesystem h rootName).1.dirs[h.dirs.length]?
        = some { directoryName := rootName, subdirectories := none, files := none,
                 parent := none, next := none } := by
      simp [create_filesystem, create_directory]
    have hroot : (create_filesystem h rootName).2.rootDirectory = h.dirs.length := rfl
    rw [hroot]
    refine ⟨?_, ?_, ?_⟩
    · unfold print_directory_contents
      rw [hget]
      simp only [print_directory_contents.dirLoop, print_directory_contents.fileLoop]
      rfl
    · simp [subdirNames, subdirs, hget, chain]
    · simp [fileNames, fileCellsOf, hget, chain]

theorem fresh_directory_lists_nothing_witness :
    ∃ h2 newDir, add_subdirectory sampleHeap 1 "sub" = some (h2, some newDir) ∧
      print_directory_contents h2 newDir = some "Directories:\nFiles:\n" ∧
      subdirNames h2 newDir = some [] ∧ fileNames h2 newDir = some [] :=
  fresh_directory_lists_nothing.1 sampleHeap 1 "sub" [] (by decide) (by decide)

/-! ## Lines that are not a command -/

theorem dispatch_unknown (s : Session) (c : String) (a : Option String)
    (hc : c ∉ ["cd", "mkdir", "touch", "ls", "print", "exit"]) :
    dispatch s c a = some (s, "Error: Unknown command '" ++ c ++ "'.\n", true) := by
  simp only [List.mem_cons, List.mem_singleton, List.not_mem_nil, not_or, or_false] at hc
  obtain ⟨h1, h2, h3, h4, h5, h6⟩ := hc
  unfold dispatch
  rw [if_neg h1, if_neg h2, if_neg h3, if_neg h4, if_neg h5, if_neg h6]

theorem strtok_nil : strtok [] = (none, []) := rfl

/-- A line whose first token is `c` is dispatched on `c` and on the token that
follows. -/
theorem loopBody_first_token (s : Session) (input : String) (c : String)
    (hc : (strtok (trim_newline input.data)).1 = some c) :
    loopBody s input
      = dispatch s c (strtok (strtok (trim_newline input.data)).2).1 := by
  have hlen : (trim_newline input.data).length ≠ 0 := by
    intro h0
    have hnil : trim_newline input.data = [] := List.eq_nil_of_length_eq_zero h0
    rw [hnil, strtok_nil] at hc
    simp at hc
  unfold loopBody
  simp only [hlen, if_false, hc]

/-! ## What `cd` prints -/

/-- C14, as stated, fails for `..`: with the cursor on `A` under the root,
`cd ..` succeeds, moves to the directory named `root`, and prints "Switched to
parent directory root", which is not "Switched to directory root". -/
theorem cd_up_message_counterexample :
    loopBody sampleSession "cd .."
        = some ({ sampleSession with head := 0 },
                "Switched to parent directory root\n", true) ∧
    sampleSession.heap.dirName 0 = "root" ∧
    ¬ ∃ s2 b, loopBody sampleSession "cd .."
        = some (s2, "Switched to directory " ++ "root" ++ "\n", b) := by
  refine ⟨rfl, rfl, ?_⟩
  rintro ⟨s2, b, h⟩
  have h0 : loopBody sampleSession "cd .."
      = some ({ sampleSession with head := 0 },
              "Switched to parent directory root\n", true) := rfl
  rw [h0] at h
  simp only [Option.some.injEq, Prod.mk.injEq] at h
  exact absurd h.2.1 (by decide)

/-- C14, amended: a successful `cd n` on a subdirectory prints "Switched to
directory n"; a successful `cd ..` prints "Switched to parent directory"
followed by the name of the parent directory. -/
theorem cd_messages (s : Session) :
    (∀ (n : String) (dir : Nat), IsName n → n ≠ ".." →
      getDirectSubdirectory s.heap s.head n = some (some dir) →
      loopBody s ("cd " ++ n)
        = some ({ s with head := dir }, "Switched to directory " ++ n ++ "\n", true)) ∧
    (∀ (d : Directory) (p : Nat) (pd : Directory), s.head ≠ s.fs.rootDirectory →
      s.heap.dirs[s.head]? = some d → d.parent = some p → s.heap.dirs[p]? = some pd →
      loopBody s "cd .."
        = some ({ s with head := p },
                "Switched to parent directory " ++ pd.directoryName ++ "\n", true)) := by
  refine ⟨?_, ?_⟩
  · intro n dir hn hne hg
    rw [loopBody_cd s n hn, dispatch_cd_name s n hne, hg]
  · intro d p pd hne hd hp hpd
    rw [loopBody_cd_up, dispatch_cd_up, if_pos hne, hd]
    simp only [hp, hpd]

theorem cd_messages_witness :
    loopBody sampleSession "cd .."
      = some ({ sampleSession with head := 0 },
              "Switched to parent directory " ++ "root" ++ "\n", true) :=
  (cd_messages sampleSession).2
    { directoryName := "A", subdirectories := none, next := none, files := none,
      parent := some 0 }
    0
    { directoryName := "root", subdirectories := some 2, next := none, files := some 0,
      parent := none }
    (by decide) (by decide) rfl (by decide)

/-! ## Blank lines -/

theorem dropWhile_spaces (k : Nat) :
    (List.replicate k ' ').dropWhile (fun c => c = ' ') = [] := by
  induction k with
  | zero => rfl
  | succ k ih =>
    rw [List.replicate_succ,
      List.dropWhile_cons_of_pos (p := fun c => decide (c = ' ')) (by decide)]
    exact ih

theorem strtok_spaces (k : Nat) : strtok (List.replicate k ' ') = (none, []) := by
  unfold strtok
  simp only [dropWhile_spaces, if_true]

theorem trim_newline_spaces (k : Nat) :
    trim_newline (List.replicate (k + 1) ' ') = List.replicate (k + 1) ' ' := by
  unfold trim_newline
  have hlen : (List.replicate (k + 1) ' ').length ≠ 0 := by simp
  have hlast : (List.replicate (k + 1) ' ').getLast? ≠ some '\n' := by
    rw [List.getLast?_replicate]
    simp
  rw [if_neg hlen, if_neg hlast]

theorem trim_newline_spaces_newline (k : Nat) :
    trim_newline (List.replicate (k + 1) ' ' ++ ['\n']) = List.replicate (k + 1) ' ' := by
  unfold trim_newline
  have hlen : (List.replicate (k + 1) ' ' ++ ['\n']).length ≠ 0 := by simp
  rw [if_neg hlen, List.getLast?_concat, if_pos rfl, List.dropLast_concat]

/-- C15, at the failing input: on a line made only of spaces, with or without
the newline, the first `strtok` returns `NULL` and the `strcmp` of the
dispatch is undefined, in every state; so for the line of one space and a
newline in the initial state. -/
theorem blank_line_undefined :
    (∀ (s : Session) (k : Nat),
      loopBody s (String.mk (List.replicate (k + 1) ' ')) = none ∧
      loopBody s (String.mk (List.replicate (k + 1) ' ' ++ ['\n'])) = none) ∧
    loopBody initial " \n" = none := by
  refine ⟨?_, rfl⟩
  intro s k
  have hlen : (List.replicate (k + 1) ' ').length ≠ 0 := by simp
  constructor
  · unfold loopBody
    simp only [trim_newline_spaces, hlen, if_false, strtok_spaces]
  · unfold loopBody
    simp only [trim_newline_spaces_newline, hlen, if_false, strtok_spaces]

/-! ## The search, in full -/

/-- C16: on a directory whose subdirectory list is `l`, the search returns;
it returns `NULL` exactly when no element of `l` has the name `n`; and a
directory it returns is the first element of `l` whose name is `n` (the
names of the elements before it differ from `n`).  Names are compared as
whole strings, letter case included; the function yields a pointer only, so
the heap is the one it was given. -/
theorem getDirectSubdirectory_first_match (h : Heap) (dir : Nat) (n : String)
    (l : List Nat) (hs : subdirs h dir = some l) :
    ∃ r, getDirectSubdirectory h dir n = some r ∧
      (r = none ↔ ∀ c ∈ l, h.dirName c ≠ n) ∧
      ∀ c, r = some c →
        ∃ before after, l = before ++ c :: after ∧ h.dirName c = n ∧
          ∀ x ∈ before, h.dirName x ≠ n := by
  refine ⟨_, getDirectSubdirectory_eq n hs, ?_, ?_⟩
  · rw [List.find?_eq_none]
    constructor
    · intro hall c hc
      simpa using hall c hc
    · intro hall c hc
      simpa using hall c hc
  · intro c hc
    obtain ⟨hp, before, after, hl, hbefore⟩ := List.find?_eq_some.mp hc
    refine ⟨before, after, hl, by simpa using hp, ?_⟩
    intro x hx
    simpa using hbefore x hx

theorem getDirectSubdirectory_first_match_witness :
    subdirs sampleHeap 0 = some [2, 1] ∧
    getDirectSubdirectory sampleHeap 0 "A" = some (some 1) ∧
    getDirectSubdirectory sampleHeap 0 "a" = some none ∧
    getDirectSubdirectory sampleHeap 0 "AA" = some none ∧
    ∃ r, getDirectSubdirectory sampleHeap 0 "A" = some r ∧
      (r = none ↔ ∀ c ∈ [2, 1], sampleHeap.dirName c ≠ "A") ∧
      ∀ c, r = some c →
        ∃ before after, [2, 1] = before ++ c :: after ∧ sampleHeap.dirName c = "A" ∧
          ∀ x ∈ before, sampleHeap.dirName x ≠ "A" :=
  ⟨by decide, by decide, by decide, by decide,
    getDirectSubdirectory_first_match sampleHeap 0 "A" [2, 1] (by decide)⟩

/-! ## Down and up again -/

/-- C19: in a reachable state, when `cd n` succeeds for a word `n` other than
`..` (the search finds a subdirectory), the lines `cd n` and `cd ..` one after
the other lead back to the very same state: same heap, same cursor. -/
theorem cd_then_cd_up (s : Session) (hr : Reachable s) (n : String) (hn : IsName n)
    (hne : n ≠ "..") (c : Nat)
    (hfound : getDirectSubdirectory s.heap s.head n = some (some c)) :
    loopBody s ("cd " ++ n)
        = some ({ s with head := c }, "Switched to directory " ++ n ++ "\n", true) ∧
    run s ["cd " ++ n, "cd .."] = some s := by
  have hinv := inv_of_reachable hr
  have h1 : loopBody s ("cd " ++ n)
      = some ({ s with head := c }, "Switched to directory " ++ n ++ "\n", true) := by
    rw [loopBody_cd s n hn, dispatch_cd_name s n hne, hfound]
  obtain ⟨l, hl, hcl, _⟩ := getDirectSubdirectory_mem hinv.ok hfound
  obtain ⟨dc, hdc, hpc⟩ := hinv.child_parent s.head l c hl hcl
  have hcroot : c ≠ s.fs.rootDirectory := by
    intro heq
    have := hinv.root_parent dc (by rw [← heq]; exact hdc)
    rw [hpc] at this
    simp at this
  obtain ⟨pd, hpd⟩ : ∃ pd, s.heap.dirs[s.head]? = some pd :=
    ⟨_, List.getElem?_eq_getElem hinv.head_lt⟩
  have h2 : loopBody { s with head := c } "cd .."
      = some (s, "Switched to parent directory " ++ pd.directoryName ++ "\n", true) := by
    rw [loopBody_cd_up, dispatch_cd_up]
    have hne2 : ({ s with head := c } : Session).head
        ≠ ({ s with head := c } : Session).fs.rootDirectory := hcroot
    rw [if_pos hne2]
    show (match s.heap.dirs[c]? with
      | none => none
      | some d =>
        match d.parent with
        | none => none
        | some p =>
          match s.heap.dirs[p]? with
          | none => none
          | some pd =>
            some (({ heap := s.heap, fs := s.fs, head := p } : Session),
                  "Switched to parent directory " ++ pd.directoryName ++ "\n", true)) = _
    rw [hdc]
    simp only [hpc, hpd]
  exact ⟨h1, by simp only [run, h1, h2]⟩

theorem cd_then_cd_up_witness :
    loopBody { sampleSession with head := 0 } ("cd " ++ "B")
        = some ({ sampleSession with head := 2 },
                "Switched to directory " ++ "B" ++ "\n", true) ∧
    run { sampleSession with head := 0 } ["cd " ++ "B", "cd .."]
      = some { sampleSession with head := 0 } :=
  cd_then_cd_up { sampleSession with head := 0 }
    (reachable_of_run ["mkdir A", "mkdir B", "touch f"] (by decide))
    "B" (by decide) (by decide) 2 (by decide)

/-! ## Listing order -/

theorem print_directory_contents_dirLoop_eq (h : Heap) :
    ∀ (fuel : Nat) (p : Option Nat) (l : List Nat),
      chain h.dirNext fuel p = some l →
      print_directory_contents.dirLoop h fuel p
        = some (joinAll (l.map (fun a => "  " ++ h.dirName a ++ "/\n"))) := by
  intro fuel
  induction fuel with
  | zero =>
    intro p l hc
    cases p with
    | none => simp [chain] at hc; subst hc; simp [print_directory_contents.dirLoop, joinAll]
    | some b => simp [chain] at hc
  | succ k ih =>
    intro p l hc
    cases p with
    | none => simp [chain] at hc; subst hc; simp [print_directory_contents.dirLoop, joinAll]
    | some b =>
      simp only [chain, Heap.dirNext] at hc
      cases hb : h.dirs[b]? with
      | none => simp [hb] at hc
      | some d =>
        simp only [hb, Option.map_some'] at hc
        cases hr : chain h.dirNext k d.next with
        | none => simp [Heap.dirNext, hr] at hc
        | some l2 =>
          simp only [Heap.dirNext, hr, Option.some.injEq] at hc
          subst hc
          simp only [print_directory_contents.dirLoop, hb, ih d.next l2 hr, List.map_cons,
            joinAll, Heap.dirName]

theorem print_directory_contents_fileLoop_eq (h : Heap) :
    ∀ (fuel : Nat) (p : Option Nat) (l : List Nat),
      chain h.fileNext fuel p = some l →
      print_directory_contents.fileLoop h fuel p
        = some (joinAll (l.map (fun a => "  " ++ h.fileName a ++ "\n"))) := by
  intro fuel
  induction fuel with
  | zero =>
    intro p l hc
    cases p with
    | none => simp [chain] at hc; subst hc; simp [print_directory_contents.fileLoop, joinAll]
    | some b => simp [chain] at hc
  | succ k ih =>
    intro p l hc
    cases p with
    | none => simp [chain] at hc; subst hc; simp [print_directory_contents.fileLoop, joinAll]
    | some b =>
      simp only [chain, Heap.fileNext] at hc
      cases hb : h.fileCells[b]? with
      | none => simp [hb] at hc
      | some d =>
        simp only [hb, Option.map_some'] at hc
        cases hr : chain h.fileNext k d.next with
        | none => simp [Heap.fileNext, hr] at hc
        | some l2 =>
          simp only [Heap.fileNext, hr, Option.some.injEq] at hc
          subst hc
          simp only [print_directory_contents.fileLoop, hb, ih d.next l2 hr, List.map_cons,
            joinAll, Heap.fileName]

/-- The text of `print_directory_contents`, from the names the directory
holds. -/
theorem print_directory_contents_eq {h : Heap} {dir : Nat} {dn fn : List String}
    (hdn : subdirNames h dir = some dn) (hfn : fileNames h dir = some fn) :
    print_directory_contents h dir
      = some ("Directories:\n" ++ joinAll (dn.map (fun x => "  " ++ x ++ "/\n"))
              ++ "Files:\n" ++ joinAll (fn.map (fun x => "  " ++ x ++ "\n"))) := by
  obtain ⟨d, l, hd, hc, _, rfl⟩ := subdirNames_some hdn
  obtain ⟨d2, l2, hd2, hc2, _, rfl⟩ := fileNames_some hfn
  rw [hd] at hd2
  have hdd := Option.some.inj hd2
  subst hdd
  unfold print_directory_contents
  rw [hd]
  simp only [print_directory_contents_dirLoop_eq h _ _ _ hc,
    print_directory_contents_fileLoop_eq h _ _ _ hc2, List.map_map, Function.comp_def]

theorem run_mkdir_all :
    ∀ (ns : List String) (s : Session) (old : List String),
      (∀ n ∈ ns, IsName n) → ns.Nodup → (∀ n ∈ ns, n ∉ old) →
      subdirNames s.heap s.head = some old →
      ∃ s2, run s (ns.map (fun n => "mkdir " ++ n)) = some s2 ∧ s2.head = s.head ∧
        subdirNames s2.heap s2.head = some (ns.reverse ++ old) := by
  intro ns
  induction ns with
  | nil =>
    intro s old _ _ _ hold
    exact ⟨s, rfl, rfl, by simpa using hold⟩
  | cons n ns ih =>
    intro s old hname hnd hfree hold
    obtain ⟨d, hd, h1⟩ :=
      mkdir_fresh s n (hname n (List.mem_cons_self _ _)) hold
        (hfree n (List.mem_cons_self _ _))
    have hnd2 := List.nodup_cons.mp hnd
    have hold2 : subdirNames ({ s with heap := s.heap.link s.head d n } : Session).heap
        ({ s with heap := s.heap.link s.head d n } : Session).head = some (n :: old) :=
      link_subdirNames_dir n hd hold
    obtain ⟨s2, hrun, hhead, hnames⟩ :=
      ih { s with heap := s.heap.link s.head d n } (n :: old)
        (fun m hm => hname m (List.mem_cons_of_mem _ hm)) hnd2.2
        (fun m hm hmem => by
          rcases List.mem_cons.mp hmem with rfl | hmo
          · exact hnd2.1 hm
          · exact hfree m (List.mem_cons_of_mem _ hm) hmo)
        hold2
    refine ⟨s2, ?_, hhead, ?_⟩
    · simp only [List.map_cons, run, h1]
      exact hrun
    · rw [hnames]
      simp

theorem run_touch_all :
    ∀ (ns : List String) (s : Session) (old : List String),
      (∀ n ∈ ns, IsName n) → ns.Nodup → (∀ n ∈ ns, n ∉ old) →
      fileNames s.heap s.head = some old →
      ∃ s2, run s (ns.map (fun n => "touch " ++ n)) = some s2 ∧ s2.head = s.head ∧
        fileNames s2.heap s2.head = some (ns.reverse ++ old) := by
  intro ns
  induction ns with
  | nil =>
    intro s old _ _ _ hold
    exact ⟨s, rfl, rfl, by simpa using hold⟩
  | cons n ns ih =>
    intro s old hname hnd hfree hold
    obtain ⟨d, hd, h1⟩ :=
      touch_fresh s n (hname n (List.mem_cons_self _ _)) hold
        (hfree n (List.mem_cons_self _ _))
    have hnd2 := List.nodup_cons.mp hnd
    have hold2 : fileNames ({ s with heap := s.heap.addCell s.head d n } : Session).heap
        ({ s with heap := s.heap.addCell s.head d n } : Session).head = some (n :: old) :=
      addCell_fileNames_dir n hd hold
    obtain ⟨s2, hrun, hhead, hnames⟩ :=
      ih { s with heap := s.heap.addCell s.head d n } (n :: old)
        (fun m hm => hname m (List.mem_cons_of_mem _ hm)) hnd2.2
        (fun m hm hmem => by
          rcases List.mem_cons.mp hmem with rfl | hmo
          · exact hnd2.1 hm
          · exact hfree m (List.mem_cons_of_mem _ hm) hmo)
        hold2
    refine ⟨s2, ?_, hhead, ?_⟩
    · simp only [List.map_cons, run, h1]
      exact hrun
    · rw [hnames]
      simp

/-- C17: the newest entry is listed first.  After a successful
`add_subdirectory` the names of the subdirectories of `dir` are `n` followed
by the names listed before, and likewise for the files after a successful
`add_file`; `print_directory_contents` writes the names in list order; hence
after `mkdir` (or `touch`) of distinct new words one after the other the
names created are listed in the reverse order of their creation, before the
older ones. -/
theorem listing_order :
    (∀ (h : Heap) (dir : Nat) (n : String) (names : List String),
      subdirNames h dir = some names → n ∉ names →
      ∃ h2 p, add_subdirectory h dir n = some (h2, some p) ∧
        subdirNames h2 dir = some (n :: names)) ∧
    (∀ (h : Heap) (dir : Nat) (n : String) (names : List String),
      fileNames h dir = some names → n ∉ names →
      ∃ h2, add_file h dir n = some (h2, 1) ∧ fileNames h2 dir = some (n :: names)) ∧
    (∀ (h : Heap) (dir : Nat) (dn fn : List String),
      subdirNames h dir = some dn → fileNames h dir = some fn →
      print_directory_contents h dir
        = some ("Directories:\n" ++ joinAll (dn.map (fun x => "  " ++ x ++ "/\n"))
                ++ "Files:\n" ++ joinAll (fn.map (fun x => "  " ++ x ++ "\n")))) ∧
    (∀ (ns : List String) (s : Session) (old : List String),
      (∀ n ∈ ns, IsName n) → ns.Nodup → (∀ n ∈ ns, n ∉ old) →
      subdirNames s.heap s.head = some old →
      ∃ s2, run s (ns.map (fun n => "mkdir " ++ n)) = some s2 ∧ s2.head = s.head ∧
        subdirNames s2.heap s2.head = some (ns.reverse ++ old)) ∧
    (∀ (ns : List String) (s : Session) (old : List String),
      (∀ n ∈ ns, IsName n) → ns.Nodup → (∀ n ∈ ns, n ∉ old) →
      fileNames s.heap s.head = some old →
      ∃ s2, run s (ns.map (fun n => "touch " ++ n)) = some s2 ∧ s2.head = s.head ∧
        fileNames s2.heap s2.head = some (ns.reverse ++ old)) := by
  refine ⟨?_, ?_, ?_, run_mkdir_all, run_touch_all⟩
  · intro h dir n names hnames hfree
    obtain ⟨d, hd, hadd⟩ := add_subdirectory_of_not_mem hnames hfree
    exact ⟨_, _, hadd, link_subdirNames_dir n hd hnames⟩
  · intro h dir n names hnames hfree
    obtain ⟨d, hd, hadd⟩ := add_file_of_not_mem hnames hfree
    exact ⟨_, hadd, addCell_fileNames_dir n hd hnames⟩
  · intro h dir dn fn hdn hfn
    exact print_directory_contents_eq hdn hfn

theorem listing_order_witness :
    (∃ h2 p, add_subdirectory sampleHeap 0 "C" = some (h2, some p) ∧
        subdirNames h2 0 = some ("C" :: ["B", "A"])) ∧
    (∃ s2, run initial (["a", "b", "c"].map (fun n => "mkdir " ++ n)) = some s2 ∧
        s2.head = initial.head ∧
        subdirNames s2.heap s2.head = some (["a", "b", "c"].reverse ++ [])) ∧
    (run initial ["mkdir a", "mkdir b", "mkdir c", "touch x", "touch y"]).bind
        (fun s => loopBody s "ls")
      = (run initial ["mkdir a", "mkdir b", "mkdir c", "touch x", "touch y"]).map
        (fun s => (s, "Directories:\n  c/\n  b/\n  a/\nFiles:\n  y\n  x\n", true)) :=
  ⟨listing_order.1 sampleHeap 0 "C" ["B", "A"] (by decide) (by decide),
    listing_order.2.2.2.1 ["a", "b", "c"] initial [] (by decide) (by decide) (by decide)
      (by decide),
    by decide⟩

/-! ## What the creations leave alone -/

theorem addCell_get_cell_old (h : Heap) (dir : Nat) (d : Directory) (n : String) {c : Nat}
    (hc : c < h.fileCells.length) :
    (h.addCell dir d n).fileCells[c]? = h.fileCells[c]? := by
  simp only [Heap.addCell]
  rw [List.getElem?_append_left hc]

theorem dispatch_mkdir_cursor {s s2 : Session} {a : Option String} {out : String} {b : Bool}
    (hstep : dispatch s "mkdir" a = some (s2, out, b)) :
    s2.head = s.head ∧ s2.fs = s.fs := by
  unfold dispatch at hstep
  rw [if_neg (by decide), if_pos rfl] at hstep
  split at hstep
  · simp only [Option.some.injEq, Prod.mk.injEq] at hstep
    rw [← hstep.1]
    exact ⟨rfl, rfl⟩
  · split at hstep
    · simp at hstep
    · simp only [Option.some.injEq, Prod.mk.injEq] at hstep
      rw [← hstep.1]
      exact ⟨rfl, rfl⟩
    · simp only [Option.some.injEq, Prod.mk.injEq] at hstep
      rw [← hstep.1]
      exact ⟨rfl, rfl⟩

theorem dispatch_touch_cursor {s s2 : Session} {a : Option String} {out : String} {b : Bool}
    (hstep : dispatch s "touch" a = some (s2, out, b)) :
    s2.head = s.head ∧ s2.fs = s.fs := by
  unfold dispatch at hstep
  rw [if_neg (by decide), if_neg (by decide), if_pos rfl] at hstep
  split at hstep
  · simp only [Option.some.injEq, Prod.mk.injEq] at hstep
    rw [← hstep.1]
    exact ⟨rfl, rfl⟩
  · split at hstep
    · simp at hstep
    · split at hstep <;>
        (simp only [Option.some.injEq, Prod.mk.injEq] at hstep
         rw [← hstep.1]
         exact ⟨rfl, rfl⟩)

/-- C18: a successful `add_subdirectory` allocates one node and, of the nodes
that were there, rewrites only the `subdirectories` field of `dir`: the name,
files, parent and sibling link of `dir`, every other directory node and every
file cell are as before, and so are the file names of every directory and the
subdirectory names of every directory but `dir`.  A successful `add_file`
allocates one cell and rewrites only the `files` field of `dir`: every other
directory node and every older cell are as before, and so are the
subdirectory names of every directory and the file names of every directory
but `dir`.  The lines `mkdir n` and `touch n` keep the cursor and the root. -/
theorem creation_frame :
    (∀ (h h2 : Heap) (dir : Nat) (n : String) (p : Nat),
      add_subdirectory h dir n = some (h2, some p) →
      ∃ d, h.dirs[dir]? = some d ∧ p = h.dirs.length ∧
        h2.dirs.length = h.dirs.length + 1 ∧
        h2.dirs[dir]? = some { d with subdirectories := some p } ∧
        (∀ a, a < h.dirs.length → a ≠ dir → h2.dirs[a]? = h.dirs[a]?) ∧
        h2.fileCells = h.fileCells ∧
        (HeapOK h → ∀ a, a < h.dirs.length →
          (a ≠ dir → subdirNames h2 a = subdirNames h a) ∧
          fileNames h2 a = fileNames h a)) ∧
    (∀ (h h2 : Heap) (dir : Nat) (n : String) (r : Int),
      add_file h dir n = some (h2, r) → r ≠ 0 →
      ∃ d, h.dirs[dir]? = some d ∧
        h2.dirs.length = h.dirs.length ∧
        h2.fileCells.length = h.fileCells.length + 1 ∧
        h2.dirs[dir]? = some { d with files := some h.fileCells.length } ∧
        (∀ a, a ≠ dir → h2.dirs[a]? = h.dirs[a]?) ∧
        (∀ c, c < h.fileCells.length → h2.fileCells[c]? = h.fileCells[c]?) ∧
        (∀ a, subdirNames h2 a = subdirNames h a) ∧
        (HeapOK h → ∀ a, a < h.dirs.length → a ≠ dir →
          fileNames h2 a = fileNames h a)) ∧
    (∀ (s s2 : Session) (n out : String) (b : Bool), IsName n →
      loopBody s ("mkdir " ++ n) = some (s2, out, b) →
      s2.head = s.head ∧ s2.fs = s.fs) ∧
    (∀ (s s2 : Session) (n out : String) (b : Bool), IsName n →
      loopBody s ("touch " ++ n) = some (s2, out, b) →
      s2.head = s.head ∧ s2.fs = s.fs) := by
  refine ⟨?_, ?_, ?_, ?_⟩
  · intro h h2 dir n p hadd
    rcases add_subdirectory_cases hadd with ⟨hr, _⟩ | ⟨d, hd, _, rfl, hp⟩
    · simp at hr
    · have hp2 : p = h.dirs.length := (Option.some.inj hp)
      subst hp2
      refine ⟨d, hd, rfl, link_length h dir d n, link_get_dir n hd,
        fun a ha hne => link_get_old d n ha hne, rfl, ?_⟩
      intro hok a ha
      exact ⟨fun hne => link_subdirNames_old hok n hd ha hne, link_fileNames n hd ha⟩
  · intro h h2 dir n r hadd hr
    rcases add_file_cases hadd with ⟨hr0, _⟩ | ⟨d, hd, _, rfl, _⟩
    · exact absurd hr0 hr
    · refine ⟨d, hd, addCell_dirs_length h dir d n, addCell_fileCells_length h dir d n,
        addCell_get_dir n hd, fun a hne => addCell_get_other h d n hne,
        fun c hc => addCell_get_cell_old h dir d n hc,
        fun a => addCell_subdirNames n hd a, ?_⟩
      intro hok a ha hne
      exact addCell_fileNames_other hok d n ha hne
  · intro s s2 n out b hn hstep
    rw [loopBody_mkdir s n hn] at hstep
    exact dispatch_mkdir_cursor hstep
  · intro s s2 n out b hn hstep
    rw [loopBody_touch s n hn] at hstep
    exact dispatch_touch_cursor hstep

theorem creation_frame_witness :
    (∃ d, sampleHeap.dirs[0]? = some d ∧ 3 = sampleHeap.dirs.length ∧
        (sampleHeap.link 0 sampleRoot "C").dirs.length
          = sampleHeap.dirs.length + 1 ∧
        (sampleHeap.link 0 sampleRoot "C").dirs[0]?
          = some { d with subdirectories := some 3 } ∧
        (∀ a, a < sampleHeap.dirs.length → a ≠ 0 →
          (sampleHeap.link 0 sampleRoot "C").dirs[a]?
            = sampleHeap.dirs[a]?) ∧
        (sampleHeap.link 0 sampleRoot "C").fileCells
          = sampleHeap.fileCells ∧
        (HeapOK sampleHeap → ∀ a, a < sampleHeap.dirs.length →
          (a ≠ 0 →
            subdirNames (sampleHeap.link 0 sampleRoot "C") a
              = subdirNames sampleHeap a) ∧
          fileNames (sampleHeap.link 0 sampleRoot "C") a
            = fileNames sampleHeap a)) :=
  creation_frame.1 sampleHeap (sampleHeap.link 0 sampleRoot "C")
    0 "C" 3 (by decide)

/-! ## Trees of a heap -/

theorem allSome_map_imp {α : Type} (g g2 : Nat → Option α) :
    ∀ (l : List Nat) (ts : List α), allSome (l.map g) = some ts →
      (∀ c ∈ l, ∀ t, g c = some t → g2 c = some t) →
      allSome (l.map g2) = some ts := by
  intro l
  induction l with
  | nil => intro ts h _; simpa [allSome] using h
  | cons c rest ih =>
    intro ts h himp
    simp only [List.map_cons] at h ⊢
    cases hg : g c with
    | none => simp [hg, allSome] at h
    | some t =>
      rw [hg] at h
      simp only [allSome] at h
      cases hr : allSome (rest.map g) with
      | none => simp [hr] at h
      | some xs =>
        rw [hr] at h
        rw [himp c (List.mem_cons_self _ _) t hg]
        simp only [allSome]
        rw [ih xs hr (fun c2 hc2 => himp c2 (List.mem_cons_of_mem _ hc2))]
        exact h

theorem treeOf_mono (h : Heap) :
    ∀ (f : Nat) (a : Nat) (t : DirTree), treeOf h f a = some t →
      ∀ f2, f ≤ f2 → treeOf h f2 a = some t := by
  intro f
  induction f with
  | zero => intro a t ht; simp [treeOf] at ht
  | succ k ih =>
    intro a t ht f2 hle
    obtain ⟨m, rfl⟩ : ∃ m, f2 = m + 1 := ⟨f2 - 1, by omega⟩
    simp only [treeOf] at ht ⊢
    cases hs : subdirs h a with
    | none => simp [hs] at ht
    | some l =>
      cases hf : fileNames h a with
      | none => simp [hs, hf] at ht
      | some fs =>
        simp only [hs, hf] at ht ⊢
        cases hall : allSome (l.map (treeOf h k)) with
        | none => simp [hall] at ht
        | some ts =>
          rw [hall] at ht
          rw [allSome_map_imp (treeOf h k) (treeOf h m) l ts hall
            (fun c _ t2 ht2 => ih c t2 ht2 m (by omega))]
          exact ht

theorem treeOf_name (h : Heap) {f a : Nat} {t : DirTree} (ht : treeOf h f a = some t) :
    t.name = h.dirName a := by
  cases f with
  | zero => simp [treeOf] at ht
  | succ k =>
    simp only [treeOf] at ht
    cases hs : subdirs h a with
    | none => simp [hs] at ht
    | some l =>
      cases hf : fileNames h a with
      | none => simp [hs, hf] at ht
      | some fs =>
        simp only [hs, hf] at ht
        cases hall : allSome (l.map (treeOf h k)) with
        | none => simp [hall] at ht
        | some ts =>
          rw [hall] at ht
          simp only [Option.some.injEq] at ht
          rw [← ht]
          rfl

theorem spaces_add_two (n : Nat) : spaces (n + 2) = "  " ++ spaces n := rfl

theorem indent_eq_spaces : ∀ k, indent k = spaces (2 * k) := by
  intro k
  induction k with
  | zero => rfl
  | succ k ih =>
    have e : 2 * (k + 1) = 2 * k + 2 := by omega
    rw [e, spaces_add_two, ← ih]
    rfl

theorem print_directory_recursive_fileLoop_eq (h : Heap) (depth : Nat) :
    ∀ (fuel : Nat) (p : Option Nat) (l : List Nat),
      chain h.fileNext fuel p = some l →
      print_directory_recursive.fileLoop h depth fuel p
        = some (joinAll (l.map
            (fun a => indent depth ++ "File: " ++ h.fileName a ++ "\n"))) := by
  intro fuel
  induction fuel with
  | zero =>
    intro p l hc
    cases p with
    | none =>
      simp [chain] at hc; subst hc
      simp [print_directory_recursive.fileLoop, joinAll]
    | some b => simp [chain] at hc
  | succ k ih =>
    intro p l hc
    cases p with
    | none =>
      simp [chain] at hc; subst hc
      simp [print_directory_recursive.fileLoop, joinAll]
    | some b =>
      simp only [chain, Heap.fileNext] at hc
      cases hb : h.fileCells[b]? with
      | none => simp [hb] at hc
      | some d =>
        simp only [hb, Option.map_some'] at hc
        cases hr : chain h.fileNext k d.next with
        | none => simp [Heap.fileNext, hr] at hc
        | some l2 =>
          simp only [Heap.fileNext, hr, Option.some.injEq] at hc
          subst hc
          simp only [print_directory_recursive.fileLoop, hb, ih d.next l2 hr, List.map_cons,
            joinAll, Heap.fileName]

theorem chain_none {nx : Nat → Option (Option Nat)} {fuel : Nat} {l : List Nat}
    (hc : chain nx fuel none = some l) : l = [] := by
  cases fuel <;> simpa [chain] using hc.symm

theorem chain_some_cons {h : Heap} {fuel c : Nat} {l : List Nat}
    (hc : chain h.dirNext fuel (some c) = some l) :
    ∃ d k l2, fuel = k + 1 ∧ h.dirs[c]? = some d ∧
      chain h.dirNext k d.next = some l2 ∧ l = c :: l2 := by
  cases fuel with
  | zero => simp [chain] at hc
  | succ k =>
    simp only [chain, Heap.dirNext] at hc
    cases hb : h.dirs[c]? with
    | none => simp [hb] at hc
    | some d =>
      simp only [hb, Option.map_some'] at hc
      cases hr : chain h.dirNext k d.next with
      | none => simp [Heap.dirNext, hr] at hc
      | some l2 =>
        simp only [Heap.dirNext, hr, Option.some.injEq] at hc
        exact ⟨d, k, l2, rfl, rfl, hr, hc.symm⟩

/-- On a well-formed heap whose links go down a rank, the recursive print of
every directory returns the reference rendering of the tree below it, as soon
as the bound is twice the rank. -/
theorem print_tree_by_rank {h : Heap} (hok : HeapOK h) {rank : Nat → Nat}
    (hr : Ranked h rank) :
    ∀ n,
      (∀ a, a < h.dirs.length → rank a < n → ∀ k fuel, 2 * rank a + 1 ≤ fuel →
        ∃ t, treeOf h (rank a + 1) a = some t ∧
          print_directory_recursive.go h fuel a k = some (t.render k)) ∧
      (∀ c, c < h.dirs.length → rank c < n → ∀ k fuel cf l, 2 * rank c + 2 ≤ fuel →
        chain h.dirNext cf (some c) = some l →
        ∃ ts, allSome (l.map (treeOf h (rank c + 1))) = some ts ∧
          print_directory_recursive.subLoop h fuel (some c) k
            = some (DirTree.renderSubs ts k)) := by
  intro n
  induction n with
  | zero =>
    exact ⟨fun a _ h0 => absurd h0 (Nat.not_lt_zero _),
      fun c _ h0 => absurd h0 (Nat.not_lt_zero _)⟩
  | succ n ih =>
    have hP : ∀ a, a < h.dirs.length → rank a < n + 1 → ∀ k fuel, 2 * rank a + 1 ≤ fuel →
        ∃ t, treeOf h (rank a + 1) a = some t ∧
          print_directory_recursive.go h fuel a k = some (t.render k) := by
      intro a ha hra k fuel hfuel
      obtain ⟨d, hd⟩ : ∃ d, h.dirs[a]? = some d := ⟨_, List.getElem?_eq_getElem ha⟩
      obtain ⟨l, hl, _⟩ := subdirs_total hok ha
      obtain ⟨fl, hfl, _⟩ := fileCellsOf_total hok ha
      have hchain : chain h.dirNext h.dirs.length d.subdirectories = some l := by
        simpa [subdirs, hd] using hl
      have hfchain : chain h.fileNext h.fileCells.length d.files = some fl := by
        simpa [fileCellsOf, hd] using hfl
      have hfn : fileNames h a = some (fl.map h.fileName) := by simp [fileNames, hfl]
      obtain ⟨f, rfl⟩ : ∃ f, fuel = f + 1 := ⟨fuel - 1, by omega⟩
      have hsub : ∃ ts, allSome (l.map (treeOf h (rank a))) = some ts ∧
          print_directory_recursive.subLoop h f d.subdirectories k
            = some (DirTree.renderSubs ts k) := by
        cases hds : d.subdirectories with
        | none =>
          rw [hds] at hchain
          have hnil := chain_none hchain
          subst hnil
          exact ⟨[], rfl, by simp [print_directory_recursive.subLoop, DirTree.renderSubs]⟩
        | some c =>
          rw [hds] at hchain
          have hrc := hr.sub_lt a d hd c hds
          have hc := hok.sub_lt a d hd c hds
          obtain ⟨ts, hts, hout⟩ := ih.2 c hc (by omega) k f _ l (by omega) hchain
          exact ⟨ts, allSome_map_imp _ _ l ts hts
            (fun c2 _ t2 ht2 => treeOf_mono h _ c2 t2 ht2 _ (by omega)), hout⟩
      obtain ⟨ts, hts, hout⟩ := hsub
      refine ⟨DirTree.node (h.dirName a) ts (fl.map h.fileName), ?_, ?_⟩
      · simp only [treeOf, hl, hfn, hts]
      · simp only [print_directory_recursive.go, hd, hout,
          print_directory_recursive_fileLoop_eq h k _ _ _ hfchain, DirTree.render,
          indent_eq_spaces, List.map_map, Function.comp_def]
    refine ⟨hP, ?_⟩
    intro c hc hrc k fuel cf l hfuel hchain
    obtain ⟨dc, cf2, l2, rfl, hdc, hrest, rfl⟩ := chain_some_cons hchain
    obtain ⟨f, rfl⟩ : ∃ f, fuel = f + 1 := ⟨fuel - 1, by omega⟩
    obtain ⟨tc, htc, hgo⟩ := hP c hc hrc (k + 1) f (by omega)
    have hnext : ∃ ts2, allSome (l2.map (treeOf h (rank c + 1))) = some ts2 ∧
        print_directory_recursive.subLoop h f dc.next k
          = some (DirTree.renderSubs ts2 k) := by
      cases hn : dc.next with
      | none =>
        rw [hn] at hrest
        have hnil := chain_none hrest
        subst hnil
        exact ⟨[], rfl, by simp [print_directory_recursive.subLoop, DirTree.renderSubs]⟩
      | some c2 =>
        rw [hn] at hrest
        have hr2 := hr.next_lt c dc hdc c2 hn
        have hc2 := hok.next_lt c dc hdc c2 hn
        obtain ⟨ts2, hts2, hout2⟩ :=
          ih.2 c2 (by omega) (by omega) k f cf2 l2 (by omega) hrest
        exact ⟨ts2, allSome_map_imp _ _ l2 ts2 hts2
          (fun c3 _ t3 ht3 => treeOf_mono h _ c3 t3 ht3 _ (by omega)), hout2⟩
    obtain ⟨ts2, hts2, hout2⟩ := hnext
    have hname : tc.name = dc.directoryName := by
      rw [treeOf_name h htc]
      simp [Heap.dirName, hdc]
    refine ⟨tc :: ts2, ?_, ?_⟩
    · simp only [List.map_cons, htc, allSome, hts2]
    · simp only [print_directory_recursive.subLoop, hdc, hgo, hout2, DirTree.renderSubs,
        hname, indent_eq_spaces]

/-! ## The links of a reachable heap form no cycle -/

theorem ranked_initial : Ranked initial.heap (fun _ => 0) := by
  have hdirs : initial.heap.dirs
      = [{ directoryName := "root", subdirectories := none, next := none,
           files := none, parent := none }] := rfl
  refine ⟨?_, ?_, ?_⟩
  · intro a ha
    rw [hdirs]
    simp
  · intro a d hd b hb
    rw [hdirs] at hd
    obtain ⟨_, rfl⟩ := getElem?_singleton_some hd
    simp at hb
  · intro a d hd b hb
    rw [hdirs] at hd
    obtain ⟨_, rfl⟩ := getElem?_singleton_some hd
    simp at hb

theorem ranked_link {h : Heap} (hok : HeapOK h) {rank : Nat → Nat} (hr : Ranked h rank)
    {dir : Nat} {d : Directory} (n : String) (hd : h.dirs[dir]? = some d) :
    Ranked (h.link dir d n)
      (fun a => if a = h.dirs.length then rank dir
                else if rank dir ≤ rank a then rank a + 1 else rank a) := by
  have hdir := lt_of_getElem?_eq_some hd
  have hshift : ∀ a b, a < h.dirs.length → b < h.dirs.length → rank b < rank a →
      (if b = h.dirs.length then rank dir
        else if rank dir ≤ rank b then rank b + 1 else rank b)
      < (if a = h.dirs.length then rank dir
        else if rank dir ≤ rank a then rank a + 1 else rank a) := by
    intro a b ha hb hlt
    have hb2 : b ≠ h.dirs.length := by omega
    have ha2 : a ≠ h.dirs.length := by omega
    rw [if_neg hb2, if_neg ha2]
    by_cases h1 : rank dir ≤ rank b <;> by_cases h2 : rank dir ≤ rank a
    · rw [if_pos h1, if_pos h2]; omega
    · rw [if_pos h1, if_neg h2]; omega
    · rw [if_neg h1, if_pos h2]; omega
    · rw [if_neg h1, if_neg h2]; omega
  refine ⟨?_, ?_, ?_⟩
  · intro a ha
    rw [link_length] at ha ⊢
    by_cases h1 : a = h.dirs.length
    · rw [if_pos h1]
      have := hr.bound dir hdir
      omega
    · rw [if_neg h1]
      have := hr.bound a (by omega)
      by_cases h2 : rank dir ≤ rank a
      · rw [if_pos h2]; omega
      · rw [if_neg h2]; omega
  · intro a x hx b hb
    rcases link_get_cases n hd hx with ⟨rfl, rfl⟩ | ⟨rfl, rfl⟩ | ⟨halt, _, hold⟩
    · simp only [Option.some.injEq] at hb
      subst hb
      have hne : a ≠ h.dirs.length := by omega
      rw [if_pos rfl, if_neg hne, if_pos (Nat.le_refl _)]
      omega
    · simp at hb
    · exact hshift a b halt (hok.sub_lt a x hold b hb) (hr.sub_lt a x hold b hb)
  · intro a x hx b hb
    rcases link_get_cases n hd hx with ⟨rfl, rfl⟩ | ⟨rfl, rfl⟩ | ⟨halt, _, hold⟩
    · have hb2 := hok.next_lt a d hd b hb
      exact hshift a b hdir (by omega) (hr.next_lt a d hd b hb)
    · have hb2 := hok.sub_lt dir d hd b hb
      have hb3 := hr.sub_lt dir d hd b hb
      have hne : b ≠ h.dirs.length := by omega
      have hnle : ¬ rank dir ≤ rank b := by omega
      rw [if_pos rfl, if_neg hne, if_neg hnle]
      exact hb3
    · have hb2 := hok.next_lt a x hold b hb
      exact hshift a b halt (by omega) (hr.next_lt a x hold b hb)

theorem ranked_addCell {h : Heap} {rank : Nat → Nat} (hr : Ranked h rank)
    {dir : Nat} {d : Directory} (n : String) (hd : h.dirs[dir]? = some d) :
    Ranked (h.addCell dir d n) rank := by
  refine ⟨?_, ?_, ?_⟩
  · intro a ha
    rw [addCell_dirs_length] at ha ⊢
    exact hr.bound a ha
  · intro a x hx b hb
    rcases addCell_get_cases n hd hx with ⟨rfl, rfl⟩ | ⟨_, hold⟩
    · exact hr.sub_lt _ d hd b hb
    · exact hr.sub_lt a x hold b hb
  · intro a x hx b hb
    rcases addCell_get_cases n hd hx with ⟨rfl, rfl⟩ | ⟨_, hold⟩
    · exact hr.next_lt _ d hd b hb
    · exact hr.next_lt a x hold b hb

/-- In every state of the loop the links `subdirectories` and `next` go down
some rank. -/
theorem ranked_of_reachable {s : Session} (hreach : Reachable s) :
    ∃ rank, Ranked s.heap rank := by
  induction hreach with
  | start => exact ⟨_, ranked_initial⟩
  | next hprev hstep ih =>
    obtain ⟨rank, hrank⟩ := ih
    have hinv := inv_of_reachable hprev
    rcases loopBody_state hstep with rfl | ⟨c, a, hdis⟩
    · exact ⟨rank, hrank⟩
    · rcases dispatch_state hdis with
        rfl | ⟨p, _, rfl⟩ | ⟨d, n, hd, _, rfl⟩ | ⟨d, n, hd, _, rfl⟩
      · exact ⟨rank, hrank⟩
      · exact ⟨rank, hrank⟩
      · exact ⟨_, ranked_link hinv.ok hrank n hd⟩
      · exact ⟨rank, ranked_addCell hrank n hd⟩

/-- In a state of the loop the recursive print of an allocated directory
returns the reference rendering of the tree below it. -/
theorem print_directory_recursive_tree {h : Heap} (hok : HeapOK h) {rank : Nat → Nat}
    (hr : Ranked h rank) {d : Nat} (hd : d < h.dirs.length) (k : Nat) :
    ∃ t, treeOf h h.dirs.length d = some t ∧
      print_directory_recursive h d k = some (t.render k) := by
  have hb := hr.bound d hd
  obtain ⟨t, ht, hgo⟩ :=
    (print_tree_by_rank hok hr (rank d + 1)).1 d hd (Nat.lt_succ_self _) k
      (2 * h.dirs.length + 1) (by omega)
  exact ⟨t, treeOf_mono h _ d t ht _ (by omega), hgo⟩

/-- C11: in every state of the loop, for every allocated directory `d` and
every depth `k`, `print_directory_recursive` returns, and its text is the
reference rendering at depth `k` of the tree below `d`: for each subdirectory
in list order the line "Directory: name" after `2 * k` spaces, followed at
once by the whole rendering of that subdirectory at depth `k + 1`, and after
them one line "File: name" after `2 * k` spaces per file in list order. -/
theorem print_directory_recursive_reference (s : Session) (hreach : Reachable s)
    (d k : Nat) (hd : d < s.heap.dirs.length) :
    ∃ t, treeOf s.heap s.heap.dirs.length d = some t ∧
      print_directory_recursive s.heap d k = some (t.render k) := by
  obtain ⟨rank, hrank⟩ := ranked_of_reachable hreach
  exact print_directory_recursive_tree (inv_of_reachable hreach).ok hrank hd k

theorem print_directory_recursive_reference_witness :
    (∃ t, treeOf sampleSession.heap sampleSession.heap.dirs.length 0 = some t ∧
      print_directory_recursive sampleSession.heap 0 1 = some (t.render 1)) ∧
    print_directory_recursive sampleSession.heap 0 1
      = some "  Directory: B\n  Directory: A\n  File: f\n" :=
  ⟨print_directory_recursive_reference sampleSession
      (reachable_of_run ["mkdir A", "mkdir B", "touch f", "cd A"] (by decide)) 0 1
      (by decide),
    by decide⟩

/-! ## Counting the lines -/

theorem lineCount_append (a b : String) : lineCount (a ++ b) = lineCount a + lineCount b := by
  simp [lineCount, String.data_append, List.count_append]

theorem lineCount_spaces (n : Nat) : lineCount (spaces n) = 0 := by
  simp only [lineCount, spaces]
  rw [List.count_replicate]
  rfl

theorem lineCount_clean {n : String} (hn : '\n' ∉ n.data) : lineCount n = 0 :=
  List.count_eq_zero_of_not_mem hn

theorem lineCount_file_lines (k : Nat) :
    ∀ fs : List String, (∀ f ∈ fs, '\n' ∉ f.data) →
      lineCount (joinAll (fs.map (fun f => spaces (2 * k) ++ "File: " ++ f ++ "\n")))
        = fs.length := by
  intro fs
  induction fs with
  | nil => intro _; rfl
  | cons f rest ih =>
    intro hclean
    have hf := lineCount_clean (hclean f (List.mem_cons_self _ _))
    have hrest := ih (fun g hg => hclean g (List.mem_cons_of_mem _ hg))
    simp only [List.map_cons, joinAll, lineCount_append, lineCount_spaces, hf, hrest,
      List.length_cons]
    have h1 : lineCount "File: " = 0 := by decide
    have h2 : lineCount "\n" = 1 := by decide
    rw [h1, h2]
    omega

theorem dirName_clean {h : Heap} (hclean : CleanNames h) (a : Nat) :
    '\n' ∉ (h.dirName a).data := by
  unfold Heap.dirName
  cases hd : h.dirs[a]? with
  | none => simp
  | some d => exact hclean.1 d (List.mem_iff_getElem?.mpr ⟨a, hd⟩)

theorem fileName_clean {h : Heap} (hclean : CleanNames h) (a : Nat) :
    '\n' ∉ (h.fileName a).data := by
  unfold Heap.fileName
  cases hd : h.fileCells[a]? with
  | none => simp
  | some d => exact hclean.2 d (List.mem_iff_getElem?.mpr ⟨a, hd⟩)

theorem allSome_cons_some {α : Type} {x : Option α} {rest : List (Option α)}
    {ts : List α} (hall : allSome (x :: rest) = some ts) :
    ∃ t ts2, x = some t ∧ allSome rest = some ts2 ∧ ts = t :: ts2 := by
  cases x with
  | none => simp [allSome] at hall
  | some t =>
    simp only [allSome] at hall
    cases hr : allSome rest with
    | none => simp [hr] at hall
    | some ts2 =>
      rw [hr] at hall
      exact ⟨t, ts2, rfl, rfl, (Option.some.inj hall).symm⟩

/-- The reference rendering of a tree of the heap has one line per directory
below the top and one line per file, when no name holds a newline. -/
theorem lineCount_treeOf {h : Heap} (hclean : CleanNames h) :
    ∀ (f a : Nat) (t : DirTree), treeOf h f a = some t →
      ∀ k, lineCount (t.render k) = t.dirCount + t.fileCount := by
  intro f
  induction f with
  | zero => intro a t ht; simp [treeOf] at ht
  | succ f ih =>
    have hsubs : ∀ (l : List Nat) (ts : List DirTree),
        allSome (l.map (treeOf h f)) = some ts →
        ∀ k, lineCount (DirTree.renderSubs ts k)
          = DirTree.dirCountSubs ts + DirTree.fileCountSubs ts := by
      intro l
      induction l with
      | nil =>
        intro ts hall k
        simp only [List.map_nil, allSome, Option.some.injEq] at hall
        subst hall
        rfl
      | cons c rest ihl =>
        intro ts hall k
        rw [List.map_cons] at hall
        obtain ⟨tc, ts2, htc, hrest, rfl⟩ := allSome_cons_some hall
        have h1 := ih c tc htc (k + 1)
        have h2 := ihl ts2 hrest k
        have hname : lineCount tc.name = 0 := by
          rw [treeOf_name h htc]
          exact lineCount_clean (dirName_clean hclean c)
        have hd : lineCount "Directory: " = 0 := by decide
        have hn : lineCount "\n" = 1 := by decide
        simp only [DirTree.renderSubs, lineCount_append, lineCount_spaces, hname, hd, hn, h1,
          h2, DirTree.dirCountSubs, DirTree.fileCountSubs]
        omega
    intro a t ht k
    simp only [treeOf] at ht
    cases hs : subdirs h a with
    | none => simp [hs] at ht
    | some l =>
      cases hf : fileNames h a with
      | none => simp [hs, hf] at ht
      | some fs =>
        simp only [hs, hf] at ht
        cases hall : allSome (l.map (treeOf h f)) with
        | none => simp [hall] at ht
        | some ts =>
          rw [hall] at ht
          simp only [Option.some.injEq] at ht
          subst ht
          obtain ⟨_, fl, _, _, _, rfl⟩ := fileNames_some hf
          have hfiles := lineCount_file_lines k (fl.map h.fileName) (by
            intro g hg
            obtain ⟨x, _, rfl⟩ := List.mem_map.mp hg
            exact fileName_clean hclean x)
          simp only [DirTree.render, lineCount_append, hsubs l ts hall k, hfiles,
            DirTree.dirCount, DirTree.fileCount]
          omega

/-! ## Names typed on a line hold no newline -/

theorem trim_newline_clean (input : String) (hb : BufferLine input) :
    '\n' ∉ trim_newline input.data := by
  unfold trim_newline
  by_cases h0 : input.data.length = 0
  · rw [if_pos h0, List.eq_nil_of_length_eq_zero h0]
    simp
  · rw [if_neg h0]
    by_cases h1 : input.data.getLast? = some '\n'
    · rw [if_pos h1]
      intro hmem
      exact hb _ hmem rfl
    · rw [if_neg h1]
      intro hmem
      have hne : input.data ≠ [] := fun e => h0 (by rw [e]; rfl)
      have hsplit := List.dropLast_concat_getLast hne
      rw [← hsplit] at hmem
      rcases List.mem_append.mp hmem with hm | hm
      · exact hb _ hm rfl
      · have hlast : input.data.getLast hne = '\n' := by
          simpa using (List.mem_singleton.mp hm).symm
        apply h1
        rw [List.getLast?_eq_getLast _ hne, hlast]

theorem strtok_clean (l : List Char) (hl : '\n' ∉ l) :
    (∀ n, (strtok l).1 = some n → '\n' ∉ n.data) ∧ '\n' ∉ (strtok l).2 := by
  have hsub1 : (l.dropWhile (fun c => decide (c = ' '))).Sublist l :=
    List.dropWhile_sublist _
  unfold strtok
  simp only
  by_cases hnil : l.dropWhile (fun c => decide (c = ' ')) = []
  · rw [if_pos hnil]
    exact ⟨fun n hn => by simp at hn, by simp⟩
  · rw [if_neg hnil]
    refine ⟨?_, ?_⟩
    · intro n hn hmem
      simp only [Option.some.injEq] at hn
      rw [← hn] at hmem
      exact hl (((List.takeWhile_sublist _).trans hsub1).subset hmem)
    · intro hmem
      exact hl ((((List.tail_sublist _).trans (List.dropWhile_sublist _)).trans
        hsub1).subset hmem)

theorem dispatch_heap {s s2 : Session} {c : String} {a : Option String} {out : String}
    {b : Bool} (hstep : dispatch s c a = some (s2, out, b)) :
    s2.heap = s.heap ∨
    (∃ d n, a = some n ∧ s.heap.dirs[s.head]? = some d ∧
      s2.heap = s.heap.link s.head d n) ∨
    (∃ d n, a = some n ∧ s.heap.dirs[s.head]? = some d ∧
      s2.heap = s.heap.addCell s.head d n) := by
  by_cases hmk : c = "mkdir"
  · subst hmk
    cases a with
    | none =>
      unfold dispatch at hstep
      rw [if_neg (by decide), if_pos rfl] at hstep
      simp only [Option.some.injEq, Prod.mk.injEq] at hstep
      exact Or.inl (by rw [← hstep.1])
    | some n =>
      rw [dispatch_mkdir] at hstep
      cases hadd : add_subdirectory s.heap s.head n with
      | none => simp [hadd] at hstep
      | some r =>
        obtain ⟨h2, p⟩ := r
        rw [hadd] at hstep
        have hs2 : s2.heap = h2 := by
          cases p <;>
            (simp only [Option.some.injEq, Prod.mk.injEq] at hstep
             rw [← hstep.1])
        rcases add_subdirectory_cases hadd with ⟨_, hh⟩ | ⟨d, hd, _, hh, _⟩
        · exact Or.inl (by rw [hs2, hh])
        · exact Or.inr (Or.inl ⟨d, n, rfl, hd, by rw [hs2, hh]⟩)
  · by_cases htc : c = "touch"
    · subst htc
      cases a with
      | none =>
        unfold dispatch at hstep
        rw [if_neg (by decide), if_neg (by decide), if_pos rfl] at hstep
        simp only [Option.some.injEq, Prod.mk.injEq] at hstep
        exact Or.inl (by rw [← hstep.1])
      | some n =>
        rw [dispatch_touch] at hstep
        cases hadd : add_file s.heap s.head n with
        | none => simp [hadd] at hstep
        | some r =>
          obtain ⟨h2, x⟩ := r
          rw [hadd] at hstep
          have hs2 : s2.heap = h2 := by
            simp only at hstep
            split at hstep <;>
              (simp only [Option.some.injEq, Prod.mk.injEq] at hstep
               rw [← hstep.1])
          rcases add_file_cases hadd with ⟨_, hh⟩ | ⟨d, hd, _, hh, _⟩
          · exact Or.inl (by rw [hs2, hh])
          · exact Or.inr (Or.inr ⟨d, n, rfl, hd, by rw [hs2, hh]⟩)
    · left
      rcases dispatch_state hstep with rfl | ⟨p, _, rfl⟩ | ⟨d, n, _, _, rfl⟩ | ⟨d, n, _, _, rfl⟩
      · rfl
      · rfl
      · exfalso
        have hcur := hstep
        unfold dispatch at hcur
        rw [if_neg hmk, if_neg htc] at hcur
        have hlen := congrArg (fun r : Option Step => r.map (fun t => t.1.heap.dirs.length)) hcur
        revert hlen
        split
        · split
          · simp [link_length]
          · split
            · split
              · split
                · simp
                · split
                  · simp
                  · split
                    · simp
                    · simp [link_length]
              · simp [link_length]
            · split
              · simp
              · simp [link_length]
              · simp [link_length]
        · split
          · split
            · simp
            · simp [link_length]
          · split
            · split
              · simp
              · simp [link_length]
            · split
              · simp [link_length]
              · simp [link_length]
      · exfalso
        have hcur := hstep
        unfold dispatch at hcur
        rw [if_neg hmk, if_neg htc] at hcur
        have hlen := congrArg
          (fun r : Option Step => r.map (fun t => t.1.heap.fileCells.length)) hcur
        revert hlen
        split
        · split
          · simp [addCell_fileCells_length]
          · split
            · split
              · split
                · simp
                · split
                  · simp
                  · split
                    · simp
                    · simp [addCell_fileCells_length]
              · simp [addCell_fileCells_length]
            · split
              · simp
              · simp [addCell_fileCells_length]
              · simp [addCell_fileCells_length]
        · split
          · split
            · simp
            · simp [addCell_fileCells_length]
          · split
            · split
              · simp
              · simp [addCell_fileCells_length]
            · split
              · simp [addCell_fileCells_length]
              · simp [addCell_fileCells_length]

theorem cleanNames_initial : CleanNames initial.heap := by
  constructor
  · intro d hd
    have hdirs : initial.heap.dirs
        = [{ directoryName := "root", subdirectories := none, next := none,
             files := none, parent := none }] := rfl
    rw [hdirs] at hd
    rw [List.mem_singleton.mp hd]
    decide
  · intro c hc
    have hfiles : initial.heap.fileCells = [] := rfl
    rw [hfiles] at hc
    simp at hc

theorem cleanNames_link {h : Heap} (hclean : CleanNames h) {dir : Nat} {d : Directory}
    {n : String} (hd : h.dirs[dir]? = some d) (hn : '\n' ∉ n.data) :
    CleanNames (h.link dir d n) := by
  constructor
  · intro x hx
    obtain ⟨a, ha⟩ := List.mem_iff_getElem?.mp hx
    rcases link_get_cases n hd ha with ⟨_, rfl⟩ | ⟨_, rfl⟩ | ⟨_, _, hold⟩
    · exact hclean.1 d (List.mem_iff_getElem?.mpr ⟨dir, hd⟩)
    · exact hn
    · exact hclean.1 x (List.mem_iff_getElem?.mpr ⟨a, hold⟩)
  · intro c hc
    exact hclean.2 c hc

theorem cleanNames_addCell {h : Heap} (hclean : CleanNames h) {dir : Nat} {d : Directory}
    {n : String} (hd : h.dirs[dir]? = some d) (hn : '\n' ∉ n.data) :
    CleanNames (h.addCell dir d n) := by
  constructor
  · intro x hx
    obtain ⟨a, ha⟩ := List.mem_iff_getElem?.mp hx
    rcases addCell_get_cases n hd ha with ⟨_, rfl⟩ | ⟨_, hold⟩
    · exact hclean.1 d (List.mem_iff_getElem?.mpr ⟨dir, hd⟩)
    · exact hclean.1 x (List.mem_iff_getElem?.mpr ⟨a, hold⟩)
  · intro c hc
    have hc2 : c ∈ h.fileCells ++ [{ filename := n, next := d.files }] := hc
    rcases List.mem_append.mp hc2 with hold | hnew
    · exact hclean.2 c hold
    · rw [List.mem_singleton.mp hnew]
      exact hn

theorem cleanNames_loopBody {s s2 : Session} {input out : String} {b : Bool}
    (hclean : CleanNames s.heap) (hbuf : BufferLine input)
    (hstep : loopBody s input = some (s2, out, b)) : CleanNames s2.heap := by
  have hline := trim_newline_clean input hbuf
  have htok1 := strtok_clean _ hline
  have htok2 := strtok_clean _ htok1.2
  unfold loopBody at hstep
  simp only at hstep
  split at hstep
  · simp only [Option.some.injEq, Prod.mk.injEq] at hstep
    rw [← hstep.1]
    exact hclean
  · split at hstep
    · simp at hstep
    · rcases dispatch_heap hstep with hh | ⟨d, n, ha, hd, hh⟩ | ⟨d, n, ha, hd, hh⟩
      · rw [hh]; exact hclean
      · rw [hh]; exact cleanNames_link hclean hd (htok2.1 n ha)
      · rw [hh]; exact cleanNames_addCell hclean hd (htok2.1 n ha)

theorem cleanNames_run :
    ∀ (lines : List String) (s s2 : Session), CleanNames s.heap →
      (∀ l ∈ lines, BufferLine l) → run s lines = some s2 → CleanNames s2.heap := by
  intro lines
  induction lines with
  | nil =>
    intro s s2 hclean _ hrun
    simp only [run, Option.some.injEq] at hrun
    rw [← hrun]
    exact hclean
  | cons input rest ih =>
    intro s s2 hclean hbuf hrun
    simp only [run] at hrun
    split at hrun
    · rename_i s1 out hstep
      exact ih s1 s2
        (cleanNames_loopBody hclean (hbuf input (List.mem_cons_self _ _)) hstep)
        (fun l hl => hbuf l (List.mem_cons_of_mem _ hl)) hrun
    · simp at hrun

/-! ## The whole tree -/

/-- The text of `print_filesystem`, from the tree below the root. -/
theorem print_filesystem_tree {h : Heap} (hok : HeapOK h) {rank : Nat → Nat}
    (hr : Ranked h rank) (fs : FileSystem) (hroot : fs.rootDirectory < h.dirs.length) :
    ∃ t, treeOf h h.dirs.length fs.rootDirectory = some t ∧
      print_filesystem h fs
        = some ("Root Directory: " ++ t.name ++ "\n" ++ t.render 1) := by
  obtain ⟨t, ht, hprint⟩ := print_directory_recursive_tree hok hr hroot 1
  obtain ⟨d, hd⟩ : ∃ d, h.dirs[fs.rootDirectory]? = some d :=
    ⟨_, List.getElem?_eq_getElem hroot⟩
  refine ⟨t, ht, ?_⟩
  have hname : t.name = d.directoryName := by
    rw [treeOf_name h ht]
    simp [Heap.dirName, hd]
  unfold print_filesystem
  rw [hd]
  simp only [hprint, hname]

/-! ## Lines that hold a word are always handled -/

theorem add_subdirectory_total {h : Heap} (hok : HeapOK h) {dir : Nat}
    (hdir : dir < h.dirs.length) (n : String) :
    ∃ h2 r, add_subdirectory h dir n = some (h2, r) := by
  obtain ⟨r, hg⟩ := getDirectSubdirectory_total hok hdir n
  obtain ⟨d, hd⟩ : ∃ d, h.dirs[dir]? = some d := ⟨_, List.getElem?_eq_getElem hdir⟩
  cases r with
  | some c => exact ⟨_, _, add_subdirectory_taken hg⟩
  | none => exact ⟨_, _, add_subdirectory_free hd hg⟩

theorem add_file_total {h : Heap} (hok : HeapOK h) {dir : Nat}
    (hdir : dir < h.dirs.length) (n : String) :
    ∃ h2 r, add_file h dir n = some (h2, r) := by
  obtain ⟨names, hnames⟩ := fileNames_total hok hdir
  by_cases hmem : n ∈ names
  · exact ⟨_, _, add_file_of_mem hnames hmem⟩
  · obtain ⟨d, _, hadd⟩ := add_file_of_not_mem hnames hmem
    exact ⟨_, _, hadd⟩

theorem step_goes_on {r : Option Step} {s2 : Session} {out : String} {c : String}
    (h : r = some (s2, out, true)) (hc : c ≠ "exit") :
    ∃ s2 out b, r = some (s2, out, b) ∧ (b = false ↔ c = "exit") :=
  ⟨s2, out, true, h, by simp [hc]⟩

/-- In a state of the loop every command returns, and the loop goes on unless
the command is `exit`. -/
theorem dispatch_total (s : Session) (hreach : Reachable s) (c : String)
    (a : Option String) :
    ∃ s2 out b, dispatch s c a = some (s2, out, b) ∧ (b = false ↔ c = "exit") := by
  have hinv := inv_of_reachable hreach
  obtain ⟨rank, hrank⟩ := ranked_of_reachable hreach
  by_cases h1 : c = "cd"
  · subst h1
    have hne : "cd" ≠ "exit" := by decide
    cases a with
    | none =>
      have h : dispatch s "cd" none
          = some (s, "Error: 'cd' command requires a directory name.\n", true) := by
        unfold dispatch
        rw [if_pos rfl]
      exact step_goes_on h hne
    | some n =>
      by_cases hup : n = ".."
      · subst hup
        by_cases hroot : s.head ≠ s.fs.rootDirectory
        · obtain ⟨d, hd⟩ : ∃ d, s.heap.dirs[s.head]? = some d :=
            ⟨_, List.getElem?_eq_getElem hinv.head_lt⟩
          obtain ⟨p, l, hp, hl, _⟩ := hinv.parent_child s.head d hd hroot
          obtain ⟨pd, hpd⟩ : ∃ pd, s.heap.dirs[p]? = some pd :=
            ⟨_, List.getElem?_eq_getElem (subdirs_lt hl)⟩
          have h : dispatch s "cd" (some "..")
              = some ({ s with head := p },
                      "Switched to parent directory " ++ pd.directoryName ++ "\n", true) := by
            rw [dispatch_cd_up, if_pos hroot, hd]
            simp only [hp, hpd]
          exact step_goes_on h hne
        · have h : dispatch s "cd" (some "..")
              = some (s, "You are already at root directory\n", true) := by
            rw [dispatch_cd_up, if_neg hroot]
          exact step_goes_on h hne
      · obtain ⟨r, hg⟩ := getDirectSubdirectory_total hinv.ok hinv.head_lt n
        cases r with
        | none =>
          have h : dispatch s "cd" (some n)
              = some (s, "No such subdirectory here\n", true) := by
            rw [dispatch_cd_name s n hup, hg]
          exact step_goes_on h hne
        | some dir =>
          have h : dispatch s "cd" (some n)
              = some ({ s with head := dir },
                      "Switched to directory " ++ n ++ "\n", true) := by
            rw [dispatch_cd_name s n hup, hg]
          exact step_goes_on h hne
  · by_cases h2 : c = "mkdir"
    · subst h2
      have hne : "mkdir" ≠ "exit" := by decide
      cases a with
      | none =>
        have h : dispatch s "mkdir" none
            = some (s, "Error: 'mkdir' command requires a directory name.\n", true) := by
          unfold dispatch
          rw [if_neg (by decide), if_pos rfl]
        exact step_goes_on h hne
      | some n =>
        obtain ⟨h2, r, hadd⟩ := add_subdirectory_total hinv.ok hinv.head_lt n
        cases r with
        | none =>
          have h : dispatch s "mkdir" (some n)
              = some ({ s with heap := h2 },
                      "SubDirectory with name " ++ n ++ " already exists here\n", true) := by
            rw [dispatch_mkdir, hadd]
          exact step_goes_on h hne
        | some p =>
          have h : dispatch s "mkdir" (some n)
              = some ({ s with heap := h2 }, "Created SubDirectory " ++ n ++ "\n", true) := by
            rw [dispatch_mkdir, hadd]
          exact step_goes_on h hne
    · by_cases h3 : c = "touch"
      · subst h3
        have hne : "touch" ≠ "exit" := by decide
        cases a with
        | none =>
          have h : dispatch s "touch" none
              = some (s, "Error: 'touch' command requires a file name.\n", true) := by
            unfold dispatch
            rw [if_neg (by decide), if_neg (by decide), if_pos rfl]
          exact step_goes_on h hne
        | some n =>
          obtain ⟨h2, r, hadd⟩ := add_file_total hinv.ok hinv.head_lt n
          by_cases hr : r ≠ 0
          · have h : dispatch s "touch" (some n)
                = some ({ s with heap := h2 }, "Created file " ++ n ++ "\n", true) := by
              rw [dispatch_touch, hadd]
              simp only
              rw [if_pos hr]
            exact step_goes_on h hne
          · have h : dispatch s "touch" (some n)
                = some ({ s with heap := h2 },
                        "File with name " ++ n ++ " already exists here\n", true) := by
              rw [dispatch_touch, hadd]
              simp only
              rw [if_neg hr]
            exact step_goes_on h hne
      · by_cases h4 : c = "ls"
        · subst h4
          have hne : "ls" ≠ "exit" := by decide
          obtain ⟨dn, hdn⟩ := subdirNames_total hinv.ok hinv.head_lt
          obtain ⟨fn, hfn⟩ := fileNames_total hinv.ok hinv.head_lt
          have h : dispatch s "ls" a
              = some (s, "Directories:\n" ++ joinAll (dn.map (fun x => "  " ++ x ++ "/\n"))
                  ++ "Files:\n" ++ joinAll (fn.map (fun x => "  " ++ x ++ "\n")), true) := by
            unfold dispatch
            rw [if_neg (by decide), if_neg (by decide), if_neg (by decide), if_pos rfl,
              print_directory_contents_eq hdn hfn]
          exact step_goes_on h hne
        · by_cases h5 : c = "print"
          · subst h5
            have hne : "print" ≠ "exit" := by decide
            obtain ⟨t, _, hprint⟩ := print_filesystem_tree hinv.ok hrank s.fs hinv.root_lt
            have h : dispatch s "print" a
                = some (s, "Root Directory: " ++ t.name ++ "\n" ++ t.render 1, true) := by
              unfold dispatch
              rw [if_neg (by decide), if_neg (by decide), if_neg (by decide),
                if_neg (by decide), if_pos rfl, hprint]
            exact step_goes_on h hne
          · by_cases h6 : c = "exit"
            · subst h6
              refine ⟨s, "Exiting the File System. Goodbye!\n", false, ?_, by simp⟩
              unfold dispatch
              rw [if_neg (by decide), if_neg (by decide), if_neg (by decide),
                if_neg (by decide), if_neg (by decide), if_pos rfl]
            · have h : dispatch s c a
                  = some (s, "Error: Unknown command '" ++ c ++ "'.\n", true) := by
                unfold dispatch
                rw [if_neg h1, if_neg h2, if_neg h3, if_neg h4, if_neg h5, if_neg h6]
              exact step_goes_on h h6

/-- In a state of the loop every line that holds a word is handled: the
iteration returns, and the loop goes on unless the word is `exit`; the empty
line, with or without its newline, prints nothing and changes nothing. -/
theorem loopBody_total (s : Session) (hreach : Reachable s) :
    (∀ (input c : String), (strtok (trim_newline input.data)).1 = some c →
      ∃ s2 out b, loopBody s input = some (s2, out, b) ∧ (b = false ↔ c = "exit")) ∧
    loopBody s "" = some (s, "", true) ∧ loopBody s "\n" = some (s, "", true) := by
  refine ⟨?_, rfl, rfl⟩
  intro input c hc
  rw [loopBody_first_token s input c hc]
  exact dispatch_total s hreach c _

/-! ## Every directory and every file cell is in the tree, once -/

theorem numbered_link_aux {h : Heap} (hok : HeapOK h) {root : Nat}
    {pos size files : Nat → Nat} (hnum : Numbered h root pos size files)
    (hroot : root < h.dirs.length) {dir : Nat} {d : Directory} (n : String)
    (hd : h.dirs[dir]? = some d) (P S F : Nat → Nat)
    (hPn : P h.dirs.length = pos dir)
    (hP : ∀ a, a < h.dirs.length →
      (pos dir ≤ pos a ∧ P a = pos a + 1) ∨ (pos a < pos dir ∧ P a = pos a))
    (hSn : S h.dirs.length = 1 + optVal size d.subdirectories)
    (hS : ∀ a, a < h.dirs.length →
      ((pos dir ≤ pos a ∧ pos a < pos dir + size a) ∧ S a = size a + 1) ∨
      (¬ (pos dir ≤ pos a ∧ pos a < pos dir + size a) ∧ S a = size a))
    (hFn : F h.dirs.length = optVal files d.subdirectories)
    (hF : ∀ a, a < h.dirs.length → F a = files a) :
    Numbered (h.link dir d n) root P S F := by
  have hdir := lt_of_getElem?_eq_some hd
  have hne : ∀ a, a < h.dirs.length → a ≠ dir → pos a ≠ pos dir :=
    fun a ha hne e => hne (hnum.inj a dir ha hdir e)
  have hbd := hnum.bound dir hdir
  have hsz := hnum.size_eq dir d hd
  -- the pointers of `d`, in the new numbering
  have hsubS : optVal S d.subdirectories = optVal size d.subdirectories := by
    cases hs : d.subdirectories with
    | none => rfl
    | some c =>
      have hc := hok.sub_lt dir d hd c hs
      have h1 := hnum.sub_pos dir d c hd hs
      have h2 := hS c hc
      simp only [optVal]
      omega
  have hsubF : optVal F d.subdirectories = optVal files d.subdirectories := by
    cases hs : d.subdirectories with
    | none => rfl
    | some c =>
      simp only [optVal]
      exact hF c (hok.sub_lt dir d hd c hs)
  have hnextS : optVal S d.next = optVal size d.next := by
    cases hy : d.next with
    | none => rfl
    | some x =>
      have hx := hok.next_lt dir d hd x hy
      have h1 := hnum.next_pos dir d x hd hy
      have h2 := hS x (by omega)
      simp only [optVal]
      omega
  have hnextF : optVal F d.next = optVal files d.next := by
    cases hy : d.next with
    | none => rfl
    | some x =>
      simp only [optVal]
      exact hF x (by have := hok.next_lt dir d hd x hy; omega)
  refine ⟨?_, ?_, ?_, ?_, ?_, ?_, ?_, ?_, ?_, ?_⟩
  · intro a ha
    rw [link_length] at ha ⊢
    by_cases h1 : a = h.dirs.length
    · rw [h1, hPn]; omega
    · have := hP a (by omega)
      have := hnum.bound a (by omega)
      omega
  · intro a b ha hb hab
    rw [link_length] at ha hb
    by_cases h1 : a = h.dirs.length
    · by_cases h2 : b = h.dirs.length
      · rw [h1, h2]
      · have := hP b (by omega)
        rw [h1, hPn] at hab
        omega
    · by_cases h2 : b = h.dirs.length
      · have := hP a (by omega)
        rw [h2, hPn] at hab
        omega
      · have e1 := hP a (by omega)
        have e2 := hP b (by omega)
        exact hnum.inj a b (by omega) (by omega) (by omega)
  · intro a x hx
    rcases link_get_cases n hd hx with ⟨rfl, rfl⟩ | ⟨rfl, rfl⟩ | ⟨halt, hadir, hold⟩
    · have h1 := hS a hdir
      show S a = 1 + optVal S (some h.dirs.length) + optVal S d.next
      rw [hnextS]
      show S a = 1 + S h.dirs.length + optVal size d.next
      omega
    · show S h.dirs.length = 1 + optVal S none + optVal S d.subdirectories
      rw [hsubS]
      show S h.dirs.length = 1 + 0 + optVal size d.subdirectories
      omega
    · have h0 := hnum.size_eq a x hold
      have h1 := hS a halt
      have hpa := hne a halt hadir
      cases hs : x.subdirectories with
      | none =>
        cases hy : x.next with
        | none =>
          simp only [hs, hy, optVal] at h0 ⊢
          omega
        | some y =>
          have hyl := hok.next_lt a x hold y hy
          have h2 := hnum.next_pos a x y hold hy
          have h3 := hS y (by omega)
          simp only [hs, hy, optVal] at h0 h2 ⊢
          omega
      | some c =>
        have hcl := hok.sub_lt a x hold c hs
        have h4 := hnum.sub_pos a x c hold hs
        have h5 := hS c hcl
        cases hy : x.next with
        | none =>
          simp only [hs, hy, optVal] at h0 ⊢
          omega
        | some y =>
          have hyl := hok.next_lt a x hold y hy
          have h2 := hnum.next_pos a x y hold hy
          have h3 := hS y (by omega)
          simp only [hs, hy, optVal] at h0 h2 ⊢
          omega
  · intro a x l hx hl
    rcases link_get_cases n hd hx with ⟨rfl, rfl⟩ | ⟨rfl, rfl⟩ | ⟨halt, hadir, hold⟩
    · rw [link_fileCellsOf n hd hdir] at hl
      have h0 := hnum.files_eq a d l hd hl
      show F a = l.length + optVal F (some h.dirs.length) + optVal F d.next
      rw [hnextF, hF a hdir]
      show files a = l.length + F h.dirs.length + optVal files d.next
      rw [hFn]
      exact h0
    · have hnil : fileCellsOf (h.link dir d n) h.dirs.length = some [] := by
        simp [fileCellsOf, link_get_new n hd, chain]
      rw [hnil] at hl
      have hl2 := (Option.some.inj hl).symm
      subst hl2
      show F h.dirs.length = 0 + optVal F none + optVal F d.subdirectories
      rw [hsubF, hFn]
      show optVal files d.subdirectories = 0 + 0 + optVal files d.subdirectories
      omega
    · rw [link_fileCellsOf n hd halt] at hl
      have h0 := hnum.files_eq a x l hold hl
      rw [hF a halt, h0]
      have e1 : optVal F x.subdirectories = optVal files x.subdirectories := by
        cases hs : x.subdirectories with
        | none => rfl
        | some c =>
          simp only [optVal]
          exact hF c (hok.sub_lt a x hold c hs)
      have e2 : optVal F x.next = optVal files x.next := by
        cases hy : x.next with
        | none => rfl
        | some y =>
          simp only [optVal]
          exact hF y (by have := hok.next_lt a x hold y hy; omega)
      rw [e1, e2]
  · intro a x c hx hc
    rcases link_get_cases n hd hx with ⟨rfl, rfl⟩ | ⟨rfl, rfl⟩ | ⟨halt, hadir, hold⟩
    · simp only [Option.some.injEq] at hc
      subst hc
      have := hP a hdir
      rw [hPn]
      omega
    · simp at hc
    · have hcl := hok.sub_lt a x hold c hc
      have h1 := hnum.sub_pos a x c hold hc
      have h2 := hP a halt
      have h3 := hP c hcl
      have hpa := hne a halt hadir
      omega
  · intro a x y hx hy
    rcases link_get_cases n hd hx with ⟨rfl, rfl⟩ | ⟨rfl, rfl⟩ | ⟨halt, hadir, hold⟩
    · have hy2 : d.next = some y := hy
      have hyl := hok.next_lt a d hd y hy2
      have h1 := hnum.next_pos a d y hd hy2
      have h2 := hP a hdir
      have h3 := hP y (by omega)
      show P y + 1 + S h.dirs.length = P a
      omega
    · have hy2 : d.subdirectories = some y := hy
      have hyl := hok.sub_lt dir d hd y hy2
      have h1 := hnum.sub_pos dir d y hd hy2
      have h3 := hP y hyl
      show P y + 1 + 0 = P h.dirs.length
      omega
    · have hyl := hok.next_lt a x hold y hy
      have h1 := hnum.next_pos a x y hold hy
      have h2 := hP a halt
      have h3 := hP y (by omega)
      have hpa := hne a halt hadir
      cases hs : x.subdirectories with
      | none =>
        simp only [hs, optVal] at h1 ⊢
        omega
      | some c =>
        have hcl := hok.sub_lt a x hold c hs
        have h4 := hnum.sub_pos a x c hold hs
        have h5 := hS c hcl
        simp only [hs, optVal] at h1 ⊢
        omega
  · rw [link_length]
    have h1 := hP root hroot
    have h2 := hnum.root_pos
    omega
  · rw [link_length]
    have h1 := hS root hroot
    have h2 := hnum.root_pos
    have h3 := hnum.root_size
    omega
  · rw [link_fileCells, hF root hroot]
    exact hnum.root_files
  · intro x hx
    rcases link_get_cases n hd hx with ⟨rfl, rfl⟩ | ⟨hrl, _⟩ | ⟨_, _, hold⟩
    · exact hnum.root_next d hd
    · omega
    · exact hnum.root_next x hold

theorem numbered_link {h : Heap} (hok : HeapOK h) {root : Nat}
    {pos size files : Nat → Nat} (hnum : Numbered h root pos size files)
    (hroot : root < h.dirs.length) {dir : Nat} {d : Directory} (n : String)
    (hd : h.dirs[dir]? = some d) :
    ∃ P S F, Numbered (h.link dir d n) root P S F := by
  refine ⟨fun a => if a = h.dirs.length then pos dir
                   else if pos dir ≤ pos a then pos a + 1 else pos a,
          fun a => if a = h.dirs.length then 1 + optVal size d.subdirectories
                   else if pos dir ≤ pos a ∧ pos a < pos dir + size a then size a + 1
                   else size a,
          fun a => if a = h.dirs.length then optVal files d.subdirectories else files a,
          ?_⟩
  refine numbered_link_aux hok hnum hroot n hd _ _ _ ?_ ?_ ?_ ?_ ?_ ?_
  · exact if_pos rfl
  · intro a ha
    have hne : a ≠ h.dirs.length := by omega
    show (pos dir ≤ pos a ∧
        (if a = h.dirs.length then pos dir
          else if pos dir ≤ pos a then pos a + 1 else pos a) = pos a + 1) ∨
      (pos a < pos dir ∧
        (if a = h.dirs.length then pos dir
          else if pos dir ≤ pos a then pos a + 1 else pos a) = pos a)
    rw [if_neg hne]
    by_cases h1 : pos dir ≤ pos a
    · rw [if_pos h1]; exact Or.inl ⟨h1, rfl⟩
    · rw [if_neg h1]; exact Or.inr ⟨by omega, rfl⟩
  · exact if_pos rfl
  · intro a ha
    have hne : a ≠ h.dirs.length := by omega
    show ((pos dir ≤ pos a ∧ pos a < pos dir + size a) ∧
        (if a = h.dirs.length then 1 + optVal size d.subdirectories
          else if pos dir ≤ pos a ∧ pos a < pos dir + size a then size a + 1
          else size a) = size a + 1) ∨
      (¬ (pos dir ≤ pos a ∧ pos a < pos dir + size a) ∧
        (if a = h.dirs.length then 1 + optVal size d.subdirectories
          else if pos dir ≤ pos a ∧ pos a < pos dir + size a then size a + 1
          else size a) = size a)
    rw [if_neg hne]
    by_cases h1 : pos dir ≤ pos a ∧ pos a < pos dir + size a
    · rw [if_pos h1]; exact Or.inl ⟨h1, rfl⟩
    · rw [if_neg h1]; exact Or.inr ⟨h1, rfl⟩
  · exact if_pos rfl
  · intro a ha
    have hne : a ≠ h.dirs.length := by omega
    exact if_neg hne

theorem numbered_addCell_aux {h : Heap} (hok : HeapOK h) {root : Nat}
    {pos size files : Nat → Nat} (hnum : Numbered h root pos size files)
    (hroot : root < h.dirs.length) {dir : Nat} {d : Directory} (n : String)
    (hd : h.dirs[dir]? = some d) (F : Nat → Nat)
    (hF : ∀ a, a < h.dirs.length →
      ((pos dir ≤ pos a ∧ pos a < pos dir + size a) ∧ F a = files a + 1) ∨
      (¬ (pos dir ≤ pos a ∧ pos a < pos dir + size a) ∧ F a = files a)) :
    Numbered (h.addCell dir d n) root pos size F := by
  have hdir := lt_of_getElem?_eq_some hd
  have hne : ∀ a, a < h.dirs.length → a ≠ dir → pos a ≠ pos dir :=
    fun a ha hne e => hne (hnum.inj a dir ha hdir e)
  have hnode : ∀ (a : Nat) (x : Directory), (h.addCell dir d n).dirs[a]? = some x →
      ∃ y, h.dirs[a]? = some y ∧ y.subdirectories = x.subdirectories ∧ y.next = x.next := by
    intro a x hx
    rcases addCell_get_cases n hd hx with ⟨rfl, rfl⟩ | ⟨_, hold⟩
    · exact ⟨d, hd, rfl, rfl⟩
    · exact ⟨x, hold, rfl, rfl⟩
  refine ⟨?_, ?_, ?_, ?_, ?_, ?_, ?_, ?_, ?_, ?_⟩
  · intro a ha
    rw [addCell_dirs_length] at ha ⊢
    exact hnum.bound a ha
  · intro a b ha hb hab
    rw [addCell_dirs_length] at ha hb
    exact hnum.inj a b ha hb hab
  · intro a x hx
    obtain ⟨y, hy, e1, e2⟩ := hnode a x hx
    rw [← e1, ← e2]
    exact hnum.size_eq a y hy
  · intro a x l hx hl
    obtain ⟨y, hy, e1, e2⟩ := hnode a x hx
    have halt := lt_of_getElem?_eq_some hy
    obtain ⟨l0, hl0, _⟩ := fileCellsOf_total hok halt
    have h0 := hnum.files_eq a y l0 hy hl0
    have hsz := hnum.size_eq a y hy
    have h1 := hF a halt
    have hlen : l.length = l0.length + (if a = dir then 1 else 0) := by
      by_cases hadir : a = dir
      · subst hadir
        rw [hd] at hy
        have hyd := Option.some.inj hy
        subst hyd
        rw [addCell_fileCellsOf_dir n hd hl0] at hl
        rw [← Option.some.inj hl, if_pos rfl]
        rfl
      · rw [addCell_fileCellsOf_other d n hadir hl0] at hl
        rw [← Option.some.inj hl, if_neg hadir]
        rfl
    rw [← e1, ← e2]
    by_cases hadir : a = dir
    · rw [if_pos hadir] at hlen
      have hpd : pos a = pos dir := by rw [hadir]
      cases hs : y.subdirectories with
      | none =>
        cases hn : y.next with
        | none =>
          simp only [hs, hn, optVal] at h0 hsz ⊢
          omega
        | some z =>
          have hzl := hok.next_lt a y hy z hn
          have h2 := hnum.next_pos a y z hy hn
          have h3 := hF z (by omega)
          simp only [hs, hn, optVal] at h0 hsz h2 ⊢
          omega
      | some c =>
        have hcl := hok.sub_lt a y hy c hs
        have h4 := hnum.sub_pos a y c hy hs
        have h5 := hF c hcl
        cases hn : y.next with
        | none =>
          simp only [hs, hn, optVal] at h0 hsz ⊢
          omega
        | some z =>
          have hzl := hok.next_lt a y hy z hn
          have h2 := hnum.next_pos a y z hy hn
          have h3 := hF z (by omega)
          simp only [hs, hn, optVal] at h0 hsz h2 ⊢
          omega
    · rw [if_neg hadir] at hlen
      have hpa := hne a halt hadir
      cases hs : y.subdirectories with
      | none =>
        cases hn : y.next with
        | none =>
          simp only [hs, hn, optVal] at h0 hsz ⊢
          omega
        | some z =>
          have hzl := hok.next_lt a y hy z hn
          have h2 := hnum.next_pos a y z hy hn
          have h3 := hF z (by omega)
          simp only [hs, hn, optVal] at h0 hsz h2 ⊢
          omega
      | some c =>
        have hcl := hok.sub_lt a y hy c hs
        have h4 := hnum.sub_pos a y c hy hs
        have h5 := hF c hcl
        cases hn : y.next with
        | none =>
          simp only [hs, hn, optVal] at h0 hsz ⊢
          omega
        | some z =>
          have hzl := hok.next_lt a y hy z hn
          have h2 := hnum.next_pos a y z hy hn
          have h3 := hF z (by omega)
          simp only [hs, hn, optVal] at h0 hsz h2 ⊢
          omega
  · intro a x c hx hc
    obtain ⟨y, hy, e1, _⟩ := hnode a x hx
    exact hnum.sub_pos a y c hy (by rw [e1]; exact hc)
  · intro a x z hx hz
    obtain ⟨y, hy, e1, e2⟩ := hnode a x hx
    rw [← e1]
    exact hnum.next_pos a y z hy (by rw [e2]; exact hz)
  · rw [addCell_dirs_length]
    exact hnum.root_pos
  · rw [addCell_dirs_length]
    exact hnum.root_size
  · rw [addCell_fileCells_length]
    have h1 := hF root hroot
    have h2 := hnum.root_pos
    have h3 := hnum.root_size
    have h4 := hnum.root_files
    have h5 := hnum.bound dir hdir
    omega
  · intro x hx
    obtain ⟨y, hy, _, e2⟩ := hnode root x hx
    rw [← e2]
    exact hnum.root_next y hy

theorem numbered_addCell {h : Heap} (hok : HeapOK h) {root : Nat}
    {pos size files : Nat → Nat} (hnum : Numbered h root pos size files)
    (hroot : root < h.dirs.length) {dir : Nat} {d : Directory} (n : String)
    (hd : h.dirs[dir]? = some d) :
    ∃ F, Numbered (h.addCell dir d n) root pos size F := by
  refine ⟨fun a => if pos dir ≤ pos a ∧ pos a < pos dir + size a then files a + 1
                   else files a, ?_⟩
  refine numbered_addCell_aux hok hnum hroot n hd _ ?_
  intro a _
  show ((pos dir ≤ pos a ∧ pos a < pos dir + size a) ∧
      (if pos dir ≤ pos a ∧ pos a < pos dir + size a then files a + 1 else files a)
        = files a + 1) ∨
    (¬ (pos dir ≤ pos a ∧ pos a < pos dir + size a) ∧
      (if pos dir ≤ pos a ∧ pos a < pos dir + size a then files a + 1 else files a)
        = files a)
  by_cases h1 : pos dir ≤ pos a ∧ pos a < pos dir + size a
  · rw [if_pos h1]; exact Or.inl ⟨h1, rfl⟩
  · rw [if_neg h1]; exact Or.inr ⟨h1, rfl⟩

theorem numbered_initial :
    Numbered initial.heap initial.fs.rootDirectory (fun _ => 0) (fun _ => 1) (fun _ => 0) := by
  have hdirs : initial.heap.dirs
      = [{ directoryName := "root", subdirectories := none, next := none,
           files := none, parent := none }] := rfl
  have hlen : initial.heap.dirs.length = 1 := rfl
  refine ⟨?_, ?_, ?_, ?_, ?_, ?_, rfl, rfl, rfl, ?_⟩
  · intro a _
    rw [hlen]
    exact Nat.zero_lt_one
  · intro a b ha hb _
    rw [hlen] at ha hb
    omega
  · intro a d hd
    rw [hdirs] at hd
    obtain ⟨_, rfl⟩ := getElem?_singleton_some hd
    rfl
  · intro a d l hd hl
    rw [hdirs] at hd
    obtain ⟨rfl, rfl⟩ := getElem?_singleton_some hd
    have hnil : fileCellsOf initial.heap 0 = some [] := rfl
    rw [hnil] at hl
    rw [← Option.some.inj hl]
    rfl
  · intro a d c hd hc
    rw [hdirs] at hd
    obtain ⟨_, rfl⟩ := getElem?_singleton_some hd
    simp at hc
  · intro a d x hd hx
    rw [hdirs] at hd
    obtain ⟨_, rfl⟩ := getElem?_singleton_some hd
    simp at hx
  · intro d hd
    have hd2 : initial.heap.dirs[0]? = some d := hd
    rw [hdirs] at hd2
    obtain ⟨_, rfl⟩ := getElem?_singleton_some hd2
    rfl

/-- Every state of the loop has such a numbering. -/
theorem numbered_of_reachable {s : Session} (hreach : Reachable s) :
    ∃ pos size files, Numbered s.heap s.fs.rootDirectory pos size files := by
  induction hreach with
  | start => exact ⟨_, _, _, numbered_initial⟩
  | next hprev hstep ih =>
    obtain ⟨pos, size, files, hnum⟩ := ih
    have hinv := inv_of_reachable hprev
    rcases loopBody_state hstep with rfl | ⟨c, a, hdis⟩
    · exact ⟨pos, size, files, hnum⟩
    · rcases dispatch_state hdis with
        rfl | ⟨p, _, rfl⟩ | ⟨d, n, hd, _, rfl⟩ | ⟨d, n, hd, _, rfl⟩
      · exact ⟨pos, size, files, hnum⟩
      · exact ⟨pos, size, files, hnum⟩
      · exact numbered_link hinv.ok hnum hinv.root_lt n hd
      · obtain ⟨F, hF⟩ := numbered_addCell hinv.ok hnum hinv.root_lt n hd
        exact ⟨pos, size, F, hF⟩

/-- The tree below a directory holds as many directories and files as the
numbering says. -/
theorem count_treeOf {h : Heap} {root : Nat} {pos size files : Nat → Nat}
    (hnum : Numbered h root pos size files) :
    ∀ (f a : Nat) (t : DirTree) (d : Directory), treeOf h f a = some t →
      h.dirs[a]? = some d →
      t.dirCount = optVal size d.subdirectories ∧
      ∃ l, fileCellsOf h a = some l ∧
        t.fileCount = l.length + optVal files d.subdirectories := by
  intro f
  induction f with
  | zero => intro a t d ht; simp [treeOf] at ht
  | succ f ih =>
    have hchain : ∀ (cf : Nat) (p : Option Nat) (l : List Nat) (ts : List DirTree),
        chain h.dirNext cf p = some l → allSome (l.map (treeOf h f)) = some ts →
        DirTree.dirCountSubs ts = optVal size p ∧
        DirTree.fileCountSubs ts = optVal files p := by
      intro cf
      induction cf with
      | zero =>
        intro p l ts hc hall
        cases p with
        | none =>
          have hnil := chain_none hc
          subst hnil
          simp only [List.map_nil, allSome, Option.some.injEq] at hall
          subst hall
          exact ⟨rfl, rfl⟩
        | some c => simp [chain] at hc
      | succ cf ihc =>
        intro p l ts hc hall
        cases p with
        | none =>
          have hnil := chain_none hc
          subst hnil
          simp only [List.map_nil, allSome, Option.some.injEq] at hall
          subst hall
          exact ⟨rfl, rfl⟩
        | some c =>
          obtain ⟨dc, k, l2, hk, hdc, hrest, rfl⟩ := chain_some_cons hc
          have hk2 : k = cf := by omega
          subst hk2
          rw [List.map_cons] at hall
          obtain ⟨tc, ts2, htc, hts2, rfl⟩ := allSome_cons_some hall
          obtain ⟨h1, lc, hlc, h2⟩ := ih c tc dc htc hdc
          obtain ⟨h3, h4⟩ := ihc dc.next l2 ts2 hrest hts2
          have h5 := hnum.size_eq c dc hdc
          have h6 := hnum.files_eq c dc lc hdc hlc
          constructor
          · show 1 + tc.dirCount + DirTree.dirCountSubs ts2 = size c
            omega
          · show tc.fileCount + DirTree.fileCountSubs ts2 = files c
            omega
    intro a t d ht hd
    simp only [treeOf] at ht
    cases hs : subdirs h a with
    | none => simp [hs] at ht
    | some l =>
      cases hf : fileNames h a with
      | none => simp [hs, hf] at ht
      | some fs =>
        simp only [hs, hf] at ht
        cases hall : allSome (l.map (treeOf h f)) with
        | none => simp [hall] at ht
        | some ts =>
          rw [hall] at ht
          simp only [Option.some.injEq] at ht
          subst ht
          obtain ⟨_, fl, _, _, hfl, rfl⟩ := fileNames_some hf
          have hc : chain h.dirNext h.dirs.length d.subdirectories = some l := by
            simpa [subdirs, hd] using hs
          obtain ⟨h1, h2⟩ := hchain _ _ l ts hc hall
          refine ⟨h1, fl, hfl, ?_⟩
          show (fl.map h.fileName).length + DirTree.fileCountSubs ts
            = fl.length + optVal files d.subdirectories
          rw [List.length_map, h2]

/-- The tree below the root holds every directory and every file cell of the
heap. -/
theorem count_root {h : Heap} {root : Nat} {pos size files : Nat → Nat}
    (hnum : Numbered h root pos size files) {f : Nat} {t : DirTree}
    (ht : treeOf h f root = some t) (hroot : root < h.dirs.length) :
    t.dirCount + 1 = h.dirs.length ∧ t.fileCount = h.fileCells.length := by
  obtain ⟨d, hd⟩ : ∃ d, h.dirs[root]? = some d := ⟨_, List.getElem?_eq_getElem hroot⟩
  obtain ⟨h1, l, hl, h2⟩ := count_treeOf hnum f root t d ht hd
  have h3 := hnum.size_eq root d hd
  have h4 := hnum.files_eq root d l hd hl
  have h5 := hnum.root_next d hd
  have h6 := hnum.root_size
  have h7 := hnum.root_files
  rw [h5] at h3 h4
  have h8 : optVal size none = 0 := rfl
  have h9 : optVal files none = 0 := rfl
  rw [h8] at h3
  rw [h9] at h4
  omega

/-! ## Every tree the functions build -/

/-- A heap the functions build is well formed, its links form no cycle, and
it has a numbering: all its directories and file cells hang below the root. -/
theorem built_wellformed {h : Heap} {fs : FileSystem} (hb : Built h fs) :
    HeapOK h ∧ fs.rootDirectory < h.dirs.length ∧ (∃ rank, Ranked h rank) ∧
      ∃ pos size files, Numbered h fs.rootDirectory pos size files := by
  induction hb with
  | create rootName =>
    have hdirs : (create_filesystem { dirs := [], fileCells := [] } rootName).1.dirs
        = [{ directoryName := rootName, subdirectories := none, next := none,
             files := none, parent := none }] := rfl
    have hfiles : (create_filesystem { dirs := [], fileCells := [] } rootName).1.fileCells
        = [] := rfl
    have hroot : (create_filesystem { dirs := [], fileCells := [] } rootName).2.rootDirectory
        = 0 := rfl
    have hlen : (create_filesystem { dirs := [], fileCells := [] } rootName).1.dirs.length
        = 1 := rfl
    refine ⟨⟨?_, ?_, ?_, ?_⟩, ?_, ⟨fun _ => 0, ?_, ?_, ?_⟩,
      fun _ => 0, fun _ => 1, fun _ => 0, ?_, ?_, ?_, ?_, ?_, ?_, rfl, rfl, rfl, ?_⟩
    · intro a d hd b hb
      rw [hdirs] at hd
      obtain ⟨_, rfl⟩ := getElem?_singleton_some hd
      simp at hb
    · intro a d hd b hb
      rw [hdirs] at hd
      obtain ⟨_, rfl⟩ := getElem?_singleton_some hd
      simp at hb
    · intro a d hd b hb
      rw [hdirs] at hd
      obtain ⟨_, rfl⟩ := getElem?_singleton_some hd
      simp at hb
    · intro a c hc
      rw [hfiles] at hc
      simp at hc
    · rw [hroot, hlen]
      exact Nat.zero_lt_one
    · intro a _
      rw [hlen]
      exact Nat.zero_lt_one
    · intro a d hd b hb
      rw [hdirs] at hd
      obtain ⟨_, rfl⟩ := getElem?_singleton_some hd
      simp at hb
    · intro a d hd b hb
      rw [hdirs] at hd
      obtain ⟨_, rfl⟩ := getElem?_singleton_some hd
      simp at hb
    · intro a _
      rw [hlen]
      exact Nat.zero_lt_one
    · intro a b ha hb _
      rw [hlen] at ha hb
      omega
    · intro a d hd
      rw [hdirs] at hd
      obtain ⟨_, rfl⟩ := getElem?_singleton_some hd
      rfl
    · intro a d l hd hl
      rw [hdirs] at hd
      obtain ⟨rfl, rfl⟩ := getElem?_singleton_some hd
      have hnil : fileCellsOf (create_filesystem { dirs := [], fileCells := [] } rootName).1 0
          = some [] := rfl
      rw [hnil] at hl
      rw [← Option.some.inj hl]
      rfl
    · intro a d c hd hc
      rw [hdirs] at hd
      obtain ⟨_, rfl⟩ := getElem?_singleton_some hd
      simp at hc
    · intro a d x hd hx
      rw [hdirs] at hd
      obtain ⟨_, rfl⟩ := getElem?_singleton_some hd
      simp at hx
    · intro d hd
      rw [hroot, hdirs] at hd
      obtain ⟨_, rfl⟩ := getElem?_singleton_some hd
      rfl
  | subdirectory h h2 fs dir n r _ hadd ih =>
    obtain ⟨hok, hroot, ⟨rank, hrank⟩, pos, size, files, hnum⟩ := ih
    rcases add_subdirectory_cases hadd with ⟨_, rfl⟩ | ⟨d, hd, _, rfl, _⟩
    · exact ⟨hok, hroot, ⟨rank, hrank⟩, pos, size, files, hnum⟩
    · refine ⟨heapOK_link hok n hd, ?_, ⟨_, ranked_link hok hrank n hd⟩,
        numbered_link hok hnum hroot n hd⟩
      rw [link_length]
      exact Nat.lt_succ_of_lt hroot
  | file h h2 fs dir n r _ hadd ih =>
    obtain ⟨hok, hroot, ⟨rank, hrank⟩, pos, size, files, hnum⟩ := ih
    rcases add_file_cases hadd with ⟨_, rfl⟩ | ⟨d, hd, _, rfl, _⟩
    · exact ⟨hok, hroot, ⟨rank, hrank⟩, pos, size, files, hnum⟩
    · obtain ⟨F, hF⟩ := numbered_addCell hok hnum hroot n hd
      refine ⟨heapOK_addCell hok n hd, ?_, ⟨rank, ranked_addCell hrank n hd⟩,
        pos, size, F, hF⟩
      rw [addCell_dirs_length]
      exact hroot

/-! ## The number of lines of the whole print -/

/-- C20, as the code has it: for every tree the functions build,
`print_filesystem` returns, and its text is the line of the root followed by
the reference rendering of the tree below the root; that tree holds every
directory and every file cell of the heap once (`D + 1` is the number of
directories of the heap and `F` the number of its file cells, where `D` is the
number of directories of the tree other than the root and `F` the number of
files in all its directories); and when no name holds a newline the text has
exactly `1 + D + F` lines. -/
theorem print_filesystem_line_count (h : Heap) (fs : FileSystem) (hb : Built h fs) :
    ∃ t out, treeOf h h.dirs.length fs.rootDirectory = some t ∧
      print_filesystem h fs = some out ∧
      out = "Root Directory: " ++ t.name ++ "\n" ++ t.render 1 ∧
      t.dirCount + 1 = h.dirs.length ∧
      t.fileCount = h.fileCells.length ∧
      (CleanNames h → lineCount out = 1 + t.dirCount + t.fileCount) := by
  obtain ⟨hok, hroot, ⟨rank, hrank⟩, pos, size, files, hnum⟩ := built_wellformed hb
  obtain ⟨t, ht, hprint⟩ := print_filesystem_tree hok hrank fs hroot
  have hcount := count_root hnum ht hroot
  refine ⟨t, _, ht, hprint, rfl, hcount.1, hcount.2, ?_⟩
  intro hclean
  have hname : lineCount t.name = 0 := by
    rw [treeOf_name h ht]
    exact lineCount_clean (dirName_clean hclean _)
  have h1 : lineCount "Root Directory: " = 0 := by decide
  have h2 : lineCount "\n" = 1 := by decide
  simp only [lineCount_append, h1, h2, hname, lineCount_treeOf hclean _ _ t ht 1]
  omega

theorem print_filesystem_line_count_witness :
    Built sampleHeap { rootDirectory := 0 } ∧ CleanNames sampleHeap ∧
    (∃ t out, treeOf sampleHeap sampleHeap.dirs.length 0 = some t ∧
        print_filesystem sampleHeap { rootDirectory := 0 } = some out ∧
        out = "Root Directory: " ++ t.name ++ "\n" ++ t.render 1 ∧
        t.dirCount + 1 = sampleHeap.dirs.length ∧
        t.fileCount = sampleHeap.fileCells.length ∧
        (CleanNames sampleHeap → lineCount out = 1 + t.dirCount + t.fileCount)) ∧
    print_filesystem sampleHeap { rootDirectory := 0 }
      = some "Root Directory: root\n  Directory: B\n  Directory: A\n  File: f\n" :=
  have hb : Built sampleHeap { rootDirectory := 0 } :=
    Built.file _ _ _ 0 "f" 1
      (Built.subdirectory _ _ _ 0 "B" (some 2)
        (Built.subdirectory _ _ _ 0 "A" (some 1) (Built.create "root") rfl) rfl) rfl
  ⟨hb, ⟨by decide, by decide⟩,
    print_filesystem_line_count sampleHeap { rootDirectory := 0 } hb, by decide⟩

/-- C20 as stated fails on a tree with a newline in a name: the tree
`add_subdirectory` builds below the root with the name "a", newline, "b" has
one directory besides the root and no file, so `1 + D + F` is 2, and
`print_filesystem` prints three lines. -/
theorem print_filesystem_line_count_counterexample :
    ∃ h t out, Built h initial.fs ∧
      add_subdirectory initial.heap 0 "a\nb" = some (h, some 1) ∧
      treeOf h h.dirs.length initial.fs.rootDirectory = some t ∧
      print_filesystem h initial.fs = some out ∧
      out = "Root Directory: root\n  Directory: a\nb\n" ∧
      lineCount out = 3 ∧
      1 + t.dirCount + t.fileCount = 2 ∧
      lineCount out ≠ 1 + t.dirCount + t.fileCount :=
  ⟨_, _, _, Built.subdirectory _ _ _ 0 "a\nb" (some 1) (Built.create "root") rfl,
    rfl, rfl, rfl, rfl, by decide, by decide, by decide⟩

/-! ## Typed lines and the buffer -/

/-- A line shorter than the room is read whole, with its newline. -/
theorem fgets_read_line (stream : List Char) :
    ∀ (line : List Char) (room : Nat), '\n' ∉ line → line.length < room →
      fgets.read room (line ++ '\n' :: stream) = (line ++ ['\n'], stream)
  | [], 0, _, hlen => absurd hlen (Nat.lt_irrefl 0)
  | [], room + 1, _, _ => by simp [fgets.read]
  | c :: line, 0, _, hlen => absurd hlen (Nat.not_lt_zero _)
  | c :: line, room + 1, hnl, hlen => by
    have hc : c ≠ '\n' := fun hc => hnl (hc ▸ List.mem_cons_self _ _)
    have hl : '\n' ∉ line := fun hm => hnl (List.mem_cons_of_mem _ hm)
    have ih := fgets_read_line stream line room hl (Nat.lt_of_succ_lt_succ hlen)
    show fgets.read (room + 1) (c :: (line ++ '\n' :: stream)) = _
    simp [fgets.read, hc, ih]

/-- A text without newline that uses up the room is read, and no more. -/
theorem fgets_read_full (stream : List Char) :
    ∀ line : List Char, '\n' ∉ line →
      fgets.read line.length (line ++ stream) = (line, stream)
  | [], _ => by simp [fgets.read]
  | c :: line, hnl => by
    have hc : c ≠ '\n' := fun hc => hnl (hc ▸ List.mem_cons_self _ _)
    have hl : '\n' ∉ line := fun hm => hnl (List.mem_cons_of_mem _ hm)
    have ih := fgets_read_full stream line hl
    show fgets.read (line.length + 1) (c :: (line ++ stream)) = _
    simp [fgets.read, hc, ih]

/-- A typed line of at most 254 characters is in the buffer with its
newline after one call. -/
theorem fgets_line (line stream : List Char) (hnl : '\n' ∉ line)
    (hlen : line.length ≤ 254) :
    fgets 256 (line ++ '\n' :: stream) = some (String.mk (line ++ ['\n']), stream) := by
  have hne : line ++ '\n' :: stream ≠ [] := by simp
  unfold fgets
  rw [if_neg hne, fgets_read_line stream line 255 hnl (by omega)]

/-- A typed line of 255 characters fills the buffer; its newline stays in the
stream. -/
theorem fgets_line_full (line stream : List Char) (hnl : '\n' ∉ line)
    (hlen : line.length = 255) :
    fgets 256 (line ++ '\n' :: stream) = some (String.mk line, '\n' :: stream) := by
  have hne : line ++ '\n' :: stream ≠ [] := by simp
  have h := fgets_read_full ('\n' :: stream) line hnl
  rw [hlen] at h
  unfold fgets
  rw [if_neg hne]
  show some (String.mk (fgets.read 255 (line ++ '\n' :: stream)).1,
    (fgets.read 255 (line ++ '\n' :: stream)).2) = _
  rw [h]

/-- One call takes at least one character from the stream. -/
theorem fgets_read_shorter :
    ∀ (room : Nat) (stream : List Char), stream ≠ [] →
      (fgets.read (room + 1) stream).2.length < stream.length
  | _, [], hne => absurd rfl hne
  | 0, c :: stream, _ => by
    by_cases hc : c = '\n'
    · simp [fgets.read, hc]
    · simp [fgets.read, hc]
  | room + 1, c :: stream, _ => by
    by_cases hc : c = '\n'
    · simp [fgets.read, hc]
    · by_cases hs : stream = []
      · subst hs
        simp [fgets.read, hc]
      · have ih := fgets_read_shorter room stream hs
        simp only [fgets.read, hc, if_false, List.length_cons]
        omega

theorem fgets_shorter {stream rest : List Char} {input : String}
    (h : fgets 256 stream = some (input, rest)) : rest.length < stream.length := by
  unfold fgets at h
  by_cases hs : stream = []
  · rw [if_pos hs] at h
    exact absurd h (by simp)
  · rw [if_neg hs] at h
    simp only [Option.some.injEq, Prod.mk.injEq] at h
    rw [← h.2]
    exact fgets_read_shorter 254 stream hs

/-- The buffer holds at most 255 characters. -/
theorem fgets_read_length :
    ∀ (room : Nat) (stream : List Char), (fgets.read room stream).1.length ≤ room
  | 0, _ => by simp [fgets.read]
  | _ + 1, [] => by simp [fgets.read]
  | room + 1, c :: stream => by
    by_cases hc : c = '\n'
    · simp [fgets.read, hc]
    · have ih := fgets_read_length room stream
      simp only [fgets.read, hc, if_false, List.length_cons]
      omega

theorem fgets_length {stream rest : List Char} {input : String}
    (h : fgets 256 stream = some (input, rest)) : input.length ≤ 255 := by
  unfold fgets at h
  by_cases hs : stream = []
  · rw [if_pos hs] at h
    exact absurd h (by simp)
  · rw [if_neg hs] at h
    simp only [Option.some.injEq, Prod.mk.injEq] at h
    rw [← h.1]
    exact fgets_read_length 255 stream

/-- The newline `fgets` leaves at the end of the buffer is dropped before the
line is cut into tokens. -/
theorem loopBody_newline (s : Session) (line : List Char) (hnl : '\n' ∉ line) :
    loopBody s (String.mk (line ++ ['\n'])) = loopBody s (String.mk line) := by
  have h1 : trim_newline (line ++ ['\n']) = line := by
    unfold trim_newline
    rw [if_neg (by simp), if_pos (by simp)]
    simp
  have h2 : trim_newline line = line := by
    by_cases hl : line = []
    · subst hl
      rfl
    · have := trim_newline_of_last line hl (fun c hc hcn => hnl (hcn ▸ hc)) []
      simpa using this
  unfold loopBody
  show (let l := trim_newline (line ++ ['\n']); _) = (let l := trim_newline line; _)
  rw [h1, h2]

/-- The loop does not depend on the bound on its iterations once the bound
exceeds the length of the stream. -/
theorem mainLoop_fuel :
    ∀ (n : Nat) (s : Session) (stdin : List Char) (f1 f2 : Nat),
      stdin.length ≤ n → stdin.length < f1 → stdin.length < f2 →
      mainLoop f1 s stdin = mainLoop f2 s stdin := by
  intro n
  induction n with
  | zero =>
    intro s stdin f1 f2 hn h1 h2
    have hnil : stdin = [] := List.length_eq_zero.mp (Nat.le_zero.mp hn)
    subst hnil
    cases f1 with
    | zero => exact absurd h1 (Nat.lt_irrefl 0)
    | succ f1 =>
      cases f2 with
      | zero => exact absurd h2 (Nat.lt_irrefl 0)
      | succ f2 => rfl
  | succ n ih =>
    intro s stdin f1 f2 hn h1 h2
    cases f1 with
    | zero => exact absurd h1 (Nat.not_lt_zero _)
    | succ f1 =>
      cases f2 with
      | zero => exact absurd h2 (Nat.not_lt_zero _)
      | succ f2 =>
        unfold mainLoop
        cases hf : fgets 256 stdin with
        | none => rfl
        | some r =>
          obtain ⟨input, rest⟩ := r
          have hlt := fgets_shorter hf
          cases hb : loopBody s input with
          | none => simp only [hb]
          | some st =>
            obtain ⟨s2, out, b⟩ := st
            cases b with
            | false => simp only [hb]
            | true =>
              simp only [hb]
              rw [ih s2 rest f1 f2 (by omega) (by omega) (by omega)]

/-- At the end of the stream the loop is left in the state it is in. -/
theorem mainLoop_end (fuel : Nat) (s : Session) :
    mainLoop (fuel + 1) s [] = some (s, ">> Error reading input. Exiting.\n") := rfl

/-- An iteration that goes on: the loop ends in the state in which it ends
from the next state on the rest of the stream. -/
theorem mainLoop_step {s s2 : Session} {stdin rest : List Char} {input out : String}
    (hf : fgets 256 stdin = some (input, rest))
    (hb : loopBody s input = some (s2, out, true)) (f1 f2 : Nat)
    (h1 : stdin.length < f1) (h2 : rest.length < f2) :
    mainLoop f1 s stdin
      = (mainLoop f2 s2 rest).map (fun r => (r.1, ">> " ++ out ++ r.2)) := by
  cases f1 with
  | zero => exact absurd h1 (Nat.not_lt_zero _)
  | succ f1 =>
    have hlt := fgets_shorter hf
    have hfuel := mainLoop_fuel rest.length s2 rest f1 f2 (Nat.le_refl _) (by omega) h2
    have e : mainLoop (f1 + 1) s stdin
        = (match mainLoop f1 s2 rest with
          | none => none
          | some (s3, out2) => some (s3, ">> " ++ out ++ out2)) := by
      rw [mainLoop]
      simp only [hf, hb]
    rw [e, hfuel]
    cases mainLoop f2 s2 rest with
    | none => rfl
    | some r => rfl

/-- A newline alone is an empty line: the loop goes on in the same state. -/
theorem loopBody_empty (s : Session) : loopBody s "\n" = some (s, "", true) := rfl

/-- A typed line of at most 255 characters is handled as one buffer: the
loop ends in the state in which it ends from the state after that line on the
rest of the stream, and its text is that of the line, then that of the
rest. -/
theorem mainLoop_typed_line {s s2 : Session} {line out : String}
    (hnl : '\n' ∉ line.data) (hlen : line.length ≤ 255)
    (hstep : loopBody s line = some (s2, out, true)) (rest : List Char) (f1 f2 : Nat)
    (h1 : (line.data ++ '\n' :: rest).length < f1) (h2 : rest.length < f2) :
    ∃ pre, mainLoop f1 s (line.data ++ '\n' :: rest)
      = (mainLoop f2 s2 rest).map (fun r => (r.1, ">> " ++ out ++ pre ++ r.2)) ∧
      (pre = "" ∨ pre = ">> ") := by
  by_cases hfull : line.length = 255
  · have hf := fgets_line_full line.data rest hnl hfull
    have hf2 := fgets_line [] rest (by simp) (by simp)
    have e1 := mainLoop_step hf hstep f1 (rest.length + 2) h1 (by simp)
    have e2 := mainLoop_step hf2 (loopBody_empty s2) (rest.length + 2) f2 (by simp) h2
    refine ⟨">> ", ?_, Or.inr rfl⟩
    rw [e1]
    have e2b : mainLoop (rest.length + 2) s2 ('\n' :: rest)
        = (mainLoop f2 s2 rest).map (fun r => (r.1, ">> " ++ "" ++ r.2)) := e2
    rw [e2b]
    cases mainLoop f2 s2 rest with
    | none => rfl
    | some r =>
      simp only [Option.map_some', Option.some.injEq, Prod.mk.injEq, true_and]
      simp [String.append_assoc]
  · have hlen2 : line.data.length ≤ 254 := by
      have : line.data.length = line.length := rfl
      omega
    have hf := fgets_line line.data rest hnl hlen2
    have hb : loopBody s (String.mk (line.data ++ ['\n'])) = some (s2, out, true) := by
      rw [loopBody_newline s line.data hnl]
      exact hstep
    have e1 := mainLoop_step hf hb f1 f2 h1 h2
    refine ⟨"", ?_, Or.inl rfl⟩
    rw [e1]
    cases mainLoop f2 s2 rest with
    | none => rfl
    | some r =>
      simp only [Option.map_some', Option.some.injEq, Prod.mk.injEq, true_and]
      simp [String.append_assoc]

/-- Typed lines of at most 255 characters reach the loop body one by one: the
loop on the typed stream ends in the state `run` gives. -/
theorem mainLoop_typed :
    ∀ (lines : List String) (s s2 : Session),
      (∀ l ∈ lines, '\n' ∉ l.data ∧ l.length ≤ 255) → run s lines = some s2 →
      ∀ fuel, (typed lines).length < fuel →
        ∃ out, mainLoop fuel s (typed lines) = some (s2, out)
  | [], s, s2, _, hrun, fuel, hfuel => by
    have hs : s = s2 := Option.some.inj hrun
    subst hs
    cases fuel with
    | zero => exact absurd hfuel (Nat.not_lt_zero _)
    | succ fuel => exact ⟨_, mainLoop_end fuel s⟩
  | l :: lines, s, s2, hl, hrun, fuel, hfuel => by
    cases hb : loopBody s l with
    | none => simp [run, hb] at hrun
    | some st =>
      obtain ⟨s1, out, b⟩ := st
      cases b with
      | false => simp [run, hb] at hrun
      | true =>
        have hrun2 : run s1 lines = some s2 := by
          simpa [run, hb] using hrun
        obtain ⟨hnl, hlen⟩ := hl l (List.mem_cons_self _ _)
        obtain ⟨out2, hrest⟩ := mainLoop_typed lines s1 s2
          (fun x hx => hl x (List.mem_cons_of_mem _ hx)) hrun2
          ((typed lines).length + 1) (Nat.lt_succ_self _)
        obtain ⟨pre, hpre, _⟩ := mainLoop_typed_line hnl hlen hb (typed lines) fuel
          ((typed lines).length + 1) hfuel (Nat.lt_succ_self _)
        refine ⟨">> " ++ out ++ pre ++ out2, ?_⟩
        show mainLoop fuel s (l.data ++ '\n' :: typed lines) = _
        rw [hpre, hrest]
        rfl

/-! ## The four typed commands -/

/-- A command word from the source, a space and a name of at most 249
characters make a line without newline that fits the buffer. -/
theorem command_line_fits (cmd n : String) (hc : '\n' ∉ cmd.data) (hcl : cmd.length ≤ 6)
    (hn : IsName n) (hlen : n.length ≤ 249) :
    '\n' ∉ (cmd ++ n).data ∧ (cmd ++ n).length ≤ 255 := by
  refine ⟨?_, ?_⟩
  · rw [String.data_append]
    intro hm
    rcases List.mem_append.mp hm with h | h
    · exact hc h
    · exact (hn.2 _ h).2 rfl
  · rw [String.length_append]
    omega

/-- C6, as the code has it: from a reachable state, when the lines `mkdir A`,
`cd A`, `mkdir B`, `cd ..` are typed, for names `A` (other than `..`) and `B`
of at most 249 characters, so that `fgets` puts each line in the buffer in one
piece, the loop carries out the four commands and at the end of the stream the
cursor is where it was before. -/
theorem typed_mkdir_cd_mkdir_cd_up (s : Session) (hr : Reachable s) (A B : String)
    (hA : IsName A) (hB : IsName B) (hA2 : A ≠ "..")
    (hlenA : A.length ≤ 249) (hlenB : B.length ≤ 249) (fuel : Nat)
    (hfuel : (typed ["mkdir " ++ A, "cd " ++ A, "mkdir " ++ B, "cd .."]).length < fuel) :
    ∃ s4 out,
      mainLoop fuel s (typed ["mkdir " ++ A, "cd " ++ A, "mkdir " ++ B, "cd .."])
        = some (s4, out) ∧
      run s ["mkdir " ++ A, "cd " ++ A, "mkdir " ++ B, "cd .."] = some s4 ∧
      s4.head = s.head := by
  obtain ⟨s4, hrun, hhead⟩ := run_mkdir_cd_mkdir_cd_up s hr A B hA hB hA2
  have hlines : ∀ l ∈ ["mkdir " ++ A, "cd " ++ A, "mkdir " ++ B, "cd .."],
      '\n' ∉ l.data ∧ l.length ≤ 255 := by
    intro l hl
    simp only [List.mem_cons, List.mem_singleton, List.not_mem_nil, or_false] at hl
    rcases hl with rfl | rfl | rfl | rfl
    · exact command_line_fits "mkdir " A (by decide) (by decide) hA hlenA
    · exact command_line_fits "cd " A (by decide) (by decide) hA hlenA
    · exact command_line_fits "mkdir " B (by decide) (by decide) hB hlenB
    · exact ⟨by decide, by decide⟩
  obtain ⟨out, hout⟩ := mainLoop_typed _ s s4 hlines hrun fuel hfuel
  exact ⟨s4, out, hout, hrun, hhead⟩

theorem typed_mkdir_cd_mkdir_cd_up_witness :
    ∃ s4 out,
      mainLoop 28 sampleSession (typed ["mkdir " ++ "A", "cd " ++ "A", "mkdir " ++ "B", "cd .."])
        = some (s4, out) ∧
      run sampleSession ["mkdir " ++ "A", "cd " ++ "A", "mkdir " ++ "B", "cd .."] = some s4 ∧
      s4.head = sampleSession.head :=
  typed_mkdir_cd_mkdir_cd_up sampleSession
    (reachable_of_run ["mkdir A", "mkdir B", "touch f", "cd A"] (by decide))
    "A" "B" (by decide) (by decide) (by decide) (by decide) (by decide) 28 (by decide)

set_option maxRecDepth 100000 in
/-- C6 as stated fails for a long name: in the reachable state with the cursor
on the directory at address 1, below the root, the typed line `mkdir A` with a
name `A` of 250 characters has 256 characters, so `fgets` cuts it: a directory
with the first 249 characters of `A` is made and the last character is read as
one more line; `cd A` then finds no directory named `A`, and `cd ..` moves the
cursor up to the root, at address 0. -/
theorem mkdir_cd_mkdir_cd_up_counterexample :
    Reachable sampleSession ∧ sampleSession.head = 1 ∧
    IsName (String.mk (List.replicate 250 'a')) ∧ IsName "B" ∧
    String.mk (List.replicate 250 'a') ≠ ".." ∧
    (mainLoop 600 sampleSession
        (typed ["mkdir " ++ String.mk (List.replicate 250 'a'),
                "cd " ++ String.mk (List.replicate 250 'a'),
                "mkdir " ++ "B", "cd .."])).map (fun r => r.1.head) = some 0 := by
  refine ⟨reachable_sampleSession, rfl, by decide, by decide, by decide, ?_⟩
  decide

/-! ## Typed lines that are not a command -/

/-- A text without newline is left as it is by `trim_newline`. -/
theorem trim_newline_id (line : List Char) (hnl : '\n' ∉ line) :
    trim_newline line = line := by
  by_cases hl : line = []
  · subst hl
    rfl
  · have := trim_newline_of_last line hl (fun c hc hcn => hnl (hcn ▸ hc)) []
    simpa using this

/-- C13, as the code has it: a line of at most 255 characters whose command
word `c` is none of `cd`, `mkdir`, `touch`, `ls`, `print`, `exit` prints
exactly "Error: Unknown command 'c'." and a newline, returns the state (heap
and cursor) it was given, and the loop goes on.  So for every buffer of at
most 255 characters with first token `c`; so when such a line is typed: the
loop prints the prompt and the message and then does on the rest of the stream
what it does from the same state (after one more prompt when the line has 255
characters and its newline is read alone); and so for the word alone and for
the word followed by an argument. -/
theorem unknown_command_line (s : Session) (c : String)
    (hc : c ∉ ["cd", "mkdir", "touch", "ls", "print", "exit"]) :
    (∀ input : String, input.length ≤ 255 →
      (strtok (trim_newline input.data)).1 = some c →
      loopBody s input = some (s, "Error: Unknown command '" ++ c ++ "'.\n", true)) ∧
    (∀ (line : String) (rest : List Char), '\n' ∉ line.data → line.length ≤ 255 →
      (strtok line.data).1 = some c →
      ∀ f1 f2, (line.data ++ '\n' :: rest).length < f1 → rest.length < f2 →
        ∃ pre, (pre = "" ∨ pre = ">> ") ∧
          mainLoop f1 s (line.data ++ '\n' :: rest)
            = (mainLoop f2 s rest).map
                (fun r => (r.1, ">> " ++ ("Error: Unknown command '" ++ c ++ "'.\n")
                  ++ pre ++ r.2))) ∧
    (IsName c → c.length ≤ 255 →
      loopBody s c = some (s, "Error: Unknown command '" ++ c ++ "'.\n", true) ∧
      ∀ n, IsName n → (c ++ " " ++ n).length ≤ 255 →
        loopBody s (c ++ " " ++ n)
          = some (s, "Error: Unknown command '" ++ c ++ "'.\n", true)) := by
  refine ⟨?_, ?_, ?_⟩
  · intro input _ hin
    rw [loopBody_first_token s input c hin]
    exact dispatch_unknown s c _ hc
  · intro line rest hnl hlen htok f1 f2 h1 h2
    have hin : (strtok (trim_newline line.data)).1 = some c := by
      rw [trim_newline_id line.data hnl]
      exact htok
    have hstep : loopBody s line
        = some (s, "Error: Unknown command '" ++ c ++ "'.\n", true) := by
      rw [loopBody_first_token s line c hin]
      exact dispatch_unknown s c _ hc
    obtain ⟨pre, hpre, hor⟩ := mainLoop_typed_line hnl hlen hstep rest f1 f2 h1 h2
    exact ⟨pre, hor, hpre⟩
  · intro hname _
    refine ⟨?_, ?_⟩
    · rw [loopBody_command s c hname]
      exact dispatch_unknown s c _ hc
    · intro n hn _
      rw [loopBody_command_argument s c n hname hn]
      exact dispatch_unknown s c _ hc

theorem unknown_command_line_witness :
    "foo" ∉ ["cd", "mkdir", "touch", "ls", "print", "exit"] ∧
    loopBody sampleSession "foo bar\n"
      = some (sampleSession, "Error: Unknown command '" ++ "foo" ++ "'.\n", true) ∧
    (∃ pre, (pre = "" ∨ pre = ">> ") ∧
      mainLoop 9 sampleSession ("foo bar".data ++ '\n' :: [])
        = (mainLoop 1 sampleSession []).map
            (fun r => (r.1, ">> " ++ ("Error: Unknown command '" ++ "foo" ++ "'.\n")
              ++ pre ++ r.2))) ∧
    mainLoop 9 sampleSession (typed ["foo bar"])
      = some (sampleSession,
          ">> Error: Unknown command 'foo'.\n>> Error reading input. Exiting.\n") :=
  ⟨by decide,
    (unknown_command_line sampleSession "foo" (by decide)).1 "foo bar\n" (by decide)
      (by decide),
    (unknown_command_line sampleSession "foo" (by decide)).2.1 "foo bar" [] (by decide)
      (by decide) (by decide) 9 1 (by decide) (by decide),
    by decide⟩

set_option maxRecDepth 100000 in
/-- C13 as stated fails for a long line: the typed line made of the word of
255 letters `a` followed by `mkdir`, a space and `X` has a command word that
is none of the six, but `fgets` cuts the line after 255 characters: the loop
prints the message for the first 255 characters only, and then reads
`mkdir X` as a line of its own and makes the directory `X`, so the tree is not
the same. -/
theorem unknown_command_counterexample :
    String.mk (List.replicate 255 'a') ++ "mkdir"
      ∉ ["cd", "mkdir", "touch", "ls", "print", "exit"] ∧
    (strtok (String.mk (List.replicate 255 'a') ++ "mkdir" ++ " " ++ "X").data).1
      = some (String.mk (List.replicate 255 'a') ++ "mkdir") ∧
    initial.heap.dirs.length = 1 ∧
    (mainLoop 300 initial
        (typed [String.mk (List.replicate 255 'a') ++ "mkdir" ++ " " ++ "X"])).map
      (fun r => (r.1.heap.dirs.length, subdirNames r.1.heap 0, r.2))
      = some (2, some ["X"],
          ">> " ++ ("Error: Unknown command '" ++ String.mk (List.replicate 255 'a') ++ "'.\n")
            ++ ">> Created SubDirectory X\n>> Error reading input. Exiting.\n") := by
  refine ⟨by decide, by decide, rfl, ?_⟩
  decide

/-- A whole session: the text `main` writes when `mkdir A`, `ls` and `exit`
are typed. -/
theorem main_session :
    main (typed ["mkdir A", "ls", "exit"])
      = some ("Welcome to the In-Memory File System!\nAvailable commands:\n"
          ++ "  cd <directory_name>\n  mkdir <directory_name>\n  touch <file_name>\n"
          ++ "  ls\n  exit\n\n"
          ++ ">> Created SubDirectory A\n"
          ++ ">> Directories:\n  A/\nFiles:\n"
          ++ ">> Exiting the File System. Goodbye!\n") := by
  rfl

end Terminal
